import Mathlib

/-!
# A verification development for the `nnets` feed-forward toolkit

The C++ sources (`activation_functions.hpp`, `fully_connected.hpp`,
`sequence.hpp`, `xor_net.hpp`, `dataset.hpp`) are embedded shallowly.

Conventions of the embedding:

* `float` is idealised as an exact ordered field `α`.  Every definition is
  generic in `α`, so it runs on `ℚ` and is reasoned about on `ℝ`.
  `std::sqrt` and `std::exp` are passed in as functions `α → α`.
* `std::vector<float>` is `List α`.  A read `v[i]` is `v.getD i 0`, a write
  `v[i] = a` is `v.set i a`; inside the bounds these are the C++ accesses.
* A member function is a function from the object state to the next state.
  Every `for` loop is a left fold over `List.range`, in the source's order.
  `input_size_` and `output_size_` are never assigned after construction and
  are read once at the head of each member function.
* The non-owning span `input_` is modelled by the value it views at the time
  of `forward`.
* `std::string` is `List Char`, `npos` is `none`, `int` is `Int` with
  `wrap_int` where a result may leave the 32-bit range, and the conversion
  `static_cast<float>` of an `int` is the exact cast into `α`.
* A definition whose comment starts with "Specification side" follows the
  words of the specification and is compared with the embedded code.
* Where rounding decides a statement, `float` is IEEE 754 binary32: `F32`
  holds a finite number as a multiple of `2^(-149)`, every operation is the
  exact one rounded to nearest, ties to even, and the definitions with the
  suffix `_f32` are the source evaluated in it, without contraction of a
  product and a sum into one rounding.
-/

namespace nnets

variable {α : Type}

/-! ## activation_functions.hpp -/

/-- The interface a layer expects of its `ActivationFn` template argument:
`operator()` and `derivative`. -/
structure ActivationFn (α : Type) where
  apply : α → α
  derivative : α → α

/-- The source struct `RelU`; `std::max(0.0f, x)` is `(0.0f < x) ? x : 0.0f`. -/
def RelU [LinearOrderedField α] : ActivationFn α where
  apply x := if (0 : α) < x then x else 0
  derivative x := if x ≥ 0 then 1 else 0

/-- The source struct `UnitStep`. -/
def UnitStep [LinearOrderedField α] : ActivationFn α where
  apply x := if x ≥ 0 then 1 else 0
  derivative _ := 0

/-- The source struct `LogisticSigmoid` with member `lambda`; `exp` stands for `std::exp`. -/
def LogisticSigmoid [LinearOrderedField α] (exp : α → α) (lambda : α) : ActivationFn α where
  apply x := 1 / (1 + exp (lambda * -x))
  derivative x :=
    let val := 1 / (1 + exp (lambda * -x))
    val * (1 - val)

/-! ## fully_connected.hpp -/

/-- The data members of `FullyConnected<ActivationFn>`. -/
structure FullyConnected (α : Type) where
  input_size_ : Nat
  output_size_ : Nat
  activation_fn_ : ActivationFn α
  bias_ : List α
  weights_ : List α
  potential_ : List α
  output_ : List α
  output_derivative_ : List α
  input_grad_ : List α
  bias_grad_ : List α
  bias_grad_history_ : List α
  weight_grad_ : List α
  weight_grad_history_ : List α
  input_ : List α

namespace FullyConnected

variable [LinearOrderedField α]

/-- The constructor: every buffer is `resize`d from empty, which fills it with
zeros; `input_` starts as the empty span. -/
def init (input_size output_size : Nat) (activation_fn : ActivationFn α) :
    FullyConnected α where
  input_size_ := input_size
  output_size_ := output_size
  activation_fn_ := activation_fn
  bias_ := List.replicate output_size 0
  weights_ := List.replicate (input_size * output_size) 0
  potential_ := List.replicate output_size 0
  output_ := List.replicate output_size 0
  output_derivative_ := List.replicate output_size 0
  input_grad_ := List.replicate input_size 0
  bias_grad_ := List.replicate output_size 0
  bias_grad_history_ := List.replicate output_size 0
  weight_grad_ := List.replicate (input_size * output_size) 0
  weight_grad_history_ := List.replicate (input_size * output_size) 0
  input_ := []

/-- Body of the inner loop of `forward`:
`potential_[j] += weights_[j * input_size_ + i] * input[i]`. -/
def forward_acc (n : Nat) (input : List α) (j : Nat) (l : FullyConnected α) (i : Nat) :
    FullyConnected α :=
  { l with potential_ := (l.potential_.set j
      (l.potential_.getD j 0 + l.weights_.getD (j * n + i) 0 * input.getD i 0)) }

/-- Body of the first outer loop of `forward`: `potential_[j] = bias_[j]`, then
the inner loop over `i`. -/
def forward_row (n : Nat) (input : List α) (l : FullyConnected α) (j : Nat) :
    FullyConnected α :=
  (List.range n).foldl (forward_acc n input j)
    { l with potential_ := l.potential_.set j (l.bias_.getD j 0) }

/-- Body of the second loop of `forward`:
`output_[j] = activation_fn_(potential_[j])`. -/
def forward_out (l : FullyConnected α) (j : Nat) : FullyConnected α :=
  { l with output_ := l.output_.set j (l.activation_fn_.apply (l.potential_.getD j 0)) }

/-- The member function `FullyConnected::forward`. -/
def forward (l : FullyConnected α) (input : List α) : FullyConnected α :=
  let n := l.input_size_
  let m := l.output_size_
  let l := { l with input_ := input }
  let l := (List.range m).foldl (forward_row n input) l
  (List.range m).foldl forward_out l

/-- Body of the first loop of `backward`:
`output_derivative_[j] = activation_fn_.derivative(potential_[j])`. -/
def backward_deriv (l : FullyConnected α) (j : Nat) : FullyConnected α :=
  { l with output_derivative_ :=
      l.output_derivative_.set j (l.activation_fn_.derivative (l.potential_.getD j 0)) }

/-- Body of the inner loop of the second loop of `backward`:
`weight_grad_[j * input_size_ + i] += output_grad[j] * output_derivative_[j] * input_[i]`. -/
def backward_wacc (n : Nat) (output_grad : List α) (j : Nat) (l : FullyConnected α) (i : Nat) :
    FullyConnected α :=
  { l with weight_grad_ := (l.weight_grad_.set (j * n + i)
      (l.weight_grad_.getD (j * n + i) 0 +
        output_grad.getD j 0 * l.output_derivative_.getD j 0 * l.input_.getD i 0)) }

/-- The statement before the inner loop of the second loop of `backward`:
`bias_grad_[j] += output_grad[j] * output_derivative_[j]`. -/
def backward_bacc (output_grad : List α) (l : FullyConnected α) (j : Nat) :
    FullyConnected α :=
  { l with bias_grad_ := (l.bias_grad_.set j
      (l.bias_grad_.getD j 0 + output_grad.getD j 0 * l.output_derivative_.getD j 0)) }

/-- Body of the second loop of `backward`. -/
def backward_row (n : Nat) (output_grad : List α) (l : FullyConnected α) (j : Nat) :
    FullyConnected α :=
  (List.range n).foldl (backward_wacc n output_grad j) (backward_bacc output_grad l j)

/-- Body of the inner loop of the third loop of `backward`:
`input_grad_[j] += output_grad[r] * output_derivative_[r] * weights_[r * input_size_ + j]`. -/
def backward_iacc (n : Nat) (output_grad : List α) (j : Nat) (l : FullyConnected α) (r : Nat) :
    FullyConnected α :=
  { l with input_grad_ := (l.input_grad_.set j
      (l.input_grad_.getD j 0 +
        output_grad.getD r 0 * l.output_derivative_.getD r 0 * l.weights_.getD (r * n + j) 0)) }

/-- Body of the third loop of `backward`: `input_grad_[j] = 0.0f`, then the
inner loop over `r`. -/
def backward_col (n m : Nat) (output_grad : List α) (l : FullyConnected α) (j : Nat) :
    FullyConnected α :=
  (List.range m).foldl (backward_iacc n output_grad j)
    { l with input_grad_ := l.input_grad_.set j 0 }

/-- The member function `FullyConnected::backward`. -/
def backward (l : FullyConnected α) (output_grad : List α) : FullyConnected α :=
  let n := l.input_size_
  let m := l.output_size_
  let l := (List.range m).foldl backward_deriv l
  let l := (List.range m).foldl (backward_row n output_grad) l
  (List.range n).foldl (backward_col n m output_grad) l

/-- The member function `FullyConnected::zero_grad`; `assign(k, 0.0f)` replaces the content by `k`
zeros. -/
def zero_grad (l : FullyConnected α) : FullyConnected α :=
  { l with
    bias_grad_ := List.replicate l.output_size_ 0
    weight_grad_ := List.replicate (l.input_size_ * l.output_size_) 0 }

/-- Body of the inner loop of `step_grad`:
`weights_[j * input_size_ + i] -= learning_rate * weight_grad_[j * input_size_ + i]`. -/
def step_grad_w (n : Nat) (learning_rate : α) (j : Nat) (l : FullyConnected α) (i : Nat) :
    FullyConnected α :=
  { l with weights_ := (l.weights_.set (j * n + i)
      (l.weights_.getD (j * n + i) 0 - learning_rate * l.weight_grad_.getD (j * n + i) 0)) }

/-- The statement before the inner loop of `step_grad`:
`bias_[j] -= learning_rate * bias_grad_[j]`. -/
def step_grad_b (learning_rate : α) (l : FullyConnected α) (j : Nat) : FullyConnected α :=
  { l with bias_ := l.bias_.set j (l.bias_.getD j 0 - learning_rate * l.bias_grad_.getD j 0) }

/-- Body of the outer loop of `step_grad`. -/
def step_grad_row (n : Nat) (learning_rate : α) (l : FullyConnected α) (j : Nat) :
    FullyConnected α :=
  (List.range n).foldl (step_grad_w n learning_rate j) (step_grad_b learning_rate l j)

/-- The member function `FullyConnected::step_grad`. -/
def step_grad (l : FullyConnected α) (learning_rate : α) : FullyConnected α :=
  (List.range l.output_size_).foldl (step_grad_row l.input_size_ learning_rate) l

/-- Body of the inner loop of `step_grad_rms_prop`: the history entry of weight
`j * input_size_ + i` is rewritten first, the weight is then updated from the
rewritten entry. -/
def rms_prop_w (sqrt : α → α) (n : Nat) (learning_rate history_influence smoothing_term : α)
    (j : Nat) (l : FullyConnected α) (i : Nat) : FullyConnected α :=
  let l := { l with weight_grad_history_ := (l.weight_grad_history_.set (j * n + i)
      (history_influence * l.weight_grad_history_.getD (j * n + i) 0 +
        (1 - history_influence) * l.weight_grad_.getD (j * n + i) 0 *
          l.weight_grad_.getD (j * n + i) 0)) }
  { l with weights_ := (l.weights_.set (j * n + i)
      (l.weights_.getD (j * n + i) 0 -
        (learning_rate / sqrt (l.weight_grad_history_.getD (j * n + i) 0 + smoothing_term)) *
          l.weight_grad_.getD (j * n + i) 0)) }

/-- The two statements before the inner loop of `step_grad_rms_prop`, on
`bias_grad_history_[j]` and `bias_[j]`. -/
def rms_prop_b (sqrt : α → α) (learning_rate history_influence smoothing_term : α)
    (l : FullyConnected α) (j : Nat) : FullyConnected α :=
  let l := { l with bias_grad_history_ := (l.bias_grad_history_.set j
      (history_influence * l.bias_grad_history_.getD j 0 +
        (1 - history_influence) * l.bias_grad_.getD j 0 * l.bias_grad_.getD j 0)) }
  { l with bias_ := (l.bias_.set j
      (l.bias_.getD j 0 -
        (learning_rate / sqrt (l.bias_grad_history_.getD j 0 + smoothing_term)) *
          l.bias_grad_.getD j 0)) }

/-- Body of the outer loop of `step_grad_rms_prop`. -/
def rms_prop_row (sqrt : α → α) (n : Nat) (learning_rate history_influence smoothing_term : α)
    (l : FullyConnected α) (j : Nat) : FullyConnected α :=
  (List.range n).foldl (rms_prop_w sqrt n learning_rate history_influence smoothing_term j)
    (rms_prop_b sqrt learning_rate history_influence smoothing_term l j)

/-- The member function `FullyConnected::step_grad_rms_prop`; `sqrt` stands for `std::sqrt`. -/
def step_grad_rms_prop (sqrt : α → α) (l : FullyConnected α)
    (learning_rate history_influence smoothing_term : α) : FullyConnected α :=
  (List.range l.output_size_).foldl
    (rms_prop_row sqrt l.input_size_ learning_rate history_influence smoothing_term) l

/-- The member function `FullyConnected::output`. -/
def output (l : FullyConnected α) : List α := l.output_

/-- The member function `FullyConnected::input_grad`. -/
def input_grad (l : FullyConnected α) : List α := l.input_grad_

/-- The member function `FullyConnected::weights`. -/
def weights (l : FullyConnected α) : List α := l.weights_

/-- The member function `FullyConnected::bias`. -/
def bias (l : FullyConnected α) : List α := l.bias_

/-- The value `forward` leaves in `potential_[j]`, in closed form:
`bias_[j] + Σ_{i < input_size_} weights_[j * input_size_ + i] * input[i]`. -/
def affine (l : FullyConnected α) (input : List α) (j : Nat) : α :=
  l.bias_.getD j 0 +
    ∑ i in Finset.range l.input_size_, l.weights_.getD (j * l.input_size_ + i) 0 * input.getD i 0

/-- The buffer sizes the constructor establishes. -/
structure WF (l : FullyConnected α) : Prop where
  bias_len : l.bias_.length = l.output_size_
  weights_len : l.weights_.length = l.input_size_ * l.output_size_
  potential_len : l.potential_.length = l.output_size_
  output_len : l.output_.length = l.output_size_
  output_derivative_len : l.output_derivative_.length = l.output_size_
  input_grad_len : l.input_grad_.length = l.input_size_
  bias_grad_len : l.bias_grad_.length = l.output_size_
  bias_grad_history_len : l.bias_grad_history_.length = l.output_size_
  weight_grad_len : l.weight_grad_.length = l.input_size_ * l.output_size_
  weight_grad_history_len : l.weight_grad_history_.length = l.input_size_ * l.output_size_

end FullyConnected

/-! ## sequence.hpp -/

/-- The data member of `Sequence`: the member modules, here fully connected
layers, each carrying its own activation function. -/
structure Sequence (α : Type) where
  modules_ : List (FullyConnected α)

namespace Sequence

variable [LinearOrderedField α]

/-- Body of the loop of `Sequence::forward`: `module->forward(input)`, then
`input = module->output()`.  The state is the members already visited, in
order, and the current `input`. -/
def forward_step (st : List (FullyConnected α) × List α) (module : FullyConnected α) :
    List (FullyConnected α) × List α :=
  let module := module.forward st.2
  (st.1 ++ [module], module.output)

/-- The member function `Sequence::forward`. -/
def forward (s : Sequence α) (input : List α) : Sequence α :=
  { modules_ := (s.modules_.foldl forward_step ([], input)).1 }

/-- Body of the loop of `Sequence::backward`: `module->backward(output_grad)`,
then `output_grad = module->input_grad()`.  The state is the members already
visited, kept in sequence order, and the current `output_grad`. -/
def backward_step (st : List (FullyConnected α) × List α) (module : FullyConnected α) :
    List (FullyConnected α) × List α :=
  let module := module.backward st.2
  (module :: st.1, module.input_grad)

/-- The member function `Sequence::backward`: the loop runs over `modules_ | std::views::reverse`. -/
def backward (s : Sequence α) (output_grad : List α) : Sequence α :=
  { modules_ := (s.modules_.reverse.foldl backward_step ([], output_grad)).1 }

/-- The member function `Sequence::zero_grad`. -/
def zero_grad (s : Sequence α) : Sequence α :=
  { modules_ := s.modules_.map (fun module => module.zero_grad) }

/-- The member function `Sequence::step_grad`. -/
def step_grad (s : Sequence α) (coeff : α) : Sequence α :=
  { modules_ := s.modules_.map (fun module => module.step_grad coeff) }

/-- The member function `Sequence::step_grad_rms_prop`. -/
def step_grad_rms_prop (sqrt : α → α) (s : Sequence α)
    (learning_rate history_influence smoothing_term : α) : Sequence α :=
  { modules_ := s.modules_.map (fun module =>
      module.step_grad_rms_prop sqrt learning_rate history_influence smoothing_term) }

/-- The member function `Sequence::output`: `modules_.back()->output()`; `none` on the empty
sequence, where `back()` is undefined. -/
def output (s : Sequence α) : Option (List α) :=
  s.modules_.getLast?.map (fun module => module.output)

/-- The member function `Sequence::input_grad`: `modules_.front()->input_grad()`; `none` on the
empty sequence, where `front()` is undefined. -/
def input_grad (s : Sequence α) : Option (List α) :=
  s.modules_.head?.map (fun module => module.input_grad)

end Sequence

/-! ## xor_net.hpp -/

/-- The data member of `XorNet`. -/
structure XorNet (α : Type) where
  sequence_ : Sequence α

namespace XorNet

variable [LinearOrderedField α]

/-- The member function `XorNet::set_correct_weights`: two fresh `UnitStep` layers whose weights
and biases are written through `weights()` and `bias()`, then put in a new
`Sequence` that replaces `sequence_`. -/
def set_correct_weights (_net : XorNet α) : XorNet α :=
  let hidden_layer : FullyConnected α := FullyConnected.init 2 2 UnitStep
  let output_layer : FullyConnected α := FullyConnected.init 2 1 UnitStep
  let hidden_layer := { hidden_layer with weights_ := hidden_layer.weights_.set 0 2 }
  let hidden_layer := { hidden_layer with weights_ := hidden_layer.weights_.set 1 2 }
  let hidden_layer := { hidden_layer with weights_ := hidden_layer.weights_.set 2 (-2) }
  let hidden_layer := { hidden_layer with weights_ := hidden_layer.weights_.set 3 (-2) }
  let hidden_layer := { hidden_layer with bias_ := hidden_layer.bias_.set 0 (-1) }
  let hidden_layer := { hidden_layer with bias_ := hidden_layer.bias_.set 1 3 }
  let output_layer := { output_layer with weights_ := output_layer.weights_.set 0 1 }
  let output_layer := { output_layer with weights_ := output_layer.weights_.set 1 1 }
  let output_layer := { output_layer with bias_ := output_layer.bias_.set 0 (-2) }
  { sequence_ := { modules_ := [hidden_layer, output_layer] } }

/-- The constructor `XorNet::XorNet`: two fresh `LogisticSigmoid` layers
(`lambda = 1.0f`). -/
def init (exp : α → α) : XorNet α :=
  { sequence_ := { modules_ :=
      [FullyConnected.init 2 2 (LogisticSigmoid exp 1),
       FullyConnected.init 2 1 (LogisticSigmoid exp 1)] } }

/-- The member function `XorNet::forward`. -/
def forward (net : XorNet α) (input : List α) : XorNet α :=
  { sequence_ := net.sequence_.forward input }

/-- The member function `XorNet::output`. -/
def output (net : XorNet α) : Option (List α) := net.sequence_.output

end XorNet

end nnets

/-! ## Manual chaining and sample objects -/

namespace nnets

variable {α : Type} [LinearOrderedField α]

/-- Chaining `forward` by hand, as a driver without `Sequence` would write it:
`layer1.forward(x)`, then `layer2.forward(layer1.output())`, and so on. -/
def manual_forward : List (FullyConnected α) → List α → List (FullyConnected α)
  | [], _ => []
  | layer :: rest, x =>
    let layer := layer.forward x
    layer :: manual_forward rest layer.output

/-- Chaining `backward` by hand: the last layer receives `g`, every other
layer receives `input_grad()` of the layer after it.  The second component is
the gradient handed to whatever precedes the chain. -/
def manual_backward : List (FullyConnected α) → List α → List (FullyConnected α) × List α
  | [], g => ([], g)
  | layer :: rest, g =>
    let r := manual_backward rest g
    let layer := layer.backward r.2
    (layer :: r.1, layer.input_grad)

/-- The scalar loss of the gradient check, `L = Σ_j g[j] * output()[j]` read
after `forward(x)`.  It is the test quantity of the check, not a function of
the sources. -/
def loss (l : FullyConnected α) (g x : List α) : α :=
  ∑ j in Finset.range l.output_size_, g.getD j 0 * (l.forward x).output.getD j 0

/-- The vector `v + e * e_i`: entry `i` moved by `e`. -/
def perturb (v : List α) (i : Nat) (e : α) : List α :=
  v.set i (v.getD i 0 + e)

/-- The central difference of the loss in input component `i`:
`(L(x + e * e_i) - L(x - e * e_i)) / (2 * e)`. -/
def central_diff_input (l : FullyConnected α) (g x : List α) (i : Nat) (e : α) : α :=
  (loss l g (perturb x i e) - loss l g (perturb x i (-e))) / (2 * e)

/-- The central difference of the loss in the weight of flat index `k`. -/
def central_diff_weight (l : FullyConnected α) (g x : List α) (k : Nat) (e : α) : α :=
  (loss { l with weights_ := perturb l.weights_ k e } g x -
    loss { l with weights_ := perturb l.weights_ k (-e) } g x) / (2 * e)

/-- A 1x1 layer with weight `1` and bias `0`: its pre-activation is its input. -/
def kink_layer (α : Type) [LinearOrderedField α] (activation_fn : ActivationFn α) :
    FullyConnected α :=
  { (FullyConnected.init 1 1 activation_fn : FullyConnected α) with weights_ := [1] }

/-- A 2x2 `RelU` layer with weights `[1, 2, 3, 4]`, biases `[1, -100]` and
gradient accumulators `[1, 2, 3, 4]`, `[5, 6]`. -/
def sample_layer (α : Type) [LinearOrderedField α] : FullyConnected α :=
  { (FullyConnected.init 2 2 RelU : FullyConnected α) with
    weights_ := [1, 2, 3, 4]
    bias_ := [1, -100]
    weight_grad_ := [1, 2, 3, 4]
    bias_grad_ := [5, 6] }

/-- The sample layer after earlier training: the RMSProp history of bias `0` is
`100`, above the square of its accumulated gradient `5`; the history of bias
`1` is still `0`. -/
def history_layer (α : Type) [LinearOrderedField α] : FullyConnected α :=
  { sample_layer α with bias_grad_history_ := [100, 0] }

end nnets

/-! ## dataset.hpp -/

namespace nnets

/-- The value an `int` holds when the exact result of an `int` computation is
`z`: inside `[-2^31, 2^31)` it is `z`; outside, where C++ leaves signed
overflow undefined, the two's-complement wrap-around is taken. -/
def wrap_int (z : Int) : Int :=
  (z + 2147483648) % 4294967296 - 2147483648

/-- The type alias `Dataset`: `std::vector<std::pair<std::vector<float>, int>>`. -/
abbrev Dataset (α : Type) : Type := List (List α × Int)

/-- The function `num_categories`: `max_cat` starts at `0`, every pair replaces
it by `std::max(max_cat, label)`, which is `(max_cat < label) ? label : max_cat`,
and `max_cat + 1` is returned. -/
def num_categories {α : Type} (dataset : Dataset α) : Int :=
  let max_cat := dataset.foldl (fun max_cat p => if max_cat < p.2 then p.2 else max_cat) 0
  wrap_int (max_cat + 1)

/-- The library predicate `isspace` in the C locale. -/
def is_space (c : Char) : Bool :=
  c = ' ' || c = '\t' || c = '\n' || c = '\x0b' || c = '\x0c' || c = '\r'

/-- The digit loop of the library function `std::atoi`: while the next
character is a decimal digit, `value = value * 10 + (c - '0')`. -/
def atoi_digits : List Char → Int → Int
  | [], value => value
  | c :: rest, value =>
    if c.isDigit then atoi_digits rest (value * 10 + ((c.toNat - 48 : Nat) : Int)) else value

/-- The library function `std::atoi`, as the C standard describes it: leading
white space is skipped, an optional sign is read, then the longest run of
decimal digits; the result is an `int`. -/
def atoi (s : List Char) : Int :=
  match s.dropWhile is_space with
  | '-' :: rest => wrap_int (-(atoi_digits rest 0))
  | '+' :: rest => wrap_int (atoi_digits rest 0)
  | rest => wrap_int (atoi_digits rest 0)

/-- The member function `std::string::find_first_of(c, start)`: the first
position `>= start` that holds `c`, `none` for `npos`. -/
def find_first_of (input : List Char) (c : Char) (start : Nat) : Option Nat :=
  let rest := input.drop start
  let k := (rest.takeWhile (fun d => d != c)).length
  if k < rest.length then some (start + k) else none

/-- The member function `std::string::substr(pos, n)`, `n = none` for `npos`;
every call made by `parse_input_vector` has `pos <= size()`, where it does not
throw. -/
def substr (input : List Char) (pos : Nat) (n : Option Nat) : List Char :=
  match n with
  | none => input.drop pos
  | some n => (input.drop pos).take n

/-- The `do ... while` loop of `parse_input_vector`, one iteration per unit of
`fuel`; `none` when the fuel runs out before the loop ends.  A `start` equal to
`npos` ends the loop, so the recursive call is made only on `end + 1`. -/
def parse_loop {α : Type} [LinearOrderedField α] :
    Nat → List Char → Nat → List α → Option (List α)
  | 0, _, _, _ => none
  | fuel + 1, input, start, result =>
    let end_ := find_first_of input ',' start
    let n := end_.map (fun e => e - start)
    let val_chars := substr input start n
    if val_chars.isEmpty then some result
    else
      let value := atoi val_chars
      let result := result ++ [(value : α)]
      match end_ with
      | none => some result
      | some e => parse_loop fuel input (e + 1) result

/-- The function `parse_input_vector`; `start` grows at every iteration and
the loop ends once it passes the end of the string, so `size() + 1`
iterations are enough. -/
def parse_input_vector {α : Type} [LinearOrderedField α] (input : List Char) :
    Option (List α) :=
  parse_loop (input.length + 1) input 0 []

/-- The string made of the fields joined by `','`. -/
def join_comma : List (List Char) → List Char
  | [] => []
  | [field] => field
  | field :: rest => field ++ ',' :: join_comma rest

/-- Specification side: the comma-separated fields of a string, in order; a
string with `k` commas has `k + 1` fields, and a field may be empty. -/
def comma_fields (input : List Char) : List (List Char) :=
  input.splitOn ','

/-- Specification side: the `atoi` values of the comma-separated fields that
precede the first empty field. -/
def values_before_first_empty_field (input : List Char) : List Int :=
  ((comma_fields input).takeWhile (fun field => !field.isEmpty)).map atoi

end nnets

/-! ## Call sequences on one layer, visiting orders -/

namespace nnets

variable {α : Type} [LinearOrderedField α]

/-- One call of a member function of the module interface, with its
arguments. -/
inductive Call (α : Type) where
  | forward (input : List α)
  | backward (output_grad : List α)
  | zero_grad
  | step_grad (learning_rate : α)
  | step_grad_rms_prop (learning_rate history_influence smoothing_term : α)

/-- The state a layer is in after one call. -/
def FullyConnected.call (sqrt : α → α) (l : FullyConnected α) : Call α → FullyConnected α
  | Call.forward input => l.forward input
  | Call.backward output_grad => l.backward output_grad
  | Call.zero_grad => l.zero_grad
  | Call.step_grad learning_rate => l.step_grad learning_rate
  | Call.step_grad_rms_prop learning_rate history_influence smoothing_term =>
    l.step_grad_rms_prop sqrt learning_rate history_influence smoothing_term

/-- The state a layer is in after a finite sequence of calls, made in order. -/
def FullyConnected.run (sqrt : α → α) (l : FullyConnected α) (calls : List (Call α)) :
    FullyConnected α :=
  calls.foldl (FullyConnected.call sqrt) l

/-- The loop `for (auto& module : modules_) module->op()` of `Sequence` when the
members are seen as the shared pointers they are: `objects` are the layer
objects in memory, `pointers` gives for every position of `modules_`, in
order, the index of the object its pointer refers to, and the loop calls `op`
on the pointee of one position after the other.  `Sequence α` above is the
case in which position `i` refers to object `i`. -/
def visit (op : FullyConnected α → FullyConnected α) (pointers : List Nat)
    (objects : List (FullyConnected α)) : List (FullyConnected α) :=
  pointers.foldl (fun objects p =>
    match objects[p]? with
    | some module => objects.set p (op module)
    | none => objects) objects

end nnets

/-! ## IEEE 754 binary32, and `step_grad_rms_prop` evaluated in it -/

namespace nnets

/-- A binary32 number.  Every finite binary32 number is an integer multiple of
the smallest subnormal `2^(-149)`, and `fin k` is the number `k * 2^(-149)`;
`nan` stands for the infinities and NaN.  The sign of a zero is not kept. -/
inductive F32 where
  | fin (k : Int)
  | nan
deriving DecidableEq

/-- The number of binary digits of `n`, in at most `fuel` halvings. -/
def bit_length_fuel : Nat → Nat → Nat
  | 0, _ => 0
  | fuel + 1, n => if n = 0 then 0 else bit_length_fuel fuel (n / 2) + 1

/-- The number of binary digits of `n`: `0` for `0`, else the `L` with
`2^(L-1) <= n < 2^L`. -/
def bit_length (n : Nat) : Nat := bit_length_fuel n n

/-- Rounding to nearest, ties to even, of the number `num / den` counted in
units of `2^(-149)`.  The spacing `2^q` of the binary32 numbers around it is
`1` unit below `2^24` units (the subnormal and the lowest normal range) and
otherwise leaves a 24-bit significand; `n` is the number of whole spacings,
`r` the remainder, and `n` is raised when the remainder is above half a
spacing, or is half a spacing and `n` is odd.  The result is `none` on
overflow, when the rounded number reaches `2^128`. -/
def round_nearest_even (num den : Nat) : Option Nat :=
  let q := bit_length (num / den) - 24
  let d := den * 2 ^ q
  let n := num / d
  let r := num % d
  let n := if d < 2 * r ∨ (2 * r = d ∧ n % 2 = 1) then n + 1 else n
  if n * 2 ^ q < 2 ^ 128 * 2 ^ 149 then some (n * 2 ^ q) else none

/-- The loop of the integer square root: the bits of the root are settled
from bit `b - 1` down to bit `0`. -/
def isqrt_bits (N : Nat) : Nat → Nat → Nat
  | 0, r => r
  | b + 1, r => isqrt_bits N b (if (r + 2 ^ b) ^ 2 ≤ N then r + 2 ^ b else r)

/-- The integer square root: the largest `r` with `r^2 <= N`. -/
def isqrt (N : Nat) : Nat := isqrt_bits N (bit_length N / 2 + 1) 0

/-- Rounding to nearest, ties to even, of the square root of `N`, counted in
units of `2^(-149)`: `n` is the number of whole spacings `2^q` in the root,
and it is raised when the root is above `n + 1/2` spacings, which is
`(2 n + 1)^2 * 4^q < 4 N`. -/
def round_sqrt (N : Nat) : Nat :=
  let q := bit_length (isqrt N) - 24
  let n := isqrt (N / 4 ^ q)
  let n := if (2 * n + 1) ^ 2 * 4 ^ q < 4 * N ∨ ((2 * n + 1) ^ 2 * 4 ^ q = 4 * N ∧ n % 2 = 1)
    then n + 1 else n
  n * 2 ^ q

namespace F32

/-- The binary32 number nearest to `num / den` units of `2^(-149)`. -/
def round (num : Int) (den : Nat) : F32 :=
  match round_nearest_even num.natAbs den with
  | some k => fin (if num < 0 then -(k : Int) else k)
  | none => nan

/-- The value of a decimal literal with suffix `f`: the binary32 number nearest
to `num / den`. -/
def ofRat (num : Int) (den : Nat) : F32 := round (num * 2 ^ 149) den

/-- The operator `+` of `float`: the exact sum, rounded. -/
def add : F32 → F32 → F32
  | fin a, fin b => round (a + b) 1
  | _, _ => nan

/-- The operator `-` of `float`: the exact difference, rounded. -/
def sub : F32 → F32 → F32
  | fin a, fin b => round (a - b) 1
  | _, _ => nan

/-- The operator `*` of `float`: the exact product `a * b * 2^(-298)`, rounded. -/
def mul : F32 → F32 → F32
  | fin a, fin b => round (a * b) (2 ^ 149)
  | _, _ => nan

/-- The operator `/` of `float`: the exact quotient, rounded; a division by
zero is not finite. -/
def div : F32 → F32 → F32
  | fin a, fin b => if b = 0 then nan else round (a * b.sign * 2 ^ 149) b.natAbs
  | _, _ => nan

/-- The function `std::sqrt` on `float`, correctly rounded: the square root of
`a * 2^(-149)` is the square root of `a * 2^149` units. -/
def sqrt : F32 → F32
  | fin a => if a < 0 then nan else fin (round_sqrt (a.toNat * 2 ^ 149))
  | nan => nan

/-- The number of units `2^(-149)` in a finite binary32 number. -/
def units : F32 → Int
  | fin k => k
  | nan => 0

/-- The comparison `a <= b` of `float`, false when an operand is not finite. -/
def le : F32 → F32 → Bool
  | fin a, fin b => decide (a ≤ b)
  | _, _ => false

/-- The comparison `a < b` of `float`, false when an operand is not finite. -/
def lt : F32 → F32 → Bool
  | fin a, fin b => decide (a < b)
  | _, _ => false

end F32

instance : OfNat F32 0 := ⟨F32.fin 0⟩

instance : OfNat F32 1 := ⟨F32.fin (2 ^ 149)⟩

instance : Add F32 := ⟨F32.add⟩

instance : Sub F32 := ⟨F32.sub⟩

instance : Mul F32 := ⟨F32.mul⟩

instance : Div F32 := ⟨F32.div⟩

/-- The source struct `UnitStep`, on binary32. -/
def UnitStep_f32 : ActivationFn F32 where
  apply x := if F32.le 0 x then 1 else 0
  derivative _ := 0

namespace FullyConnected

/-- Body of the inner loop of `step_grad_rms_prop`, every operation rounded to
binary32 in the order the source evaluates it. -/
def rms_prop_w_f32 (n : Nat) (learning_rate history_influence smoothing_term : F32)
    (j : Nat) (l : FullyConnected F32) (i : Nat) : FullyConnected F32 :=
  let l := { l with weight_grad_history_ := (l.weight_grad_history_.set (j * n + i)
      (history_influence * l.weight_grad_history_.getD (j * n + i) 0 +
        (1 - history_influence) * l.weight_grad_.getD (j * n + i) 0 *
          l.weight_grad_.getD (j * n + i) 0)) }
  { l with weights_ := (l.weights_.set (j * n + i)
      (l.weights_.getD (j * n + i) 0 -
        (learning_rate /
            F32.sqrt (l.weight_grad_history_.getD (j * n + i) 0 + smoothing_term)) *
          l.weight_grad_.getD (j * n + i) 0)) }

/-- The two statements before the inner loop of `step_grad_rms_prop`, every
operation rounded to binary32. -/
def rms_prop_b_f32 (learning_rate history_influence smoothing_term : F32)
    (l : FullyConnected F32) (j : Nat) : FullyConnected F32 :=
  let l := { l with bias_grad_history_ := (l.bias_grad_history_.set j
      (history_influence * l.bias_grad_history_.getD j 0 +
        (1 - history_influence) * l.bias_grad_.getD j 0 * l.bias_grad_.getD j 0)) }
  { l with bias_ := (l.bias_.set j
      (l.bias_.getD j 0 -
        (learning_rate / F32.sqrt (l.bias_grad_history_.getD j 0 + smoothing_term)) *
          l.bias_grad_.getD j 0)) }

/-- Body of the outer loop of `step_grad_rms_prop`, in binary32. -/
def rms_prop_row_f32 (n : Nat) (learning_rate history_influence smoothing_term : F32)
    (l : FullyConnected F32) (j : Nat) : FullyConnected F32 :=
  (List.range n).foldl (rms_prop_w_f32 n learning_rate history_influence smoothing_term j)
    (rms_prop_b_f32 learning_rate history_influence smoothing_term l j)

/-- The member function `FullyConnected::step_grad_rms_prop`, in binary32. -/
def step_grad_rms_prop_f32 (l : FullyConnected F32)
    (learning_rate history_influence smoothing_term : F32) : FullyConnected F32 :=
  (List.range l.output_size_).foldl
    (rms_prop_row_f32 l.input_size_ learning_rate history_influence smoothing_term) l

end FullyConnected

/-- A 1x1 layer as the constructor leaves it, every buffer zero, whose two
gradient accumulators were then set to `1e-8f`. -/
def f32_layer : FullyConnected F32 where
  input_size_ := 1
  output_size_ := 1
  activation_fn_ := UnitStep_f32
  bias_ := [0]
  weights_ := [0]
  potential_ := [0]
  output_ := [0]
  output_derivative_ := [0]
  input_grad_ := [0]
  bias_grad_ := [F32.ofRat 1 (10 ^ 8)]
  bias_grad_history_ := [0]
  weight_grad_ := [F32.ofRat 1 (10 ^ 8)]
  weight_grad_history_ := [0]
  input_ := []

end nnets

/-! ## Reading and writing vectors -/

namespace nnets

section Lists

variable {β : Type}

theorem getD_set_self (v : List β) (i : Nat) (a d : β) (h : i < v.length) :
    (v.set i a).getD i d = a := by
  rw [List.getD_eq_getElem?_getD, List.getElem?_set_self h]
  rfl

theorem getD_set_other (v : List β) (i k : Nat) (a d : β) (h : k ≠ i) :
    (v.set i a).getD k d = v.getD k d := by
  rw [List.getD_eq_getElem?_getD, List.getD_eq_getElem?_getD,
    List.getElem?_set_ne (Ne.symm h)]

theorem getD_replicate_zero [Zero β] (n k : Nat) :
    (List.replicate n (0 : β)).getD k 0 = 0 := by
  rw [List.getD_eq_getElem?_getD, List.getElem?_replicate]
  split <;> rfl

theorem getD_of_length_le (v : List β) (k : Nat) (d : β) (h : v.length ≤ k) :
    v.getD k d = d := by
  rw [List.getD_eq_getElem?_getD, List.getElem?_eq_none h]
  rfl

/-- Two vectors of one length with the same reads are equal. -/
theorem ext_getD (v w : List β) (d : β) (hlen : v.length = w.length)
    (h : ∀ k, k < v.length → v.getD k d = w.getD k d) : v = w := by
  apply List.ext_getElem hlen
  intro k hv hw
  have := h k hv
  rw [List.getD_eq_getElem?_getD, List.getD_eq_getElem?_getD,
    List.getElem?_eq_getElem hv, List.getElem?_eq_getElem hw] at this
  simpa using this

/-- Writing back the value just read leaves the vector as it was. -/
theorem set_getD_self (v : List β) (i : Nat) (d : β) : v.set i (v.getD i d) = v := by
  by_cases h : i < v.length
  · apply ext_getD _ _ d (by simp)
    intro k _
    by_cases hk : k = i
    · subst hk; rw [getD_set_self _ _ _ _ h]
    · rw [getD_set_other _ _ _ _ _ hk]
  · exact List.set_eq_of_length_le (Nat.le_of_not_lt h)

/-- A vector is the tabulation of its reads. -/
theorem eq_map_range_of_getD (v : List β) (m : Nat) (F : Nat → β) (d : β)
    (hlen : v.length = m) (h : ∀ k, k < m → v.getD k d = F k) :
    v = (List.range m).map F := by
  apply ext_getD _ _ d (by rw [hlen]; simp)
  intro k hk
  rw [hlen] at hk
  rw [h k hk, List.getD_eq_getElem?_getD, List.getElem?_map, List.getElem?_range hk]
  rfl

theorem idx_lt {j i n m : Nat} (hj : j < m) (hi : i < n) : j * n + i < n * m := by
  have h1 : (j + 1) * n ≤ m * n := Nat.mul_le_mul_right n hj
  have h2 : (j + 1) * n = j * n + n := by ring
  have h3 : m * n = n * m := Nat.mul_comm m n
  omega

theorem idx_div {j i n : Nat} (hi : i < n) : (j * n + i) / n = j := by
  have hn : 0 < n := by omega
  rw [Nat.mul_comm, Nat.mul_add_div hn, Nat.div_eq_of_lt hi]
  rfl

theorem idx_mod {j i n : Nat} (hi : i < n) : (j * n + i) % n = i := by
  rw [Nat.mul_comm, Nat.mul_add_mod, Nat.mod_eq_of_lt hi]

end Lists

/-! ## Loops as folds -/

section Loops

variable {S β : Type}

/-- A property every iteration keeps holds after the loop. -/
theorem foldl_inv {A : Type} (Inv : S → Prop) (f : S → A → S)
    (hInv : ∀ s a, Inv s → Inv (f s a)) (xs : List A) (s : S) (h : Inv s) :
    Inv (xs.foldl f s) := by
  induction xs generalizing s with
  | nil => exact h
  | cons a xs ih => exact ih _ (hInv s a h)

/-- A loop whose `j`-th iteration rewrites entry `j` from its old value and
touches no other entry. -/
theorem foldl_range_get (get : S → Nat → β) (Inv : S → Prop) (N : Nat)
    (f : S → Nat → S) (F : Nat → β → β)
    (hInv : ∀ s j, Inv s → Inv (f s j))
    (hother : ∀ s j k, Inv s → k ≠ j → get (f s j) k = get s k)
    (hself : ∀ s j, Inv s → j < N → get (f s j) j = F j (get s j)) :
    ∀ m, m ≤ N → ∀ s, Inv s → ∀ k,
      get ((List.range m).foldl f s) k = if k < m then F k (get s k) else get s k := by
  intro m
  induction m with
  | zero => intro _ s _ k; simp
  | succ m ih =>
    intro hm s hs k
    have hI : Inv ((List.range m).foldl f s) := foldl_inv Inv f hInv _ s hs
    rw [List.range_succ, List.foldl_append, List.foldl_cons, List.foldl_nil]
    by_cases hk : k = m
    · subst hk
      rw [hself _ _ hI (by omega), ih (by omega) s hs k]
      simp
    · rw [hother _ _ _ hI hk, ih (by omega) s hs k]
      by_cases hlt : k < m
      · simp [hlt, Nat.lt_succ_of_lt hlt]
      · have : ¬ k < m + 1 := by omega
        simp [hlt, this]

/-- A loop that adds `c i` to one cell at its `i`-th iteration adds up the
`c i`. -/
theorem foldl_range_acc [AddCommMonoid β] (get : S → β) (Inv : S → Prop)
    (f : S → Nat → S) (c : Nat → β)
    (hInv : ∀ s i, Inv s → Inv (f s i))
    (hstep : ∀ s i, Inv s → get (f s i) = get s + c i) :
    ∀ n s, Inv s → get ((List.range n).foldl f s) = get s + ∑ i in Finset.range n, c i := by
  intro n
  induction n with
  | zero => intro s _; simp
  | succ n ih =>
    intro s hs
    have hI : Inv ((List.range n).foldl f s) := foldl_inv Inv f hInv _ s hs
    rw [List.range_succ, List.foldl_append, List.foldl_cons, List.foldl_nil,
      hstep _ _ hI, ih s hs, Finset.sum_range_succ, add_assoc]

/-- One row of a row-major sweep: iteration `i` rewrites entry `j * n + i`. -/
theorem foldl_row_get (get : S → Nat → β) (Inv : S → Prop) (n j : Nat)
    (f : S → Nat → S) (F : Nat → β → β)
    (hInv : ∀ s i, Inv s → Inv (f s i))
    (hother : ∀ s i k, Inv s → k ≠ j * n + i → get (f s i) k = get s k)
    (hself : ∀ s i, Inv s → i < n → get (f s i) (j * n + i) = F i (get s (j * n + i))) :
    ∀ t, t ≤ n → ∀ s, Inv s → ∀ k,
      get ((List.range t).foldl f s) k =
        if j * n ≤ k ∧ k < j * n + t then F (k - j * n) (get s k) else get s k := by
  intro t
  induction t with
  | zero =>
    intro _ s _ k
    rw [if_neg (by omega)]
    rfl
  | succ t ih =>
    intro ht s hs k
    have hI : Inv ((List.range t).foldl f s) := foldl_inv Inv f hInv _ s hs
    rw [List.range_succ, List.foldl_append, List.foldl_cons, List.foldl_nil]
    by_cases hk : k = j * n + t
    · subst hk
      rw [hself _ _ hI (by omega), ih (by omega) s hs]
      have h3 : j * n + t - j * n = t := by omega
      rw [if_neg (by omega), if_pos (by omega), h3]
    · rw [hother _ _ _ hI hk, ih (by omega) s hs k]
      by_cases hr : j * n ≤ k ∧ k < j * n + t
      · rw [if_pos hr, if_pos (by omega)]
      · rw [if_neg hr, if_neg (by omega)]

/-- A row-major sweep over `m` rows of width `n`: iteration `(j, i)` rewrites
entry `j * n + i` from its old value; `pre` is the part of an outer iteration
that comes before the inner loop and leaves the entries alone. -/
theorem foldl_rows_get (get : S → Nat → β) (Inv : S → Prop) (n M : Nat)
    (pre : S → Nat → S) (f : Nat → S → Nat → S) (F : Nat → Nat → β → β)
    (hpreInv : ∀ s j, Inv s → Inv (pre s j))
    (hpre : ∀ s j k, Inv s → get (pre s j) k = get s k)
    (hInv : ∀ s j i, Inv s → Inv (f j s i))
    (hother : ∀ s j i k, Inv s → k ≠ j * n + i → get (f j s i) k = get s k)
    (hself : ∀ s j i, Inv s → j < M → i < n →
      get (f j s i) (j * n + i) = F j i (get s (j * n + i))) :
    ∀ m, m ≤ M → ∀ s, Inv s → ∀ k,
      get ((List.range m).foldl (fun s j => (List.range n).foldl (f j) (pre s j)) s) k =
        if k < m * n then F (k / n) (k % n) (get s k) else get s k := by
  intro m
  induction m with
  | zero => intro _ s _ k; simp
  | succ m ih =>
    intro hm s hs k
    have hrowInv : ∀ s j, Inv s → Inv ((List.range n).foldl (f j) (pre s j)) :=
      fun s j h => foldl_inv Inv (f j) (fun s i => hInv s j i) _ _ (hpreInv s j h)
    have hI : Inv ((List.range m).foldl
        (fun s j => (List.range n).foldl (f j) (pre s j)) s) :=
      foldl_inv Inv _ hrowInv _ s hs
    rw [List.range_succ, List.foldl_append, List.foldl_cons, List.foldl_nil]
    rw [foldl_row_get get Inv n m (f m) (F m) (fun s i => hInv s m i)
      (fun s i k => hother s m i k) (fun s i h hi => hself s m i h (by omega) hi)
      n (le_refl n) _ (hpreInv _ _ hI) k, hpre _ _ _ hI, ih (by omega) s hs k]
    have hsucc : (m + 1) * n = m * n + n := by ring
    by_cases hr : m * n ≤ k ∧ k < m * n + n
    · have hlt : ¬ k < m * n := by omega
      have hlt2 : k < (m + 1) * n := by omega
      have hin : k - m * n < n := by omega
      have hk : k = m * n + (k - m * n) := by omega
      have hd : k / n = m := by rw [hk]; exact idx_div hin
      have hmod : k % n = k - m * n := by rw [hk]; simpa using idx_mod hin
      rw [if_pos hr, if_neg hlt, if_pos hlt2, hd, hmod]
    · by_cases hlt : k < m * n
      · rw [if_neg hr, if_pos hlt, if_pos (by omega)]
      · rw [if_neg hr, if_neg hlt, if_neg (by omega)]

/-- Reading a vector that was tabulated over `List.range`. -/
theorem getD_map_range (m : Nat) (F : Nat → β) (k : Nat) (d : β) :
    ((List.range m).map F).getD k d = if k < m then F k else d := by
  rw [List.getD_eq_getElem?_getD, List.getElem?_map]
  by_cases h : k < m
  · rw [List.getElem?_range h, if_pos h]; rfl
  · rw [if_neg h, List.getElem?_eq_none (by simpa using h)]; rfl

/-- The vector left by a loop whose `j`-th iteration rewrites entry `j`. -/
theorem foldl_range_list (getL : S → List β) (Inv : S → Prop) (m : Nat)
    (f : S → Nat → S) (F : Nat → β → β) (d : β)
    (hInv : ∀ s j, Inv s → Inv (f s j))
    (hlen : ∀ s, Inv s → (getL s).length = m)
    (hother : ∀ s j k, Inv s → k ≠ j → (getL (f s j)).getD k d = (getL s).getD k d)
    (hself : ∀ s j, Inv s → j < m → (getL (f s j)).getD j d = F j ((getL s).getD j d))
    (s : S) (hs : Inv s) :
    getL ((List.range m).foldl f s) = (List.range m).map (fun j => F j ((getL s).getD j d)) := by
  have hI : Inv ((List.range m).foldl f s) := foldl_inv Inv f hInv _ s hs
  apply ext_getD _ _ d
  · rw [hlen _ hI]; simp
  · intro k hk
    rw [hlen _ hI] at hk
    rw [foldl_range_get (fun s k => (getL s).getD k d) Inv m f F hInv hother hself m
      (le_refl m) s hs k, getD_map_range, if_pos hk, if_pos hk]

/-- The vector left by a row-major sweep over `m` rows of width `n`. -/
theorem foldl_rows_list (getL : S → List β) (Inv : S → Prop) (n m : Nat)
    (pre : S → Nat → S) (f : Nat → S → Nat → S) (F : Nat → Nat → β → β) (d : β)
    (hpreInv : ∀ s j, Inv s → Inv (pre s j))
    (hpre : ∀ s j, Inv s → getL (pre s j) = getL s)
    (hInv : ∀ s j i, Inv s → Inv (f j s i))
    (hlen : ∀ s, Inv s → (getL s).length = n * m)
    (hother : ∀ s j i k, Inv s → k ≠ j * n + i →
      (getL (f j s i)).getD k d = (getL s).getD k d)
    (hself : ∀ s j i, Inv s → j < m → i < n →
      (getL (f j s i)).getD (j * n + i) d = F j i ((getL s).getD (j * n + i) d))
    (s : S) (hs : Inv s) :
    getL ((List.range m).foldl (fun s j => (List.range n).foldl (f j) (pre s j)) s) =
      (List.range (n * m)).map (fun k => F (k / n) (k % n) ((getL s).getD k d)) := by
  have hrowInv : ∀ s j, Inv s → Inv ((List.range n).foldl (f j) (pre s j)) :=
    fun s j h => foldl_inv Inv (f j) (fun s i => hInv s j i) _ _ (hpreInv s j h)
  have hI := foldl_inv Inv _ hrowInv (List.range m) s hs
  apply ext_getD _ _ d
  · rw [hlen _ hI]; simp
  · intro k hk
    rw [hlen _ hI] at hk
    have hk2 : k < m * n := by rwa [Nat.mul_comm]
    rw [foldl_rows_get (fun s k => (getL s).getD k d) Inv n m pre f F hpreInv
      (fun s j k h => by show (getL (pre s j)).getD k d = _; rw [hpre s j h]) hInv hother hself m (le_refl m) s hs k,
      getD_map_range, if_pos hk, if_pos hk2]

end Loops

/-! ## FullyConnected::forward -/

namespace FullyConnected

variable [LinearOrderedField α]

/-- The inner loop of `forward` changes `potential_` only, keeps its length and
leaves every cell but `j` alone. -/
theorem forward_row_frame (n : Nat) (x : List α) (l : FullyConnected α) (j : Nat) :
    { forward_row n x l j with potential_ := l.potential_ } = l ∧
      (forward_row n x l j).potential_.length = l.potential_.length ∧
      ∀ k, k ≠ j → (forward_row n x l j).potential_.getD k 0 = l.potential_.getD k 0 := by
  have h := foldl_inv
    (fun s : FullyConnected α => { s with potential_ := l.potential_ } = l ∧
      s.potential_.length = l.potential_.length ∧
      ∀ k, k ≠ j → s.potential_.getD k 0 = l.potential_.getD k 0)
    (forward_acc n x j)
    (fun s i h => ⟨h.1, by simp [forward_acc, h.2.1],
      fun k hk => by
        show ((s.potential_.set j _).getD k 0 : α) = _
        rw [getD_set_other _ _ _ _ _ hk]
        exact h.2.2 k hk⟩)
    (List.range n) { l with potential_ := l.potential_.set j (l.bias_.getD j 0) }
    ⟨rfl, by simp, fun k hk => getD_set_other _ _ _ _ _ hk⟩
  exact h

/-- The inner loop of `forward` leaves in cell `j` the bias plus the weighted
sum of the inputs. -/
theorem forward_row_potential (n : Nat) (x : List α) (l : FullyConnected α) (j : Nat)
    (hj : j < l.potential_.length) :
    (forward_row n x l j).potential_.getD j 0 =
      l.bias_.getD j 0 +
        ∑ i in Finset.range n, l.weights_.getD (j * n + i) 0 * x.getD i 0 := by
  have h := foldl_range_acc (fun s : FullyConnected α => s.potential_.getD j 0)
    (fun s => s.weights_ = l.weights_ ∧ j < s.potential_.length)
    (forward_acc n x j) (fun i => l.weights_.getD (j * n + i) 0 * x.getD i 0)
    (fun s i h => ⟨h.1, by simpa [forward_acc] using h.2⟩)
    (fun s i h => by
      show ((s.potential_.set j _).getD j 0 : α) = _
      rw [getD_set_self _ _ _ _ h.2, h.1])
    n { l with potential_ := l.potential_.set j (l.bias_.getD j 0) }
    ⟨rfl, by simpa using hj⟩
  refine h.trans ?_
  show ((l.potential_.set j _).getD j 0 : α) + _ = _
  rw [getD_set_self _ _ _ _ hj]

/-- The first loop of `forward`, in closed form. -/
theorem forward_loop1 (n : Nat) (x : List α) (l : FullyConnected α) (m : Nat)
    (hp : l.potential_.length = m) :
    (List.range m).foldl (forward_row n x) l =
      { l with potential_ := (List.range m).map (fun j =>
          l.bias_.getD j 0 + ∑ i in Finset.range n, l.weights_.getD (j * n + i) 0 * x.getD i 0) } := by
  have hInv : ∀ (s : FullyConnected α) (j : Nat),
      ({ s with potential_ := l.potential_ } = l ∧ s.potential_.length = m) →
      ({ forward_row n x s j with potential_ := l.potential_ } = l ∧
        (forward_row n x s j).potential_.length = m) := fun s j h =>
    ⟨(congrArg (fun t : FullyConnected α => { t with potential_ := l.potential_ })
        (forward_row_frame n x s j).1).trans h.1,
      (forward_row_frame n x s j).2.1.trans h.2⟩
  have hI := foldl_inv _ _ hInv (List.range m) l ⟨rfl, hp⟩
  have hpot := foldl_range_list (fun s : FullyConnected α => s.potential_) _ m
    (forward_row n x) (fun j _ => l.bias_.getD j 0 +
      ∑ i in Finset.range n, l.weights_.getD (j * n + i) 0 * x.getD i 0) 0 hInv
    (fun s h => h.2)
    (fun s j k _ hk => (forward_row_frame n x s j).2.2 k hk)
    (fun s j h hj => by
      have hb : s.bias_ = l.bias_ := by
        have e := congrArg FullyConnected.bias_ h.1
        exact e
      have hw : s.weights_ = l.weights_ := by
        have e := congrArg FullyConnected.weights_ h.1
        exact e
      show (forward_row n x s j).potential_.getD j 0 = _
      rw [forward_row_potential n x s j (by rw [h.2]; exact hj), hb, hw])
    l ⟨rfl, hp⟩
  generalize (List.range m).foldl (forward_row n x) l = r at hI hpot
  beta_reduce at hpot
  calc r = { ({ r with potential_ := l.potential_ } : FullyConnected α) with
              potential_ := r.potential_ } := rfl
    _ = { l with potential_ := r.potential_ } := by rw [hI.1]
    _ = _ := by rw [hpot]

/-- The second loop of `forward`, in closed form. -/
theorem forward_loop2 (l : FullyConnected α) (m : Nat) (ho : l.output_.length = m) :
    (List.range m).foldl forward_out l =
      { l with output_ := (List.range m).map (fun j =>
          l.activation_fn_.apply (l.potential_.getD j 0)) } := by
  have hInv : ∀ (s : FullyConnected α) (j : Nat),
      ({ s with output_ := l.output_ } = l ∧ s.output_.length = m) →
      ({ forward_out s j with output_ := l.output_ } = l ∧
        (forward_out s j).output_.length = m) := fun s j h =>
    ⟨h.1, by show (s.output_.set j _).length = m; rw [List.length_set]; exact h.2⟩
  have hI := foldl_inv _ _ hInv (List.range m) l ⟨rfl, ho⟩
  have hout := foldl_range_list (fun s : FullyConnected α => s.output_) _ m
    forward_out (fun j _ => l.activation_fn_.apply (l.potential_.getD j 0)) 0 hInv
    (fun s h => h.2)
    (fun s j k _ hk => getD_set_other _ _ _ _ _ hk)
    (fun s j h hj => by
      have hP : s.potential_ = l.potential_ := by
        have e := congrArg FullyConnected.potential_ h.1
        exact e
      have hA : s.activation_fn_ = l.activation_fn_ := by
        have e := congrArg FullyConnected.activation_fn_ h.1
        exact e
      show (s.output_.set j _).getD j 0 = _
      rw [getD_set_self _ _ _ _ (by rw [h.2]; exact hj), hP, hA])
    l ⟨rfl, ho⟩
  generalize (List.range m).foldl forward_out l = r at hI hout
  beta_reduce at hout
  calc r = { ({ r with output_ := l.output_ } : FullyConnected α) with
              output_ := r.output_ } := rfl
    _ = { l with output_ := r.output_ } := by rw [hI.1]
    _ = _ := by rw [hout]

/-- What `forward` computes, in closed form: `potential_` holds the affine
images of the input, `output_` their activations, `input_` the input, and
nothing else changes. -/
theorem forward_eq (l : FullyConnected α) (x : List α)
    (hp : l.potential_.length = l.output_size_) (ho : l.output_.length = l.output_size_) :
    l.forward x =
      { l with
        input_ := x
        potential_ := (List.range l.output_size_).map (fun j =>
          l.bias_.getD j 0 + ∑ i in Finset.range l.input_size_,
            l.weights_.getD (j * l.input_size_ + i) 0 * x.getD i 0)
        output_ := (List.range l.output_size_).map (fun j =>
          l.activation_fn_.apply (l.bias_.getD j 0 + ∑ i in Finset.range l.input_size_,
            l.weights_.getD (j * l.input_size_ + i) 0 * x.getD i 0)) } := by
  unfold forward
  simp only
  rw [forward_loop1 l.input_size_ x { l with input_ := x } l.output_size_ hp,
    forward_loop2 _ _ (by exact ho)]
  simp only [mk.injEq, true_and, and_true]
  apply List.map_congr_left
  intro j hj
  rw [getD_map_range, if_pos (List.mem_range.mp hj)]

/-! ## FullyConnected::backward -/

/-- The first loop of `backward`, in closed form. -/
theorem backward_loop1 (l : FullyConnected α) (m : Nat)
    (ho : l.output_derivative_.length = m) :
    (List.range m).foldl backward_deriv l =
      { l with output_derivative_ := (List.range m).map (fun j =>
          l.activation_fn_.derivative (l.potential_.getD j 0)) } := by
  have hInv : ∀ (s : FullyConnected α) (j : Nat),
      ({ s with output_derivative_ := l.output_derivative_ } = l ∧
        s.output_derivative_.length = m) →
      ({ backward_deriv s j with output_derivative_ := l.output_derivative_ } = l ∧
        (backward_deriv s j).output_derivative_.length = m) := fun s j h =>
    ⟨h.1, by show (s.output_derivative_.set j _).length = m; rw [List.length_set]; exact h.2⟩
  have hI := foldl_inv _ _ hInv (List.range m) l ⟨rfl, ho⟩
  have hout := foldl_range_list (fun s : FullyConnected α => s.output_derivative_) _ m
    backward_deriv (fun j _ => l.activation_fn_.derivative (l.potential_.getD j 0)) 0 hInv
    (fun s h => h.2)
    (fun s j k _ hk => getD_set_other _ _ _ _ _ hk)
    (fun s j h hj => by
      have hP : s.potential_ = l.potential_ := by
        have e := congrArg FullyConnected.potential_ h.1
        exact e
      have hA : s.activation_fn_ = l.activation_fn_ := by
        have e := congrArg FullyConnected.activation_fn_ h.1
        exact e
      show (s.output_derivative_.set j _).getD j 0 = _
      rw [getD_set_self _ _ _ _ (by rw [h.2]; exact hj), hP, hA])
    l ⟨rfl, ho⟩
  generalize (List.range m).foldl backward_deriv l = r at hI hout
  beta_reduce at hout
  calc r = { ({ r with output_derivative_ := l.output_derivative_ } : FullyConnected α) with
              output_derivative_ := r.output_derivative_ } := rfl
    _ = { l with output_derivative_ := r.output_derivative_ } := by rw [hI.1]
    _ = _ := by rw [hout]

/-- The inner loop of the second loop of `backward` leaves `bias_grad_` alone. -/
theorem backward_row_bias_grad (n : Nat) (g : List α) (l : FullyConnected α) (j : Nat) :
    (backward_row n g l j).bias_grad_ = (backward_bacc g l j).bias_grad_ :=
  foldl_inv (fun s : FullyConnected α => s.bias_grad_ = (backward_bacc g l j).bias_grad_)
    (backward_wacc n g j) (fun _ _ h => h) (List.range n) _ rfl

/-- The second loop of `backward`, in closed form: both accumulators receive
their increment, entry by entry. -/
theorem backward_loop2 (n : Nat) (g : List α) (l : FullyConnected α) (m : Nat)
    (hb : l.bias_grad_.length = m) (hw : l.weight_grad_.length = n * m) :
    (List.range m).foldl (backward_row n g) l =
      { l with
        bias_grad_ := (List.range m).map (fun j =>
          l.bias_grad_.getD j 0 + g.getD j 0 * l.output_derivative_.getD j 0)
        weight_grad_ := (List.range (n * m)).map (fun k =>
          l.weight_grad_.getD k 0 +
            g.getD (k / n) 0 * l.output_derivative_.getD (k / n) 0 * l.input_.getD (k % n) 0) } := by
  have hacc : ∀ (s : FullyConnected α) (j i : Nat),
      ({ s with bias_grad_ := l.bias_grad_, weight_grad_ := l.weight_grad_ } = l ∧
        s.bias_grad_.length = m ∧ s.weight_grad_.length = n * m) →
      ({ backward_wacc n g j s i with
          bias_grad_ := l.bias_grad_, weight_grad_ := l.weight_grad_ } = l ∧
        (backward_wacc n g j s i).bias_grad_.length = m ∧
        (backward_wacc n g j s i).weight_grad_.length = n * m) := fun s j i h =>
    ⟨h.1, h.2.1, by
      show (s.weight_grad_.set _ _).length = n * m
      rw [List.length_set]; exact h.2.2⟩
  have hpre : ∀ (s : FullyConnected α) (j : Nat),
      ({ s with bias_grad_ := l.bias_grad_, weight_grad_ := l.weight_grad_ } = l ∧
        s.bias_grad_.length = m ∧ s.weight_grad_.length = n * m) →
      ({ backward_bacc g s j with
          bias_grad_ := l.bias_grad_, weight_grad_ := l.weight_grad_ } = l ∧
        (backward_bacc g s j).bias_grad_.length = m ∧
        (backward_bacc g s j).weight_grad_.length = n * m) := fun s j h =>
    ⟨h.1, by show (s.bias_grad_.set _ _).length = m; rw [List.length_set]; exact h.2.1, h.2.2⟩
  have hInv : ∀ (s : FullyConnected α) (j : Nat),
      ({ s with bias_grad_ := l.bias_grad_, weight_grad_ := l.weight_grad_ } = l ∧
        s.bias_grad_.length = m ∧ s.weight_grad_.length = n * m) →
      ({ backward_row n g s j with
          bias_grad_ := l.bias_grad_, weight_grad_ := l.weight_grad_ } = l ∧
        (backward_row n g s j).bias_grad_.length = m ∧
        (backward_row n g s j).weight_grad_.length = n * m) := fun s j h =>
    foldl_inv _ _ (fun s i => hacc s j i) (List.range n) _ (hpre s j h)
  have hI := foldl_inv _ _ hInv (List.range m) l ⟨rfl, hb, hw⟩
  have hbias := foldl_range_list (fun s : FullyConnected α => s.bias_grad_) _ m
    (backward_row n g)
    (fun j old => old + g.getD j 0 * l.output_derivative_.getD j 0) 0 hInv
    (fun s h => h.2.1)
    (fun s j k _ hk => by
      show (backward_row n g s j).bias_grad_.getD k 0 = _
      rw [backward_row_bias_grad]
      exact getD_set_other _ _ _ _ _ hk)
    (fun s j h hj => by
      have hD : s.output_derivative_ = l.output_derivative_ := by
        have e := congrArg FullyConnected.output_derivative_ h.1
        exact e
      show (backward_row n g s j).bias_grad_.getD j 0 = _
      rw [backward_row_bias_grad]
      show (s.bias_grad_.set j _).getD j 0 = _
      rw [getD_set_self _ _ _ _ (by rw [h.2.1]; exact hj), hD])
    l ⟨rfl, hb, hw⟩
  have hweight := foldl_rows_list (fun s : FullyConnected α => s.weight_grad_) _ n m
    (backward_bacc g) (backward_wacc n g)
    (fun j i old => old + g.getD j 0 * l.output_derivative_.getD j 0 * l.input_.getD i 0) 0
    hpre (fun _ _ _ => rfl) hacc (fun s h => h.2.2)
    (fun s j i k _ hk => getD_set_other _ _ _ _ _ hk)
    (fun s j i h hj hi => by
      have hD : s.output_derivative_ = l.output_derivative_ := by
        have e := congrArg FullyConnected.output_derivative_ h.1
        exact e
      have hX : s.input_ = l.input_ := by
        have e := congrArg FullyConnected.input_ h.1
        exact e
      show (s.weight_grad_.set (j * n + i) _).getD (j * n + i) 0 = _
      rw [getD_set_self _ _ _ _ (by rw [h.2.2]; exact idx_lt hj hi), hD, hX])
    l ⟨rfl, hb, hw⟩
  replace hweight : ((List.range m).foldl (backward_row n g) l).weight_grad_ = _ := hweight
  generalize (List.range m).foldl (backward_row n g) l = r at hI hbias hweight
  beta_reduce at hbias hweight
  calc r = { ({ r with bias_grad_ := l.bias_grad_, weight_grad_ := l.weight_grad_ } :
              FullyConnected α) with
              bias_grad_ := r.bias_grad_, weight_grad_ := r.weight_grad_ } := rfl
    _ = { l with bias_grad_ := r.bias_grad_, weight_grad_ := r.weight_grad_ } := by rw [hI.1]
    _ = _ := by rw [hbias, hweight]

/-- The inner loop of the third loop of `backward` changes `input_grad_` only,
keeps its length and leaves every cell but `j` alone. -/
theorem backward_col_frame (n m : Nat) (g : List α) (l : FullyConnected α) (j : Nat) :
    { backward_col n m g l j with input_grad_ := l.input_grad_ } = l ∧
      (backward_col n m g l j).input_grad_.length = l.input_grad_.length ∧
      ∀ k, k ≠ j → (backward_col n m g l j).input_grad_.getD k 0 = l.input_grad_.getD k 0 :=
  foldl_inv
    (fun s : FullyConnected α => { s with input_grad_ := l.input_grad_ } = l ∧
      s.input_grad_.length = l.input_grad_.length ∧
      ∀ k, k ≠ j → s.input_grad_.getD k 0 = l.input_grad_.getD k 0)
    (backward_iacc n g j)
    (fun s r h => ⟨h.1, by
        show (s.input_grad_.set j _).length = _
        rw [List.length_set]; exact h.2.1,
      fun k hk => by
        show ((s.input_grad_.set j _).getD k 0 : α) = _
        rw [getD_set_other _ _ _ _ _ hk]
        exact h.2.2 k hk⟩)
    (List.range m) { l with input_grad_ := l.input_grad_.set j 0 }
    ⟨rfl, by simp, fun k hk => getD_set_other _ _ _ _ _ hk⟩

/-- The inner loop of the third loop of `backward` leaves in cell `j` the sum
over the output units. -/
theorem backward_col_input_grad (n m : Nat) (g : List α) (l : FullyConnected α) (j : Nat)
    (hj : j < l.input_grad_.length) :
    (backward_col n m g l j).input_grad_.getD j 0 =
      ∑ r in Finset.range m,
        g.getD r 0 * l.output_derivative_.getD r 0 * l.weights_.getD (r * n + j) 0 := by
  have h := foldl_range_acc (fun s : FullyConnected α => s.input_grad_.getD j 0)
    (fun s => s.weights_ = l.weights_ ∧ s.output_derivative_ = l.output_derivative_ ∧
      j < s.input_grad_.length)
    (backward_iacc n g j)
    (fun r => g.getD r 0 * l.output_derivative_.getD r 0 * l.weights_.getD (r * n + j) 0)
    (fun s i h => ⟨h.1, h.2.1, by
      show j < (s.input_grad_.set j _).length
      rw [List.length_set]; exact h.2.2⟩)
    (fun s i h => by
      show ((s.input_grad_.set j _).getD j 0 : α) = _
      rw [getD_set_self _ _ _ _ h.2.2, h.1, h.2.1])
    m { l with input_grad_ := l.input_grad_.set j 0 }
    ⟨rfl, rfl, by show j < (l.input_grad_.set j _).length; rw [List.length_set]; exact hj⟩
  refine h.trans ?_
  show ((l.input_grad_.set j _).getD j 0 : α) + _ = _
  rw [getD_set_self _ _ _ _ hj, zero_add]

/-- The third loop of `backward`, in closed form. -/
theorem backward_loop3 (n m : Nat) (g : List α) (l : FullyConnected α)
    (hi : l.input_grad_.length = n) :
    (List.range n).foldl (backward_col n m g) l =
      { l with input_grad_ := (List.range n).map (fun j =>
          ∑ r in Finset.range m,
            g.getD r 0 * l.output_derivative_.getD r 0 * l.weights_.getD (r * n + j) 0) } := by
  have hInv : ∀ (s : FullyConnected α) (j : Nat),
      ({ s with input_grad_ := l.input_grad_ } = l ∧ s.input_grad_.length = n) →
      ({ backward_col n m g s j with input_grad_ := l.input_grad_ } = l ∧
        (backward_col n m g s j).input_grad_.length = n) := fun s j h =>
    ⟨(congrArg (fun t : FullyConnected α => { t with input_grad_ := l.input_grad_ })
        (backward_col_frame n m g s j).1).trans h.1,
      (backward_col_frame n m g s j).2.1.trans h.2⟩
  have hI := foldl_inv _ _ hInv (List.range n) l ⟨rfl, hi⟩
  have hig := foldl_range_list (fun s : FullyConnected α => s.input_grad_) _ n
    (backward_col n m g) (fun j _ => ∑ r in Finset.range m,
      g.getD r 0 * l.output_derivative_.getD r 0 * l.weights_.getD (r * n + j) 0) 0 hInv
    (fun s h => h.2)
    (fun s j k _ hk => (backward_col_frame n m g s j).2.2 k hk)
    (fun s j h hj => by
      have hD : s.output_derivative_ = l.output_derivative_ := by
        have e := congrArg FullyConnected.output_derivative_ h.1
        exact e
      have hw : s.weights_ = l.weights_ := by
        have e := congrArg FullyConnected.weights_ h.1
        exact e
      show (backward_col n m g s j).input_grad_.getD j 0 = _
      rw [backward_col_input_grad n m g s j (by rw [h.2]; exact hj), hD, hw])
    l ⟨rfl, hi⟩
  generalize (List.range n).foldl (backward_col n m g) l = r at hI hig
  beta_reduce at hig
  calc r = { ({ r with input_grad_ := l.input_grad_ } : FullyConnected α) with
              input_grad_ := r.input_grad_ } := rfl
    _ = { l with input_grad_ := r.input_grad_ } := by rw [hI.1]
    _ = _ := by rw [hig]

/-- What `backward` computes, in closed form, with
`delta j = output_grad[j] * activation_fn_.derivative(potential_[j])`:
`bias_grad_[j]` grows by `delta j`, `weight_grad_[j * n + i]` by
`delta j * input_[i]`, `input_grad_[i]` becomes `Σ_r delta r * weights_[r * n + i]`,
`output_derivative_` holds the derivatives, and nothing else changes. -/
theorem backward_eq (l : FullyConnected α) (g : List α)
    (hod : l.output_derivative_.length = l.output_size_)
    (hbg : l.bias_grad_.length = l.output_size_)
    (hwg : l.weight_grad_.length = l.input_size_ * l.output_size_)
    (hig : l.input_grad_.length = l.input_size_) :
    l.backward g =
      { l with
        output_derivative_ := (List.range l.output_size_).map (fun j =>
          l.activation_fn_.derivative (l.potential_.getD j 0))
        bias_grad_ := (List.range l.output_size_).map (fun j =>
          l.bias_grad_.getD j 0 +
            g.getD j 0 * l.activation_fn_.derivative (l.potential_.getD j 0))
        weight_grad_ := (List.range (l.input_size_ * l.output_size_)).map (fun k =>
          l.weight_grad_.getD k 0 +
            g.getD (k / l.input_size_) 0 *
              l.activation_fn_.derivative (l.potential_.getD (k / l.input_size_) 0) *
              l.input_.getD (k % l.input_size_) 0)
        input_grad_ := (List.range l.input_size_).map (fun i =>
          ∑ r in Finset.range l.output_size_,
            g.getD r 0 * l.activation_fn_.derivative (l.potential_.getD r 0) *
              l.weights_.getD (r * l.input_size_ + i) 0) } := by
  unfold backward
  simp only
  rw [backward_loop1 _ _ hod, backward_loop2 _ _ _ _ (by exact hbg) (by exact hwg),
    backward_loop3 _ _ _ _ (by exact hig)]
  simp only [mk.injEq, true_and, and_true]
  refine ⟨?_, ?_, ?_⟩
  · apply List.map_congr_left
    intro i _
    apply Finset.sum_congr rfl
    intro r hr
    rw [getD_map_range, if_pos (Finset.mem_range.mp hr)]
  · apply List.map_congr_left
    intro j hj
    rw [getD_map_range, if_pos (List.mem_range.mp hj)]
  · apply List.map_congr_left
    intro k hk
    have hk' : k < l.input_size_ * l.output_size_ := List.mem_range.mp hk
    have hd : k / l.input_size_ < l.output_size_ :=
      Nat.div_lt_of_lt_mul hk'
    rw [getD_map_range, if_pos hd]

/-! ## FullyConnected::step_grad -/

/-- The inner loop of `step_grad` leaves `bias_` alone. -/
theorem step_grad_row_bias (n : Nat) (lr : α) (l : FullyConnected α) (j : Nat) :
    (step_grad_row n lr l j).bias_ = (step_grad_b lr l j).bias_ :=
  foldl_inv (fun s : FullyConnected α => s.bias_ = (step_grad_b lr l j).bias_)
    (step_grad_w n lr j) (fun _ _ h => h) (List.range n) _ rfl

/-- What `step_grad` computes, in closed form: every bias and weight entry
moves by `learning_rate` times its accumulated gradient, and nothing else
changes. -/
theorem step_grad_eq (l : FullyConnected α) (lr : α)
    (hb : l.bias_.length = l.output_size_)
    (hw : l.weights_.length = l.input_size_ * l.output_size_) :
    l.step_grad lr =
      { l with
        bias_ := (List.range l.output_size_).map (fun j =>
          l.bias_.getD j 0 - lr * l.bias_grad_.getD j 0)
        weights_ := (List.range (l.input_size_ * l.output_size_)).map (fun k =>
          l.weights_.getD k 0 - lr * l.weight_grad_.getD k 0) } := by
  have hacc : ∀ (s : FullyConnected α) (j i : Nat),
      ({ s with bias_ := l.bias_, weights_ := l.weights_ } = l ∧
        s.bias_.length = l.output_size_ ∧
        s.weights_.length = l.input_size_ * l.output_size_) →
      ({ step_grad_w l.input_size_ lr j s i with bias_ := l.bias_, weights_ := l.weights_ } = l ∧
        (step_grad_w l.input_size_ lr j s i).bias_.length = l.output_size_ ∧
        (step_grad_w l.input_size_ lr j s i).weights_.length =
          l.input_size_ * l.output_size_) := fun s j i h =>
    ⟨h.1, h.2.1, by
      show (s.weights_.set _ _).length = _
      rw [List.length_set]; exact h.2.2⟩
  have hpre : ∀ (s : FullyConnected α) (j : Nat),
      ({ s with bias_ := l.bias_, weights_ := l.weights_ } = l ∧
        s.bias_.length = l.output_size_ ∧
        s.weights_.length = l.input_size_ * l.output_size_) →
      ({ step_grad_b lr s j with bias_ := l.bias_, weights_ := l.weights_ } = l ∧
        (step_grad_b lr s j).bias_.length = l.output_size_ ∧
        (step_grad_b lr s j).weights_.length = l.input_size_ * l.output_size_) := fun s j h =>
    ⟨h.1, by show (s.bias_.set _ _).length = _; rw [List.length_set]; exact h.2.1, h.2.2⟩
  have hInv : ∀ (s : FullyConnected α) (j : Nat),
      ({ s with bias_ := l.bias_, weights_ := l.weights_ } = l ∧
        s.bias_.length = l.output_size_ ∧
        s.weights_.length = l.input_size_ * l.output_size_) →
      ({ step_grad_row l.input_size_ lr s j with bias_ := l.bias_, weights_ := l.weights_ } = l ∧
        (step_grad_row l.input_size_ lr s j).bias_.length = l.output_size_ ∧
        (step_grad_row l.input_size_ lr s j).weights_.length =
          l.input_size_ * l.output_size_) := fun s j h =>
    foldl_inv _ _ (fun s i => hacc s j i) (List.range l.input_size_) _ (hpre s j h)
  have hI := foldl_inv _ _ hInv (List.range l.output_size_) l ⟨rfl, hb, hw⟩
  have hbias := foldl_range_list (fun s : FullyConnected α => s.bias_) _ l.output_size_
    (step_grad_row l.input_size_ lr)
    (fun j old => old - lr * l.bias_grad_.getD j 0) 0 hInv
    (fun s h => h.2.1)
    (fun s j k _ hk => by
      show (step_grad_row l.input_size_ lr s j).bias_.getD k 0 = _
      rw [step_grad_row_bias]
      exact getD_set_other _ _ _ _ _ hk)
    (fun s j h hj => by
      have hG : s.bias_grad_ = l.bias_grad_ := by
        have e := congrArg FullyConnected.bias_grad_ h.1
        exact e
      show (step_grad_row l.input_size_ lr s j).bias_.getD j 0 = _
      rw [step_grad_row_bias]
      show (s.bias_.set j _).getD j 0 = _
      rw [getD_set_self _ _ _ _ (by rw [h.2.1]; exact hj), hG])
    l ⟨rfl, hb, hw⟩
  have hweight := foldl_rows_list (fun s : FullyConnected α => s.weights_) _
    l.input_size_ l.output_size_
    (step_grad_b lr) (step_grad_w l.input_size_ lr)
    (fun j i old => old - lr * l.weight_grad_.getD (j * l.input_size_ + i) 0) 0
    hpre (fun _ _ _ => rfl) hacc (fun s h => h.2.2)
    (fun s j i k _ hk => getD_set_other _ _ _ _ _ hk)
    (fun s j i h hj hi => by
      have hG : s.weight_grad_ = l.weight_grad_ := by
        have e := congrArg FullyConnected.weight_grad_ h.1
        exact e
      show (s.weights_.set (j * l.input_size_ + i) _).getD (j * l.input_size_ + i) 0 = _
      rw [getD_set_self _ _ _ _ (by rw [h.2.2]; exact idx_lt hj hi), hG])
    l ⟨rfl, hb, hw⟩
  replace hweight : (l.step_grad lr).weights_ = _ := hweight
  replace hbias : (l.step_grad lr).bias_ = _ := hbias
  replace hI : { l.step_grad lr with bias_ := l.bias_, weights_ := l.weights_ } = l := hI.1
  generalize l.step_grad lr = r at hI hbias hweight
  beta_reduce at hbias hweight
  simp only [Nat.div_add_mod'] at hweight
  calc r = { ({ r with bias_ := l.bias_, weights_ := l.weights_ } : FullyConnected α) with
              bias_ := r.bias_, weights_ := r.weights_ } := rfl
    _ = { l with bias_ := r.bias_, weights_ := r.weights_ } := by rw [hI]
    _ = _ := by rw [hbias, hweight]

/-! ## FullyConnected::step_grad_rms_prop -/

/-- The inner loop of `step_grad_rms_prop` leaves `bias_` and
`bias_grad_history_` alone. -/
theorem rms_prop_row_bias (sqrt : α → α) (n : Nat) (lr β eps : α) (l : FullyConnected α)
    (j : Nat) :
    (rms_prop_row sqrt n lr β eps l j).bias_ = (rms_prop_b sqrt lr β eps l j).bias_ ∧
      (rms_prop_row sqrt n lr β eps l j).bias_grad_history_ =
        (rms_prop_b sqrt lr β eps l j).bias_grad_history_ :=
  foldl_inv (fun s : FullyConnected α => s.bias_ = (rms_prop_b sqrt lr β eps l j).bias_ ∧
      s.bias_grad_history_ = (rms_prop_b sqrt lr β eps l j).bias_grad_history_)
    (rms_prop_w sqrt n lr β eps j) (fun _ _ h => h) (List.range n) _ ⟨rfl, rfl⟩

/-- What `step_grad_rms_prop` computes, in closed form: every history entry
becomes `β * h + (1 - β) * g * g`, every parameter moves by
`lr / sqrt (new history + eps) * g`, and nothing else changes. -/
theorem step_grad_rms_prop_eq (sqrt : α → α) (l : FullyConnected α) (lr β eps : α)
    (hb : l.bias_.length = l.output_size_)
    (hw : l.weights_.length = l.input_size_ * l.output_size_)
    (hbh : l.bias_grad_history_.length = l.output_size_)
    (hwh : l.weight_grad_history_.length = l.input_size_ * l.output_size_) :
    l.step_grad_rms_prop sqrt lr β eps =
      { l with
        bias_grad_history_ := (List.range l.output_size_).map (fun j =>
          β * l.bias_grad_history_.getD j 0 +
            (1 - β) * l.bias_grad_.getD j 0 * l.bias_grad_.getD j 0)
        bias_ := (List.range l.output_size_).map (fun j =>
          l.bias_.getD j 0 -
            (lr / sqrt (β * l.bias_grad_history_.getD j 0 +
              (1 - β) * l.bias_grad_.getD j 0 * l.bias_grad_.getD j 0 + eps)) *
              l.bias_grad_.getD j 0)
        weight_grad_history_ := (List.range (l.input_size_ * l.output_size_)).map (fun k =>
          β * l.weight_grad_history_.getD k 0 +
            (1 - β) * l.weight_grad_.getD k 0 * l.weight_grad_.getD k 0)
        weights_ := (List.range (l.input_size_ * l.output_size_)).map (fun k =>
          l.weights_.getD k 0 -
            (lr / sqrt (β * l.weight_grad_history_.getD k 0 +
              (1 - β) * l.weight_grad_.getD k 0 * l.weight_grad_.getD k 0 + eps)) *
              l.weight_grad_.getD k 0) } := by
  have hacc : ∀ (s : FullyConnected α) (j i : Nat),
      ({ s with bias_ := l.bias_, weights_ := l.weights_, bias_grad_history_ := l.bias_grad_history_, weight_grad_history_ := l.weight_grad_history_ } = l ∧
        s.bias_.length = l.output_size_ ∧
        s.weights_.length = l.input_size_ * l.output_size_ ∧
        s.bias_grad_history_.length = l.output_size_ ∧
        s.weight_grad_history_.length = l.input_size_ * l.output_size_) →
      ({ rms_prop_w sqrt l.input_size_ lr β eps j s i with bias_ := l.bias_, weights_ := l.weights_, bias_grad_history_ := l.bias_grad_history_, weight_grad_history_ := l.weight_grad_history_ } = l ∧
        (rms_prop_w sqrt l.input_size_ lr β eps j s i).bias_.length = l.output_size_ ∧
        (rms_prop_w sqrt l.input_size_ lr β eps j s i).weights_.length =
          l.input_size_ * l.output_size_ ∧
        (rms_prop_w sqrt l.input_size_ lr β eps j s i).bias_grad_history_.length =
          l.output_size_ ∧
        (rms_prop_w sqrt l.input_size_ lr β eps j s i).weight_grad_history_.length =
          l.input_size_ * l.output_size_) := fun s j i h =>
    ⟨h.1, h.2.1, by
      show (s.weights_.set _ _).length = _
      rw [List.length_set]; exact h.2.2.1, h.2.2.2.1, by
      show (s.weight_grad_history_.set _ _).length = _
      rw [List.length_set]; exact h.2.2.2.2⟩
  have hpre : ∀ (s : FullyConnected α) (j : Nat),
      ({ s with bias_ := l.bias_, weights_ := l.weights_, bias_grad_history_ := l.bias_grad_history_, weight_grad_history_ := l.weight_grad_history_ } = l ∧
        s.bias_.length = l.output_size_ ∧
        s.weights_.length = l.input_size_ * l.output_size_ ∧
        s.bias_grad_history_.length = l.output_size_ ∧
        s.weight_grad_history_.length = l.input_size_ * l.output_size_) →
      ({ rms_prop_b sqrt lr β eps s j with bias_ := l.bias_, weights_ := l.weights_, bias_grad_history_ := l.bias_grad_history_, weight_grad_history_ := l.weight_grad_history_ } = l ∧
        (rms_prop_b sqrt lr β eps s j).bias_.length = l.output_size_ ∧
        (rms_prop_b sqrt lr β eps s j).weights_.length = l.input_size_ * l.output_size_ ∧
        (rms_prop_b sqrt lr β eps s j).bias_grad_history_.length = l.output_size_ ∧
        (rms_prop_b sqrt lr β eps s j).weight_grad_history_.length =
          l.input_size_ * l.output_size_) := fun s j h =>
    ⟨h.1, by show (s.bias_.set _ _).length = _; rw [List.length_set]; exact h.2.1,
      h.2.2.1, by
      show (s.bias_grad_history_.set _ _).length = _
      rw [List.length_set]; exact h.2.2.2.1, h.2.2.2.2⟩
  have hInv : ∀ (s : FullyConnected α) (j : Nat),
      ({ s with bias_ := l.bias_, weights_ := l.weights_, bias_grad_history_ := l.bias_grad_history_, weight_grad_history_ := l.weight_grad_history_ } = l ∧
        s.bias_.length = l.output_size_ ∧
        s.weights_.length = l.input_size_ * l.output_size_ ∧
        s.bias_grad_history_.length = l.output_size_ ∧
        s.weight_grad_history_.length = l.input_size_ * l.output_size_) →
      ({ rms_prop_row sqrt l.input_size_ lr β eps s j with bias_ := l.bias_, weights_ := l.weights_, bias_grad_history_ := l.bias_grad_history_, weight_grad_history_ := l.weight_grad_history_ } = l ∧
        (rms_prop_row sqrt l.input_size_ lr β eps s j).bias_.length = l.output_size_ ∧
        (rms_prop_row sqrt l.input_size_ lr β eps s j).weights_.length =
          l.input_size_ * l.output_size_ ∧
        (rms_prop_row sqrt l.input_size_ lr β eps s j).bias_grad_history_.length =
          l.output_size_ ∧
        (rms_prop_row sqrt l.input_size_ lr β eps s j).weight_grad_history_.length =
          l.input_size_ * l.output_size_) := fun s j h =>
    foldl_inv _ _ (fun s i => hacc s j i) (List.range l.input_size_) _ (hpre s j h)
  have h0 : { l with bias_ := l.bias_, weights_ := l.weights_, bias_grad_history_ := l.bias_grad_history_, weight_grad_history_ := l.weight_grad_history_ } = l ∧
        l.bias_.length = l.output_size_ ∧
        l.weights_.length = l.input_size_ * l.output_size_ ∧
        l.bias_grad_history_.length = l.output_size_ ∧
        l.weight_grad_history_.length = l.input_size_ * l.output_size_ :=
    ⟨rfl, hb, hw, hbh, hwh⟩
  have hI := foldl_inv _ _ hInv (List.range l.output_size_) l h0
  have hbias := foldl_range_get
    (fun (s : FullyConnected α) k => (s.bias_grad_history_.getD k 0, s.bias_.getD k 0))
    _ l.output_size_ (rms_prop_row sqrt l.input_size_ lr β eps)
    (fun j old => (β * old.1 + (1 - β) * l.bias_grad_.getD j 0 * l.bias_grad_.getD j 0,
      old.2 - (lr / sqrt (β * old.1 + (1 - β) * l.bias_grad_.getD j 0 * l.bias_grad_.getD j 0
        + eps)) * l.bias_grad_.getD j 0))
    hInv
    (fun s j k _ hk => by
      show ((rms_prop_row sqrt l.input_size_ lr β eps s j).bias_grad_history_.getD k 0,
        (rms_prop_row sqrt l.input_size_ lr β eps s j).bias_.getD k 0) = _
      rw [(rms_prop_row_bias sqrt l.input_size_ lr β eps s j).1,
        (rms_prop_row_bias sqrt l.input_size_ lr β eps s j).2]
      show ((s.bias_grad_history_.set j _).getD k 0, (s.bias_.set j _).getD k 0) = _
      rw [getD_set_other _ _ _ _ _ hk, getD_set_other _ _ _ _ _ hk])
    (fun s j h hj => by
      have hG : s.bias_grad_ = l.bias_grad_ := by
        have e := congrArg FullyConnected.bias_grad_ h.1
        exact e
      show ((rms_prop_row sqrt l.input_size_ lr β eps s j).bias_grad_history_.getD j 0,
        (rms_prop_row sqrt l.input_size_ lr β eps s j).bias_.getD j 0) = _
      rw [(rms_prop_row_bias sqrt l.input_size_ lr β eps s j).1,
        (rms_prop_row_bias sqrt l.input_size_ lr β eps s j).2]
      show ((s.bias_grad_history_.set j _).getD j 0,
        (s.bias_.set j (s.bias_.getD j 0 -
          (lr / sqrt ((s.bias_grad_history_.set j _).getD j 0 + eps)) *
            s.bias_grad_.getD j 0)).getD j 0) = _
      rw [getD_set_self _ _ _ _ (by rw [h.2.2.2.1]; exact hj),
        getD_set_self _ _ _ _ (by rw [h.2.1]; exact hj), hG])
    l.output_size_ (le_refl _) l h0
  have hweight := foldl_rows_get
    (fun (s : FullyConnected α) k => (s.weight_grad_history_.getD k 0, s.weights_.getD k 0))
    _ l.input_size_ l.output_size_
    (rms_prop_b sqrt lr β eps) (rms_prop_w sqrt l.input_size_ lr β eps)
    (fun j i old =>
      (β * old.1 + (1 - β) * l.weight_grad_.getD (j * l.input_size_ + i) 0 *
          l.weight_grad_.getD (j * l.input_size_ + i) 0,
        old.2 - (lr / sqrt (β * old.1 + (1 - β) * l.weight_grad_.getD (j * l.input_size_ + i) 0 *
          l.weight_grad_.getD (j * l.input_size_ + i) 0 + eps)) *
            l.weight_grad_.getD (j * l.input_size_ + i) 0))
    hpre (fun _ _ _ _ => rfl) hacc
    (fun s j i k _ hk => by
      show ((s.weight_grad_history_.set _ _).getD k 0, (s.weights_.set _ _).getD k 0) = _
      rw [getD_set_other _ _ _ _ _ hk, getD_set_other _ _ _ _ _ hk])
    (fun s j i h hj hi => by
      have hG : s.weight_grad_ = l.weight_grad_ := by
        have e := congrArg FullyConnected.weight_grad_ h.1
        exact e
      show ((s.weight_grad_history_.set (j * l.input_size_ + i) _).getD
          (j * l.input_size_ + i) 0,
        (s.weights_.set (j * l.input_size_ + i) (s.weights_.getD (j * l.input_size_ + i) 0 -
          (lr / sqrt ((s.weight_grad_history_.set (j * l.input_size_ + i) _).getD
            (j * l.input_size_ + i) 0 + eps)) *
              s.weight_grad_.getD (j * l.input_size_ + i) 0)).getD (j * l.input_size_ + i) 0) = _
      rw [getD_set_self _ _ _ _ (by rw [h.2.2.2.2]; exact idx_lt hj hi),
        getD_set_self _ _ _ _ (by rw [h.2.2.1]; exact idx_lt hj hi), hG])
    l.output_size_ (le_refl _) l h0
  replace hweight : ∀ k,
      (((l.step_grad_rms_prop sqrt lr β eps).weight_grad_history_.getD k 0,
        (l.step_grad_rms_prop sqrt lr β eps).weights_.getD k 0) : α × α) = _ := hweight
  replace hbias : ∀ k,
      (((l.step_grad_rms_prop sqrt lr β eps).bias_grad_history_.getD k 0,
        (l.step_grad_rms_prop sqrt lr β eps).bias_.getD k 0) : α × α) = _ := hbias
  replace hI : ({ l.step_grad_rms_prop sqrt lr β eps with bias_ := l.bias_, weights_ := l.weights_, bias_grad_history_ := l.bias_grad_history_, weight_grad_history_ := l.weight_grad_history_ } = l ∧
      (l.step_grad_rms_prop sqrt lr β eps).bias_.length = l.output_size_ ∧
      (l.step_grad_rms_prop sqrt lr β eps).weights_.length = l.input_size_ * l.output_size_ ∧
      (l.step_grad_rms_prop sqrt lr β eps).bias_grad_history_.length = l.output_size_ ∧
      (l.step_grad_rms_prop sqrt lr β eps).weight_grad_history_.length =
        l.input_size_ * l.output_size_) := hI
  generalize l.step_grad_rms_prop sqrt lr β eps = r at hI hbias hweight
  beta_reduce at hbias hweight
  simp only [Nat.div_add_mod'] at hweight
  have e1 : r.bias_grad_history_ = (List.range l.output_size_).map (fun j =>
      β * l.bias_grad_history_.getD j 0 +
        (1 - β) * l.bias_grad_.getD j 0 * l.bias_grad_.getD j 0) :=
    eq_map_range_of_getD _ _ _ 0 hI.2.2.2.1
      (fun k hk => by have := congrArg Prod.fst (hbias k); rw [if_pos hk] at this; exact this)
  have e2 : r.bias_ = (List.range l.output_size_).map (fun j =>
      l.bias_.getD j 0 -
        (lr / sqrt (β * l.bias_grad_history_.getD j 0 +
          (1 - β) * l.bias_grad_.getD j 0 * l.bias_grad_.getD j 0 + eps)) *
          l.bias_grad_.getD j 0) :=
    eq_map_range_of_getD _ _ _ 0 hI.2.1
      (fun k hk => by have := congrArg Prod.snd (hbias k); rw [if_pos hk] at this; exact this)
  have e3 : r.weight_grad_history_ =
      (List.range (l.input_size_ * l.output_size_)).map (fun k =>
        β * l.weight_grad_history_.getD k 0 +
          (1 - β) * l.weight_grad_.getD k 0 * l.weight_grad_.getD k 0) :=
    eq_map_range_of_getD _ _ _ 0 hI.2.2.2.2
      (fun k hk => by
        have := congrArg Prod.fst (hweight k)
        rw [if_pos (by rwa [Nat.mul_comm])] at this; exact this)
  have e4 : r.weights_ = (List.range (l.input_size_ * l.output_size_)).map (fun k =>
      l.weights_.getD k 0 -
        (lr / sqrt (β * l.weight_grad_history_.getD k 0 +
          (1 - β) * l.weight_grad_.getD k 0 * l.weight_grad_.getD k 0 + eps)) *
          l.weight_grad_.getD k 0) :=
    eq_map_range_of_getD _ _ _ 0 hI.2.2.1
      (fun k hk => by
        have := congrArg Prod.snd (hweight k)
        rw [if_pos (by rwa [Nat.mul_comm])] at this; exact this)
  calc r = { ({ r with bias_ := l.bias_, weights_ := l.weights_, bias_grad_history_ := l.bias_grad_history_, weight_grad_history_ := l.weight_grad_history_ } : FullyConnected α) with bias_ := r.bias_, weights_ := r.weights_, bias_grad_history_ := r.bias_grad_history_, weight_grad_history_ := r.weight_grad_history_ } := rfl
    _ = { l with bias_ := r.bias_, weights_ := r.weights_, bias_grad_history_ := r.bias_grad_history_, weight_grad_history_ := r.weight_grad_history_ } := by rw [hI.1]
    _ = _ := by rw [e1, e2, e3, e4]

/-! ## The buffer sizes are kept -/

theorem init_WF (n m : Nat) (act : ActivationFn α) : (init n m act).WF :=
  ⟨by simp [init], by simp [init], by simp [init], by simp [init], by simp [init],
    by simp [init], by simp [init], by simp [init], by simp [init], by simp [init]⟩

theorem forward_WF (l : FullyConnected α) (x : List α) (hl : l.WF) : (l.forward x).WF := by
  rw [forward_eq l x hl.potential_len hl.output_len]
  exact ⟨hl.bias_len, hl.weights_len, by simp, by simp, hl.output_derivative_len,
    hl.input_grad_len, hl.bias_grad_len, hl.bias_grad_history_len, hl.weight_grad_len,
    hl.weight_grad_history_len⟩

theorem backward_WF (l : FullyConnected α) (g : List α) (hl : l.WF) : (l.backward g).WF := by
  rw [backward_eq l g hl.output_derivative_len hl.bias_grad_len hl.weight_grad_len
    hl.input_grad_len]
  exact ⟨hl.bias_len, hl.weights_len, hl.potential_len, hl.output_len, by simp, by simp,
    by simp, hl.bias_grad_history_len, by simp, hl.weight_grad_history_len⟩

theorem zero_grad_WF (l : FullyConnected α) (hl : l.WF) : l.zero_grad.WF :=
  ⟨hl.bias_len, hl.weights_len, hl.potential_len, hl.output_len, hl.output_derivative_len,
    hl.input_grad_len, by simp [zero_grad], hl.bias_grad_history_len, by simp [zero_grad],
    hl.weight_grad_history_len⟩

theorem step_grad_WF (l : FullyConnected α) (lr : α) (hl : l.WF) : (l.step_grad lr).WF := by
  rw [step_grad_eq l lr hl.bias_len hl.weights_len]
  exact ⟨by simp, by simp, hl.potential_len, hl.output_len, hl.output_derivative_len,
    hl.input_grad_len, hl.bias_grad_len, hl.bias_grad_history_len, hl.weight_grad_len,
    hl.weight_grad_history_len⟩

theorem step_grad_rms_prop_WF (sqrt : α → α) (l : FullyConnected α) (lr β eps : α)
    (hl : l.WF) : (l.step_grad_rms_prop sqrt lr β eps).WF := by
  rw [step_grad_rms_prop_eq sqrt l lr β eps hl.bias_len hl.weights_len
    hl.bias_grad_history_len hl.weight_grad_history_len]
  exact ⟨by simp, by simp, hl.potential_len, hl.output_len, hl.output_derivative_len,
    hl.input_grad_len, hl.bias_grad_len, by simp, hl.weight_grad_len, by simp⟩

theorem sample_layer_WF (α : Type) [LinearOrderedField α] : (sample_layer α).WF :=
  ⟨rfl, rfl, rfl, rfl, rfl, rfl, rfl, rfl, rfl, rfl⟩

theorem kink_layer_WF (α : Type) [LinearOrderedField α] (act : ActivationFn α) :
    (kink_layer α act).WF :=
  ⟨rfl, rfl, rfl, rfl, rfl, rfl, rfl, rfl, rfl, rfl⟩

/-- After `forward(x)` the cached pre-activation of unit `j` is `affine x j`. -/
theorem forward_potential_getD (l : FullyConnected α) (x : List α) (hl : l.WF) (j : Nat)
    (hj : j < l.output_size_) : (l.forward x).potential_.getD j 0 = l.affine x j := by
  rw [forward_eq l x hl.potential_len hl.output_len]
  show ((List.range l.output_size_).map _).getD j 0 = _
  rw [getD_map_range, if_pos hj]
  rfl

/-- The entries `step_grad_rms_prop` leaves, in terms of the state before the
call. -/
theorem rms_prop_entries (sqrt : α → α) (l : FullyConnected α) (lr β eps : α) (hl : l.WF) :
    (∀ k, k < l.input_size_ * l.output_size_ →
      (l.step_grad_rms_prop sqrt lr β eps).weight_grad_history_.getD k 0 =
        β * l.weight_grad_history_.getD k 0 +
          (1 - β) * l.weight_grad_.getD k 0 * l.weight_grad_.getD k 0 ∧
      (l.step_grad_rms_prop sqrt lr β eps).weights_.getD k 0 =
        l.weights_.getD k 0 -
          (lr / sqrt (β * l.weight_grad_history_.getD k 0 +
            (1 - β) * l.weight_grad_.getD k 0 * l.weight_grad_.getD k 0 + eps)) *
            l.weight_grad_.getD k 0) ∧
    (∀ j, j < l.output_size_ →
      (l.step_grad_rms_prop sqrt lr β eps).bias_grad_history_.getD j 0 =
        β * l.bias_grad_history_.getD j 0 +
          (1 - β) * l.bias_grad_.getD j 0 * l.bias_grad_.getD j 0 ∧
      (l.step_grad_rms_prop sqrt lr β eps).bias_.getD j 0 =
        l.bias_.getD j 0 -
          (lr / sqrt (β * l.bias_grad_history_.getD j 0 +
            (1 - β) * l.bias_grad_.getD j 0 * l.bias_grad_.getD j 0 + eps)) *
            l.bias_grad_.getD j 0) ∧
    (l.step_grad_rms_prop sqrt lr β eps).weight_grad_ = l.weight_grad_ ∧
    (l.step_grad_rms_prop sqrt lr β eps).bias_grad_ = l.bias_grad_ ∧
    (l.step_grad_rms_prop sqrt lr β eps).input_size_ = l.input_size_ ∧
    (l.step_grad_rms_prop sqrt lr β eps).output_size_ = l.output_size_ := by
  rw [step_grad_rms_prop_eq sqrt l lr β eps hl.bias_len hl.weights_len
    hl.bias_grad_history_len hl.weight_grad_history_len]
  refine ⟨fun k hk => ⟨?_, ?_⟩, fun j hj => ⟨?_, ?_⟩, rfl, rfl, rfl, rfl⟩
  · show ((List.range (l.input_size_ * l.output_size_)).map _).getD k 0 = _
    rw [getD_map_range, if_pos hk]
  · show ((List.range (l.input_size_ * l.output_size_)).map _).getD k 0 = _
    rw [getD_map_range, if_pos hk]
  · show ((List.range l.output_size_).map _).getD j 0 = _
    rw [getD_map_range, if_pos hj]
  · show ((List.range l.output_size_).map _).getD j 0 = _
    rw [getD_map_range, if_pos hj]

/-! ## One forward pass followed by one backward pass -/

/-- What `forward(x)` followed by `backward(g)` leaves, in closed form. -/
theorem pass_eq (l : FullyConnected α) (x g : List α) (hl : l.WF) :
    (l.forward x).backward g =
      { l with
        input_ := x
        potential_ := (List.range l.output_size_).map (l.affine x)
        output_ := (List.range l.output_size_).map (fun j =>
          l.activation_fn_.apply (l.affine x j))
        output_derivative_ := (List.range l.output_size_).map (fun j =>
          l.activation_fn_.derivative (l.affine x j))
        bias_grad_ := (List.range l.output_size_).map (fun j =>
          l.bias_grad_.getD j 0 + g.getD j 0 * l.activation_fn_.derivative (l.affine x j))
        weight_grad_ := (List.range (l.input_size_ * l.output_size_)).map (fun k =>
          l.weight_grad_.getD k 0 +
            g.getD (k / l.input_size_) 0 *
              l.activation_fn_.derivative (l.affine x (k / l.input_size_)) *
              x.getD (k % l.input_size_) 0)
        input_grad_ := (List.range l.input_size_).map (fun i =>
          ∑ r in Finset.range l.output_size_,
            g.getD r 0 * l.activation_fn_.derivative (l.affine x r) *
              l.weights_.getD (r * l.input_size_ + i) 0) } := by
  have hf := forward_WF l x hl
  rw [backward_eq (l.forward x) g hf.output_derivative_len hf.bias_grad_len
    hf.weight_grad_len hf.input_grad_len, forward_eq l x hl.potential_len hl.output_len]
  simp only [mk.injEq, true_and, and_true]
  refine ⟨rfl, rfl, ?_, ?_, ?_, ?_⟩
  · apply List.map_congr_left
    intro j hj
    rw [getD_map_range, if_pos (List.mem_range.mp hj)]
    rfl
  · apply List.map_congr_left
    intro i _
    apply Finset.sum_congr rfl
    intro r hr
    rw [getD_map_range, if_pos (Finset.mem_range.mp hr)]
    rfl
  · apply List.map_congr_left
    intro j hj
    rw [getD_map_range, if_pos (List.mem_range.mp hj)]
    rfl
  · apply List.map_congr_left
    intro k hk
    have hd : k / l.input_size_ < l.output_size_ :=
      Nat.div_lt_of_lt_mul (List.mem_range.mp hk)
    rw [getD_map_range, if_pos hd]
    rfl

end FullyConnected

/-! ## The claims on `FullyConnected` -/

section Claims

variable [LinearOrderedField α]

/-- C1. `forward` computes the affine map and the activation: for a layer
with the constructor's buffer sizes and any input `x`, after `forward(x)`
`potential_[j] = bias_[j] + Σ_{i<n} weights_[j*n+i] * x[i]` and
`output()[j] = activation_fn_(potential_[j])` for every `j < m`, and `output()`
has length `m`. -/
theorem forward_spec (l : FullyConnected α) (x : List α) (hl : l.WF) :
    (∀ j, j < l.output_size_ →
      (l.forward x).potential_.getD j 0 =
        l.bias_.getD j 0 + ∑ i in Finset.range l.input_size_,
          l.weights_.getD (j * l.input_size_ + i) 0 * x.getD i 0) ∧
    (∀ j, j < l.output_size_ →
      (l.forward x).output.getD j 0 =
        l.activation_fn_.apply ((l.forward x).potential_.getD j 0)) ∧
    (l.forward x).output.length = l.output_size_ := by
  rw [FullyConnected.forward_eq l x hl.potential_len hl.output_len]
  refine ⟨fun j hj => ?_, fun j hj => ?_, ?_⟩
  · show ((List.range l.output_size_).map _).getD j 0 = _
    rw [getD_map_range, if_pos hj]
  · show ((List.range l.output_size_).map _).getD j 0 =
      l.activation_fn_.apply (((List.range l.output_size_).map _).getD j 0)
    rw [getD_map_range, getD_map_range, if_pos hj, if_pos hj]
  · show ((List.range l.output_size_).map _).length = _
    simp

/-- Witness of C1 on the sample layer and the input `(1, 1)`. -/
theorem forward_spec_witness :
    (sample_layer ℚ).WF ∧
    (∀ j, j < (sample_layer ℚ).output_size_ →
      ((sample_layer ℚ).forward [1, 1]).potential_.getD j 0 =
        (sample_layer ℚ).bias_.getD j 0 + ∑ i in Finset.range (sample_layer ℚ).input_size_,
          (sample_layer ℚ).weights_.getD (j * (sample_layer ℚ).input_size_ + i) 0 *
            ([1, 1] : List ℚ).getD i 0) ∧
    (∀ j, j < (sample_layer ℚ).output_size_ →
      ((sample_layer ℚ).forward [1, 1]).output.getD j 0 =
        (sample_layer ℚ).activation_fn_.apply
          (((sample_layer ℚ).forward [1, 1]).potential_.getD j 0)) ∧
    ((sample_layer ℚ).forward [1, 1]).output.length = (sample_layer ℚ).output_size_ :=
  ⟨FullyConnected.sample_layer_WF ℚ,
    forward_spec (sample_layer ℚ) [1, 1] (FullyConnected.sample_layer_WF ℚ)⟩

/-- C2. `backward` after `forward(x)`: with
`delta j = g[j] * activation_fn_.derivative(potential_[j])`, every
`bias_grad_[j]` grows by `delta j`, every `weight_grad_[j*n+i]` grows by
`delta j * x[i]`, and `input_grad()[i]` is set to `Σ_{j<m} delta j * weights_[j*n+i]`,
whatever `input_grad_` held before. -/
theorem backward_spec (l : FullyConnected α) (x g : List α) (hl : l.WF) :
    (∀ j, j < l.output_size_ →
      ((l.forward x).backward g).bias_grad_.getD j 0 =
        (l.forward x).bias_grad_.getD j 0 +
          g.getD j 0 * l.activation_fn_.derivative ((l.forward x).potential_.getD j 0)) ∧
    (∀ j i, j < l.output_size_ → i < l.input_size_ →
      ((l.forward x).backward g).weight_grad_.getD (j * l.input_size_ + i) 0 =
        (l.forward x).weight_grad_.getD (j * l.input_size_ + i) 0 +
          g.getD j 0 * l.activation_fn_.derivative ((l.forward x).potential_.getD j 0) *
            x.getD i 0) ∧
    (∀ i, i < l.input_size_ →
      ((l.forward x).backward g).input_grad.getD i 0 =
        ∑ j in Finset.range l.output_size_,
          g.getD j 0 * l.activation_fn_.derivative ((l.forward x).potential_.getD j 0) *
            l.weights_.getD (j * l.input_size_ + i) 0) ∧
    (∀ old : List α, old.length = l.input_size_ →
      ({ l.forward x with input_grad_ := old }.backward g).input_grad =
        ((l.forward x).backward g).input_grad) := by
  have hf := FullyConnected.forward_WF l x hl
  have e := FullyConnected.forward_eq l x hl.potential_len hl.output_len
  have hn : (l.forward x).input_size_ = l.input_size_ := by rw [e]
  have hm : (l.forward x).output_size_ = l.output_size_ := by rw [e]
  have ha : (l.forward x).activation_fn_ = l.activation_fn_ := by rw [e]
  have hw : (l.forward x).weights_ = l.weights_ := by rw [e]
  have hx : (l.forward x).input_ = x := by rw [e]
  have eb := FullyConnected.backward_eq (l.forward x) g hf.output_derivative_len
    hf.bias_grad_len hf.weight_grad_len hf.input_grad_len
  rw [hn, hm, ha, hw, hx] at eb
  refine ⟨fun j hj => ?_, fun j i hj hi => ?_, fun i hi => ?_, fun old hold => ?_⟩
  · rw [eb]
    show ((List.range l.output_size_).map _).getD j 0 = _
    rw [getD_map_range, if_pos hj]
  · rw [eb]
    show ((List.range (l.input_size_ * l.output_size_)).map _).getD _ 0 = _
    rw [getD_map_range, if_pos (idx_lt hj hi), idx_div hi, idx_mod hi]
  · rw [eb]
    show ((List.range l.input_size_).map _).getD i 0 = _
    rw [getD_map_range, if_pos hi]
  · have eb2 := FullyConnected.backward_eq { l.forward x with input_grad_ := old } g
      hf.output_derivative_len hf.bias_grad_len hf.weight_grad_len (by rw [hn]; exact hold)
    rw [eb2, FullyConnected.backward_eq (l.forward x) g hf.output_derivative_len
      hf.bias_grad_len hf.weight_grad_len hf.input_grad_len]

/-- Witness of C2 on the sample layer, the input `(1, 1)` and the output
gradient `(1, 1)`. -/
theorem backward_spec_witness :
    (sample_layer ℚ).WF ∧
    (∀ i, i < (sample_layer ℚ).input_size_ →
      (((sample_layer ℚ).forward [1, 1]).backward [1, 1]).input_grad.getD i 0 =
        ∑ j in Finset.range (sample_layer ℚ).output_size_,
          ([1, 1] : List ℚ).getD j 0 *
            (sample_layer ℚ).activation_fn_.derivative
              (((sample_layer ℚ).forward [1, 1]).potential_.getD j 0) *
            (sample_layer ℚ).weights_.getD (j * (sample_layer ℚ).input_size_ + i) 0) :=
  ⟨FullyConnected.sample_layer_WF ℚ,
    (backward_spec (sample_layer ℚ) [1, 1] [1, 1] (FullyConnected.sample_layer_WF ℚ)).2.2.1⟩

/-- C3. Gradient accumulation: after `zero_grad`, two forward/backward pairs
in a row leave in `bias_grad_` and `weight_grad_`, entry by entry, the sum of
what each pair leaves on its own after `zero_grad`. -/
theorem gradient_accumulation (l : FullyConnected α) (x1 x2 g1 g2 : List α) (hl : l.WF) :
    (∀ k, ((((l.zero_grad.forward x1).backward g1).forward x2).backward g2).bias_grad_.getD k 0 =
      ((l.zero_grad.forward x1).backward g1).bias_grad_.getD k 0 +
        ((l.zero_grad.forward x2).backward g2).bias_grad_.getD k 0) ∧
    (∀ k, ((((l.zero_grad.forward x1).backward g1).forward x2).backward g2).weight_grad_.getD k 0 =
      ((l.zero_grad.forward x1).backward g1).weight_grad_.getD k 0 +
        ((l.zero_grad.forward x2).backward g2).weight_grad_.getD k 0) := by
  have hz := FullyConnected.zero_grad_WF l hl
  have hw1 : ((l.zero_grad.forward x1).backward g1).WF :=
    FullyConnected.backward_WF _ _ (FullyConnected.forward_WF _ _ hz)
  have p12 := FullyConnected.pass_eq _ x2 g2 hw1
  have p1 := FullyConnected.pass_eq l.zero_grad x1 g1 hz
  have p2 := FullyConnected.pass_eq l.zero_grad x2 g2 hz
  rw [p12, p2, p1]
  constructor
  · intro k
    simp only [FullyConnected.affine, FullyConnected.zero_grad, getD_map_range,
      getD_replicate_zero]
    split_ifs <;> ring
  · intro k
    simp only [FullyConnected.affine, FullyConnected.zero_grad, getD_map_range,
      getD_replicate_zero]
    split_ifs <;> ring

/-- Witness of C3 on the sample layer. -/
theorem gradient_accumulation_witness :
    (sample_layer ℚ).WF ∧
    (∀ k, (((((sample_layer ℚ).zero_grad.forward [1, 1]).backward [1, 1]).forward
        [2, 3]).backward [1, -1]).weight_grad_.getD k 0 =
      (((sample_layer ℚ).zero_grad.forward [1, 1]).backward [1, 1]).weight_grad_.getD k 0 +
        (((sample_layer ℚ).zero_grad.forward [2, 3]).backward [1, -1]).weight_grad_.getD k 0) :=
  ⟨FullyConnected.sample_layer_WF ℚ,
    (gradient_accumulation (sample_layer ℚ) [1, 1] [2, 3] [1, 1] [1, -1]
      (FullyConnected.sample_layer_WF ℚ)).2⟩

end Claims

/-! ## Sequence -/

namespace Sequence

variable [LinearOrderedField α]

/-- The loop of `Sequence::forward` appends the hand-chained members to the
members already visited. -/
theorem foldl_forward_step (ms acc : List (FullyConnected α)) (x : List α) :
    (ms.foldl forward_step (acc, x)).1 = acc ++ manual_forward ms x := by
  induction ms generalizing acc x with
  | nil => simp [manual_forward]
  | cons layer rest ih =>
    rw [List.foldl_cons]
    show (rest.foldl forward_step (acc ++ [layer.forward x], (layer.forward x).output)).1 = _
    rw [ih]
    simp [manual_forward]

/-- The loop of `Sequence::backward`, which runs over the reversed members, is
hand chaining from the last member to the first. -/
theorem foldl_backward_step (ms : List (FullyConnected α)) (g : List α) :
    ms.reverse.foldl backward_step ([], g) = manual_backward ms g := by
  rw [List.foldl_reverse]
  induction ms with
  | nil => rfl
  | cons layer rest ih =>
    rw [List.foldr_cons, ih]
    rfl

end Sequence

section SequenceClaims

variable [LinearOrderedField α]

/-- C4. `Sequence` composition equals manual chaining.  For every list of
member layers, `forward` leaves the members that chaining `forward` by hand
leaves, and `backward` after it the members that chaining `backward` by hand
from the last to the first leaves; `output()` is the last member's output and,
on a non-empty sequence, `input_grad()` is the first member's input gradient.
For two members `[layer1, layer2]` the members, `input_grad()` and `output()`
are those of `layer1.forward(x)`, `layer2.forward(layer1.output())`,
`layer2.backward(g)`, `layer1.backward(layer2.input_grad())`. -/
theorem sequence_eq_manual_chain (x g : List α) :
    (∀ ms : List (FullyConnected α),
      (Sequence.mk ms).forward x = Sequence.mk (manual_forward ms x) ∧
      ((Sequence.mk ms).forward x).backward g =
        Sequence.mk (manual_backward (manual_forward ms x) g).1 ∧
      ((Sequence.mk ms).forward x).output =
        (manual_forward ms x).getLast?.map FullyConnected.output) ∧
    (∀ (layer : FullyConnected α) (rest : List (FullyConnected α)),
      (((Sequence.mk (layer :: rest)).forward x).backward g).input_grad =
        some (manual_backward (manual_forward (layer :: rest) x) g).2) ∧
    (∀ layer1 layer2 : FullyConnected α,
      (((Sequence.mk [layer1, layer2]).forward x).backward g).modules_ =
        [(layer1.forward x).backward
            ((layer2.forward (layer1.forward x).output).backward g).input_grad,
          (layer2.forward (layer1.forward x).output).backward g] ∧
      (((Sequence.mk [layer1, layer2]).forward x).backward g).input_grad =
        some ((layer1.forward x).backward
          ((layer2.forward (layer1.forward x).output).backward g).input_grad).input_grad ∧
      ((Sequence.mk [layer1, layer2]).forward x).output =
        some (layer2.forward (layer1.forward x).output).output ∧
      (((Sequence.mk [layer1, layer2]).forward x).backward g).output =
        some ((layer2.forward (layer1.forward x).output).backward g).output) := by
  have hf : ∀ ms : List (FullyConnected α),
      (Sequence.mk ms).forward x = Sequence.mk (manual_forward ms x) := fun ms => by
    show Sequence.mk (ms.foldl Sequence.forward_step ([], x)).1 = _
    rw [Sequence.foldl_forward_step, List.nil_append]
  have hb : ∀ ms : List (FullyConnected α),
      ((Sequence.mk ms).forward x).backward g =
        Sequence.mk (manual_backward (manual_forward ms x) g).1 := fun ms => by
    rw [hf]
    show Sequence.mk ((manual_forward ms x).reverse.foldl Sequence.backward_step ([], g)).1 = _
    rw [Sequence.foldl_backward_step]
  refine ⟨fun ms => ⟨hf ms, hb ms, by rw [hf]; rfl⟩, fun layer rest => ?_,
    fun layer1 layer2 => ?_⟩
  · rw [hb]
    rfl
  · rw [hb, hf]
    exact ⟨rfl, rfl, rfl, rfl⟩

end SequenceClaims

/-! ## XorNet -/

section Xor

variable [LinearOrderedField α]

theorem range_one : List.range 1 = [0] := rfl

theorem range_two : List.range 2 = [0, 1] := rfl

/-- C5. The network built by `set_correct_weights` (hidden `UnitStep` layer
with weights `[2, 2, -2, -2]` and biases `[-1, 3]`, output `UnitStep` layer
with weights `[1, 1]` and bias `[-2]`) computes XOR: `forward` on `(0,0)`,
`(0,1)`, `(1,0)`, `(1,1)` leaves the single output `0`, `1`, `1`, `0`. -/
theorem xor_known_weights (net : XorNet α) :
    net.set_correct_weights.sequence_.modules_.map FullyConnected.weights =
      [[2, 2, -2, -2], [1, 1]] ∧
    net.set_correct_weights.sequence_.modules_.map FullyConnected.bias = [[-1, 3], [-2]] ∧
    (net.set_correct_weights.forward [0, 0]).output = some [0] ∧
    (net.set_correct_weights.forward [0, 1]).output = some [1] ∧
    (net.set_correct_weights.forward [1, 0]).output = some [1] ∧
    (net.set_correct_weights.forward [1, 1]).output = some [0] := by
  refine ⟨?_, ?_, ?_, ?_, ?_, ?_⟩
  · simp [XorNet.set_correct_weights, FullyConnected.init, FullyConnected.weights,
      List.replicate]
  · simp [XorNet.set_correct_weights, FullyConnected.init, FullyConnected.bias,
      List.replicate]
  all_goals
    simp [XorNet.forward, XorNet.output, XorNet.set_correct_weights, Sequence.forward,
      Sequence.output, Sequence.forward_step, FullyConnected.forward,
      FullyConnected.forward_row, FullyConnected.forward_acc, FullyConnected.forward_out,
      FullyConnected.init, FullyConnected.output, UnitStep, range_two, range_one,
      List.replicate]
    try norm_num

end Xor

/-! ## The learning steps -/

section Steps

variable [LinearOrderedField α]

/-- On zeroed accumulators `step_grad` changes nothing at all. -/
theorem step_grad_zero_grad (l : FullyConnected α) (lr : α) :
    l.zero_grad.step_grad lr = l.zero_grad := by
  have hw : ∀ (j : Nat) (s : FullyConnected α) (i : Nat), s = l.zero_grad →
      FullyConnected.step_grad_w l.zero_grad.input_size_ lr j s i = l.zero_grad := by
    intro j s i hs
    subst hs
    have e : l.zero_grad.weights_.set (j * l.zero_grad.input_size_ + i)
        (l.zero_grad.weights_.getD (j * l.zero_grad.input_size_ + i) 0 -
          lr * l.zero_grad.weight_grad_.getD (j * l.zero_grad.input_size_ + i) 0) =
        l.zero_grad.weights_ := by
      have z : l.zero_grad.weight_grad_.getD (j * l.zero_grad.input_size_ + i) 0 = 0 :=
        getD_replicate_zero _ _
      rw [z, mul_zero, sub_zero, set_getD_self]
    show ({ l.zero_grad with weights_ := _ } : FullyConnected α) = _
    rw [e]
  have hb : ∀ (s : FullyConnected α) (j : Nat), s = l.zero_grad →
      FullyConnected.step_grad_b lr s j = l.zero_grad := by
    intro s j hs
    subst hs
    have e : l.zero_grad.bias_.set j
        (l.zero_grad.bias_.getD j 0 - lr * l.zero_grad.bias_grad_.getD j 0) =
        l.zero_grad.bias_ := by
      have z : l.zero_grad.bias_grad_.getD j 0 = 0 := getD_replicate_zero _ _
      rw [z, mul_zero, sub_zero, set_getD_self]
    show ({ l.zero_grad with bias_ := _ } : FullyConnected α) = _
    rw [e]
  exact foldl_inv (fun s => s = l.zero_grad) _
    (fun s j hs => foldl_inv (fun s => s = l.zero_grad) _ (hw j) _ _ (hb s j hs))
    (List.range l.zero_grad.output_size_) l.zero_grad rfl

/-- C6. `zero_grad` followed at once by `step_grad` leaves every weight and
every bias entry as it was, in a layer and in every member of a `Sequence`,
for every learning rate. -/
theorem zero_grad_step_grad_noop (lr : α) :
    (∀ l : FullyConnected α,
      (l.zero_grad.step_grad lr).weights = l.weights ∧
      (l.zero_grad.step_grad lr).bias = l.bias) ∧
    (∀ s : Sequence α,
      (s.zero_grad.step_grad lr).modules_.map FullyConnected.weights =
        s.modules_.map FullyConnected.weights ∧
      (s.zero_grad.step_grad lr).modules_.map FullyConnected.bias =
        s.modules_.map FullyConnected.bias) := by
  refine ⟨fun l => ?_, fun s => ?_⟩
  · rw [step_grad_zero_grad]
    exact ⟨rfl, rfl⟩
  · simp only [Sequence.zero_grad, Sequence.step_grad, List.map_map]
    constructor
    · apply List.map_congr_left
      intro l _
      show (l.zero_grad.step_grad lr).weights = l.weights
      rw [step_grad_zero_grad]
      rfl
    · apply List.map_congr_left
      intro l _
      show (l.zero_grad.step_grad lr).bias = l.bias
      rw [step_grad_zero_grad]
      rfl

/-- C9. `step_grad` is plain gradient descent: every weight becomes
`weight - learning_rate * weight_grad`, every bias entry
`bias - learning_rate * bias_grad`, and the gradient accumulators and the
RMSProp histories are what they were. -/
theorem step_grad_spec (l : FullyConnected α) (lr : α) (hl : l.WF) :
    (∀ k, k < l.input_size_ * l.output_size_ →
      (l.step_grad lr).weights.getD k 0 = l.weights.getD k 0 - lr * l.weight_grad_.getD k 0) ∧
    (∀ j, j < l.output_size_ →
      (l.step_grad lr).bias.getD j 0 = l.bias.getD j 0 - lr * l.bias_grad_.getD j 0) ∧
    (l.step_grad lr).weight_grad_ = l.weight_grad_ ∧
    (l.step_grad lr).bias_grad_ = l.bias_grad_ ∧
    (l.step_grad lr).weight_grad_history_ = l.weight_grad_history_ ∧
    (l.step_grad lr).bias_grad_history_ = l.bias_grad_history_ := by
  rw [FullyConnected.step_grad_eq l lr hl.bias_len hl.weights_len]
  refine ⟨fun k hk => ?_, fun j hj => ?_, rfl, rfl, rfl, rfl⟩
  · show ((List.range (l.input_size_ * l.output_size_)).map _).getD k 0 = _
    rw [getD_map_range, if_pos hk]
    rfl
  · show ((List.range l.output_size_).map _).getD j 0 = _
    rw [getD_map_range, if_pos hj]
    rfl

/-- Witness of C9 on the sample layer with learning rate `1/2`. -/
theorem step_grad_spec_witness :
    (sample_layer ℚ).WF ∧
    (∀ k, k < (sample_layer ℚ).input_size_ * (sample_layer ℚ).output_size_ →
      ((sample_layer ℚ).step_grad (1 / 2)).weights.getD k 0 =
        (sample_layer ℚ).weights.getD k 0 - 1 / 2 * (sample_layer ℚ).weight_grad_.getD k 0) :=
  ⟨FullyConnected.sample_layer_WF ℚ,
    (step_grad_spec (sample_layer ℚ) (1 / 2) (FullyConnected.sample_layer_WF ℚ)).1⟩

/-- C10. The update rule of `step_grad_rms_prop`: for every weight and every
bias entry with accumulated gradient `g` and old history `h`, the history
becomes `h' = history_influence * h + (1 - history_influence) * g^2` and the
parameter becomes `parameter - (learning_rate / sqrt (h' + smoothing_term)) * g`,
where `h'` is the history the call has just written; the gradient
accumulators are what they were. -/
theorem step_grad_rms_prop_spec (sqrt : α → α) (l : FullyConnected α) (lr β eps : α)
    (hl : l.WF) :
    (∀ k, k < l.input_size_ * l.output_size_ →
      (l.step_grad_rms_prop sqrt lr β eps).weight_grad_history_.getD k 0 =
        β * l.weight_grad_history_.getD k 0 + (1 - β) * l.weight_grad_.getD k 0 ^ 2 ∧
      (l.step_grad_rms_prop sqrt lr β eps).weights.getD k 0 =
        l.weights.getD k 0 -
          (lr / sqrt ((l.step_grad_rms_prop sqrt lr β eps).weight_grad_history_.getD k 0 + eps)) *
            l.weight_grad_.getD k 0) ∧
    (∀ j, j < l.output_size_ →
      (l.step_grad_rms_prop sqrt lr β eps).bias_grad_history_.getD j 0 =
        β * l.bias_grad_history_.getD j 0 + (1 - β) * l.bias_grad_.getD j 0 ^ 2 ∧
      (l.step_grad_rms_prop sqrt lr β eps).bias.getD j 0 =
        l.bias.getD j 0 -
          (lr / sqrt ((l.step_grad_rms_prop sqrt lr β eps).bias_grad_history_.getD j 0 + eps)) *
            l.bias_grad_.getD j 0) ∧
    (l.step_grad_rms_prop sqrt lr β eps).weight_grad_ = l.weight_grad_ ∧
    (l.step_grad_rms_prop sqrt lr β eps).bias_grad_ = l.bias_grad_ := by
  rw [FullyConnected.step_grad_rms_prop_eq sqrt l lr β eps hl.bias_len hl.weights_len
    hl.bias_grad_history_len hl.weight_grad_history_len]
  refine ⟨fun k hk => ⟨?_, ?_⟩, fun j hj => ⟨?_, ?_⟩, rfl, rfl⟩
  · show ((List.range (l.input_size_ * l.output_size_)).map _).getD k 0 = _
    rw [getD_map_range, if_pos hk]
    ring
  · show ((List.range (l.input_size_ * l.output_size_)).map _).getD k 0 =
      l.weights_.getD k 0 -
        (lr / sqrt (((List.range (l.input_size_ * l.output_size_)).map _).getD k 0 + eps)) *
          l.weight_grad_.getD k 0
    rw [getD_map_range, getD_map_range, if_pos hk, if_pos hk]
  · show ((List.range l.output_size_).map _).getD j 0 = _
    rw [getD_map_range, if_pos hj]
    ring
  · show ((List.range l.output_size_).map _).getD j 0 =
      l.bias_.getD j 0 -
        (lr / sqrt (((List.range l.output_size_).map _).getD j 0 + eps)) *
          l.bias_grad_.getD j 0
    rw [getD_map_range, getD_map_range, if_pos hj, if_pos hj]

/-- Witness of C10 on the sample layer over the reals, with the real square
root. -/
theorem step_grad_rms_prop_spec_witness :
    (sample_layer ℝ).WF ∧
    (∀ j, j < (sample_layer ℝ).output_size_ →
      ((sample_layer ℝ).step_grad_rms_prop Real.sqrt 1 (9 / 10) 1).bias_grad_history_.getD j 0 =
        9 / 10 * (sample_layer ℝ).bias_grad_history_.getD j 0 +
          (1 - 9 / 10) * (sample_layer ℝ).bias_grad_.getD j 0 ^ 2 ∧
      ((sample_layer ℝ).step_grad_rms_prop Real.sqrt 1 (9 / 10) 1).bias.getD j 0 =
        (sample_layer ℝ).bias.getD j 0 -
          (1 / Real.sqrt (((sample_layer ℝ).step_grad_rms_prop Real.sqrt 1 (9 / 10)
            1).bias_grad_history_.getD j 0 + 1)) * (sample_layer ℝ).bias_grad_.getD j 0) :=
  ⟨FullyConnected.sample_layer_WF ℝ,
    (step_grad_rms_prop_spec Real.sqrt (sample_layer ℝ) 1 (9 / 10) 1
      (FullyConnected.sample_layer_WF ℝ)).2.1⟩

/-- Of two RMSProp moves with one gradient `g ≠ 0`, the one with the larger
quantity under the square root is strictly shorter. -/
theorem abs_rms_move_lt {a b lr g : ℝ} (ha : 0 < a) (hab : a < b) (hlr : 0 < lr)
    (hg : g ≠ 0) (p q : ℝ) :
    |(q - lr / Real.sqrt b * g) - q| < |(p - lr / Real.sqrt a * g) - p| := by
  have hsa : 0 < Real.sqrt a := Real.sqrt_pos.mpr ha
  have hsb : 0 < Real.sqrt b := Real.sqrt_pos.mpr (ha.trans hab)
  have hlt : lr / Real.sqrt b < lr / Real.sqrt a :=
    div_lt_div_of_pos_left hlr hsa (Real.sqrt_lt_sqrt ha.le hab)
  rw [sub_sub_cancel_left, sub_sub_cancel_left, abs_neg, abs_neg, abs_mul, abs_mul,
    abs_of_pos (div_pos hlr hsb), abs_of_pos (div_pos hlr hsa)]
  exact mul_lt_mul_of_pos_right hlt (abs_pos.mpr hg)

/-- With history `0`, influence `0.9` and smoothing `1e-8`, the quantity under
the square root is positive at the first step and larger at the second. -/
theorem rms_fresh_history_grows (g : ℝ) (hg : g ≠ 0) :
    0 < 0.9 * 0 + (1 - 0.9) * g * g + 1e-8 ∧
    0.9 * 0 + (1 - 0.9) * g * g + 1e-8 <
      0.9 * (0.9 * 0 + (1 - 0.9) * g * g) + (1 - 0.9) * g * g + 1e-8 := by
  have hgg : 0 < g * g := mul_self_pos.mpr hg
  constructor
  · norm_num
    nlinarith
  · norm_num
    nlinarith

/-- C7. RMSProp, second step smaller: on a layer whose RMSProp histories are
all zero, as the constructor leaves them, two calls of
`step_grad_rms_prop(learning_rate, 0.9, 1e-8)` with `learning_rate > 0` see the
same gradient accumulators, and every bias and weight entry whose accumulated
gradient is not zero moves strictly less in the second call than in the
first. -/
theorem rms_prop_second_step_smaller (l : FullyConnected ℝ) (lr : ℝ) (hlr : 0 < lr)
    (hl : l.WF)
    (hbh : l.bias_grad_history_ = List.replicate l.output_size_ 0)
    (hwh : l.weight_grad_history_ = List.replicate (l.input_size_ * l.output_size_) 0) :
    (l.step_grad_rms_prop Real.sqrt lr 0.9 1e-8).bias_grad_ = l.bias_grad_ ∧
    (l.step_grad_rms_prop Real.sqrt lr 0.9 1e-8).weight_grad_ = l.weight_grad_ ∧
    (∀ j, j < l.output_size_ → l.bias_grad_.getD j 0 ≠ 0 →
      |((l.step_grad_rms_prop Real.sqrt lr 0.9 1e-8).step_grad_rms_prop
            Real.sqrt lr 0.9 1e-8).bias.getD j 0 -
          (l.step_grad_rms_prop Real.sqrt lr 0.9 1e-8).bias.getD j 0| <
        |(l.step_grad_rms_prop Real.sqrt lr 0.9 1e-8).bias.getD j 0 - l.bias.getD j 0|) ∧
    (∀ k, k < l.input_size_ * l.output_size_ → l.weight_grad_.getD k 0 ≠ 0 →
      |((l.step_grad_rms_prop Real.sqrt lr 0.9 1e-8).step_grad_rms_prop
            Real.sqrt lr 0.9 1e-8).weights.getD k 0 -
          (l.step_grad_rms_prop Real.sqrt lr 0.9 1e-8).weights.getD k 0| <
        |(l.step_grad_rms_prop Real.sqrt lr 0.9 1e-8).weights.getD k 0 -
          l.weights.getD k 0|) := by
  have h1 := FullyConnected.rms_prop_entries Real.sqrt l lr 0.9 1e-8 hl
  have hl1 := FullyConnected.step_grad_rms_prop_WF Real.sqrt l lr 0.9 1e-8 hl
  have h2 := FullyConnected.rms_prop_entries Real.sqrt _ lr 0.9 1e-8 hl1
  rw [h1.2.2.2.2.1, h1.2.2.2.2.2, h1.2.2.1, h1.2.2.2.1] at h2
  refine ⟨h1.2.2.2.1, h1.2.2.1, fun j hj hg => ?_, fun k hk hg => ?_⟩
  · obtain ⟨a1, a2⟩ := h1.2.1 j hj
    obtain ⟨b1, b2⟩ := h2.2.1 j hj
    have hz : l.bias_grad_history_.getD j 0 = 0 := by rw [hbh]; exact getD_replicate_zero _ _
    show |(FullyConnected.step_grad_rms_prop Real.sqrt _ lr 0.9 1e-8).bias_.getD j 0 -
      (l.step_grad_rms_prop Real.sqrt lr 0.9 1e-8).bias_.getD j 0| <
      |(l.step_grad_rms_prop Real.sqrt lr 0.9 1e-8).bias_.getD j 0 - l.bias_.getD j 0|
    rw [b2, a1, a2, hz]
    exact abs_rms_move_lt (rms_fresh_history_grows _ hg).1 (rms_fresh_history_grows _ hg).2
      hlr hg _ _
  · obtain ⟨a1, a2⟩ := h1.1 k hk
    obtain ⟨b1, b2⟩ := h2.1 k hk
    have hz : l.weight_grad_history_.getD k 0 = 0 := by rw [hwh]; exact getD_replicate_zero _ _
    show |(FullyConnected.step_grad_rms_prop Real.sqrt _ lr 0.9 1e-8).weights_.getD k 0 -
      (l.step_grad_rms_prop Real.sqrt lr 0.9 1e-8).weights_.getD k 0| <
      |(l.step_grad_rms_prop Real.sqrt lr 0.9 1e-8).weights_.getD k 0 - l.weights_.getD k 0|
    rw [b2, a1, a2, hz]
    exact abs_rms_move_lt (rms_fresh_history_grows _ hg).1 (rms_fresh_history_grows _ hg).2
      hlr hg _ _

/-- Witness of C7: a fresh 2x2 layer whose accumulators were set to
`[1, 2, 3, 4]` and `[5, 6]`, with learning rate `1`. -/
theorem rms_prop_second_step_smaller_witness :
    (0 : ℝ) < 1 ∧ (sample_layer ℝ).WF ∧
    (∀ j, j < (sample_layer ℝ).output_size_ → (sample_layer ℝ).bias_grad_.getD j 0 ≠ 0 →
      |(((sample_layer ℝ).step_grad_rms_prop Real.sqrt 1 0.9 1e-8).step_grad_rms_prop
            Real.sqrt 1 0.9 1e-8).bias.getD j 0 -
          ((sample_layer ℝ).step_grad_rms_prop Real.sqrt 1 0.9 1e-8).bias.getD j 0| <
        |((sample_layer ℝ).step_grad_rms_prop Real.sqrt 1 0.9 1e-8).bias.getD j 0 -
          (sample_layer ℝ).bias.getD j 0|) :=
  ⟨one_pos, FullyConnected.sample_layer_WF ℝ,
    (rms_prop_second_step_smaller (sample_layer ℝ) 1 one_pos
      (FullyConnected.sample_layer_WF ℝ) rfl rfl).2.2.1⟩

end Steps

/-! ## The gradient check -/

section GradientCheck

variable [LinearOrderedField α]

theorem getD_perturb (v : List α) (i k : Nat) (e : α) (hi : i < v.length) :
    (perturb v i e).getD k 0 = v.getD k 0 + (if k = i then e else 0) := by
  by_cases hk : k = i
  · subst hk
    rw [perturb, getD_set_self _ _ _ _ hi, if_pos rfl]
  · rw [perturb, getD_set_other _ _ _ _ _ hk, if_neg hk, add_zero]

/-- The loss in closed form. -/
theorem loss_eq (l : FullyConnected α) (g x : List α) (hl : l.WF) :
    loss l g x = ∑ j in Finset.range l.output_size_,
      g.getD j 0 * l.activation_fn_.apply (l.affine x j) := by
  unfold loss
  apply Finset.sum_congr rfl
  intro j hj
  rw [FullyConnected.forward_eq l x hl.potential_len hl.output_len]
  show _ * ((List.range l.output_size_).map _).getD j 0 = _
  rw [getD_map_range, if_pos (Finset.mem_range.mp hj)]
  rfl

/-- Moving input component `i` by `e` moves the pre-activation of unit `j` by
`e * weights_[j * n + i]`. -/
theorem affine_perturb_input (l : FullyConnected α) (x : List α) (i j : Nat) (e : α)
    (hi : i < l.input_size_) (hx : x.length = l.input_size_) :
    l.affine (perturb x i e) j =
      l.affine x j + e * l.weights_.getD (j * l.input_size_ + i) 0 := by
  unfold FullyConnected.affine
  rw [add_assoc]
  congr 1
  have h : ∀ i' ∈ Finset.range l.input_size_,
      l.weights_.getD (j * l.input_size_ + i') 0 * (perturb x i e).getD i' 0 =
        l.weights_.getD (j * l.input_size_ + i') 0 * x.getD i' 0 +
          (if i' = i then e * l.weights_.getD (j * l.input_size_ + i') 0 else 0) := by
    intro i' _
    rw [getD_perturb _ _ _ _ (by rw [hx]; exact hi)]
    split_ifs <;> ring
  rw [Finset.sum_congr rfl h, Finset.sum_add_distrib, Finset.sum_ite_eq',
    if_pos (Finset.mem_range.mpr hi)]

/-- Moving the weight of flat index `k` by `e` moves the pre-activation of
unit `k / n` by `e * x[k % n]` and no other. -/
theorem affine_perturb_weight (l : FullyConnected α) (x : List α) (k j : Nat) (e : α)
    (hk : k < l.input_size_ * l.output_size_)
    (hw : l.weights_.length = l.input_size_ * l.output_size_) :
    FullyConnected.affine { l with weights_ := perturb l.weights_ k e } x j =
      l.affine x j +
        e * (if j = k / l.input_size_ then x.getD (k % l.input_size_) 0 else 0) := by
  unfold FullyConnected.affine
  rw [add_assoc]
  congr 1
  have hn : 0 < l.input_size_ := by
    rcases Nat.eq_zero_or_pos l.input_size_ with h0 | h0
    · rw [h0, Nat.zero_mul] at hk; omega
    · exact h0
  have h : ∀ i' ∈ Finset.range l.input_size_,
      (perturb l.weights_ k e).getD (j * l.input_size_ + i') 0 * x.getD i' 0 =
        l.weights_.getD (j * l.input_size_ + i') 0 * x.getD i' 0 +
          (if i' = k % l.input_size_ then
            e * (if j = k / l.input_size_ then x.getD i' 0 else 0) else 0) := by
    intro i' hi'
    have hi'' : i' < l.input_size_ := Finset.mem_range.mp hi'
    rw [getD_perturb _ _ _ _ (by rw [hw]; exact hk)]
    by_cases hjk : j * l.input_size_ + i' = k
    · have h1 : i' = k % l.input_size_ := by rw [← hjk, idx_mod hi'']
      have h2 : j = k / l.input_size_ := by rw [← hjk, idx_div hi'']
      rw [if_pos hjk, if_pos h1, if_pos h2]
      ring
    · by_cases h1 : i' = k % l.input_size_
      · have h2 : ¬ j = k / l.input_size_ := by
          intro h2
          apply hjk
          rw [h1, h2]
          exact Nat.div_add_mod' k l.input_size_
        rw [if_neg hjk, if_pos h1, if_neg h2]
        ring
      · rw [if_neg hjk, if_neg h1]
        ring
  show ∑ i' in Finset.range l.input_size_,
      (perturb l.weights_ k e).getD (j * l.input_size_ + i') 0 * x.getD i' 0 = _
  rw [Finset.sum_congr rfl h, Finset.sum_add_distrib, Finset.sum_ite_eq',
    if_pos (Finset.mem_range.mpr (Nat.mod_lt _ hn))]

end GradientCheck

section GradientCheckReal

open Filter Topology

/-- A function differentiable at `0` has its derivative as the limit of its
central differences. -/
theorem tendsto_central_diff (f : ℝ → ℝ) (D : ℝ) (h : HasDerivAt f D 0) :
    Tendsto (fun e => (f e - f (-e)) / (2 * e)) (𝓝[≠] 0) (𝓝 D) := by
  have h0 : HasDerivAt f D (-(0 : ℝ)) := by rw [neg_zero]; exact h
  have hneg : HasDerivAt (fun e => f (-e)) (D * -1) 0 :=
    HasDerivAt.comp (0 : ℝ) h0 (hasDerivAt_neg' (0 : ℝ))
  have hsub := h.sub hneg
  have hs := (hasDerivAt_iff_tendsto_slope_zero.mp hsub).div_const 2
  have hD : (D - D * -1) / 2 = D := by ring
  rw [hD] at hs
  refine hs.congr (fun t => ?_)
  simp only [zero_add, neg_zero, sub_self, sub_zero, smul_eq_mul]
  rw [div_eq_mul_inv, div_eq_mul_inv, mul_inv]
  ring

/-- The chain rule for a weighted sum of activations of affine functions of
one variable. -/
theorem hasDerivAt_weighted_sum (act : ℝ → ℝ) (m : Nat) (g p c d : Nat → ℝ)
    (h : ∀ j, j < m → HasDerivAt act (d j) (p j)) :
    HasDerivAt (fun e => ∑ j in Finset.range m, g j * act (p j + e * c j))
      (∑ j in Finset.range m, g j * d j * c j) 0 := by
  have hj : ∀ j ∈ Finset.range m,
      HasDerivAt (fun e => g j * act (p j + e * c j)) (g j * d j * c j) 0 := by
    intro j hjm
    have hin : HasDerivAt (fun e : ℝ => p j + e * c j) (1 * c j) 0 :=
      ((hasDerivAt_id (0 : ℝ)).mul_const (c j)).const_add (p j)
    have hp : HasDerivAt act (d j) (p j + 0 * c j) := by
      rw [zero_mul, add_zero]; exact h j (Finset.mem_range.mp hjm)
    have hc := (HasDerivAt.comp (0 : ℝ) hp hin).const_mul (g j)
    have e : g j * (d j * (1 * c j)) = g j * d j * c j := by ring
    rw [e] at hc
    exact hc
  exact HasDerivAt.sum hj

/-- Backpropagation passes the gradient check wherever
`activation_fn_.derivative` is the derivative of `activation_fn_` at every
pre-activation: the central differences of the loss in every input component
and in every weight tend to `input_grad_` and `weight_grad_`. -/
theorem gradient_check_of_hasDerivAt (l : FullyConnected ℝ) (x g : List ℝ) (hl : l.WF)
    (hx : x.length = l.input_size_)
    (hd : ∀ j, j < l.output_size_ →
      HasDerivAt l.activation_fn_.apply (l.activation_fn_.derivative (l.affine x j))
        (l.affine x j)) :
    (∀ i, i < l.input_size_ →
      Tendsto (central_diff_input l g x i) (𝓝[≠] 0)
        (𝓝 (((l.zero_grad.forward x).backward g).input_grad.getD i 0))) ∧
    (∀ k, k < l.input_size_ * l.output_size_ →
      Tendsto (central_diff_weight l g x k) (𝓝[≠] 0)
        (𝓝 (((l.zero_grad.forward x).backward g).weight_grad_.getD k 0))) := by
  have hp := FullyConnected.pass_eq l.zero_grad x g (FullyConnected.zero_grad_WF l hl)
  constructor
  · intro i hi
    have hval : ((l.zero_grad.forward x).backward g).input_grad.getD i 0 =
        ∑ j in Finset.range l.output_size_,
          g.getD j 0 * l.activation_fn_.derivative (l.affine x j) *
            l.weights_.getD (j * l.input_size_ + i) 0 := by
      rw [hp]
      show ((List.range l.input_size_).map _).getD i 0 = _
      rw [getD_map_range, if_pos hi]
      rfl
    have hloss : ∀ e, loss l g (perturb x i e) =
        ∑ j in Finset.range l.output_size_, g.getD j 0 *
          l.activation_fn_.apply (l.affine x j + e * l.weights_.getD (j * l.input_size_ + i) 0) := by
      intro e
      rw [loss_eq l g _ hl]
      apply Finset.sum_congr rfl
      intro j _
      rw [affine_perturb_input l x i j e hi hx]
    have hfun : central_diff_input l g x i = fun e =>
        ((∑ j in Finset.range l.output_size_, g.getD j 0 *
          l.activation_fn_.apply (l.affine x j + e * l.weights_.getD (j * l.input_size_ + i) 0)) -
        (∑ j in Finset.range l.output_size_, g.getD j 0 *
          l.activation_fn_.apply
            (l.affine x j + -e * l.weights_.getD (j * l.input_size_ + i) 0))) / (2 * e) := by
      funext e
      rw [central_diff_input, hloss, hloss]
    rw [hval, hfun]
    exact tendsto_central_diff _ _
      (hasDerivAt_weighted_sum l.activation_fn_.apply l.output_size_ (fun j => g.getD j 0)
        (fun j => l.affine x j) (fun j => l.weights_.getD (j * l.input_size_ + i) 0)
        (fun j => l.activation_fn_.derivative (l.affine x j)) hd)
  · intro k hk
    have hdiv : k / l.input_size_ < l.output_size_ := Nat.div_lt_of_lt_mul hk
    have hval : ((l.zero_grad.forward x).backward g).weight_grad_.getD k 0 =
        ∑ j in Finset.range l.output_size_,
          g.getD j 0 * l.activation_fn_.derivative (l.affine x j) *
            (if j = k / l.input_size_ then x.getD (k % l.input_size_) 0 else 0) := by
      rw [hp]
      show ((List.range (l.input_size_ * l.output_size_)).map _).getD k 0 = _
      rw [getD_map_range, if_pos hk]
      simp only [mul_ite, mul_zero, Finset.sum_ite_eq', Finset.mem_range, hdiv, if_true]
      show (List.replicate _ (0 : ℝ)).getD k 0 + _ = _
      rw [getD_replicate_zero, zero_add]
      rfl
    have hloss : ∀ e, loss { l with weights_ := perturb l.weights_ k e } g x =
        ∑ j in Finset.range l.output_size_, g.getD j 0 *
          l.activation_fn_.apply (l.affine x j +
            e * (if j = k / l.input_size_ then x.getD (k % l.input_size_) 0 else 0)) := by
      intro e
      have hl2 : FullyConnected.WF { l with weights_ := perturb l.weights_ k e } :=
        ⟨hl.bias_len, by
          show (l.weights_.set k _).length = _
          rw [List.length_set]; exact hl.weights_len,
          hl.potential_len, hl.output_len, hl.output_derivative_len, hl.input_grad_len,
          hl.bias_grad_len, hl.bias_grad_history_len, hl.weight_grad_len,
          hl.weight_grad_history_len⟩
      rw [loss_eq _ g x hl2]
      apply Finset.sum_congr rfl
      intro j _
      rw [affine_perturb_weight l x k j e hk hl.weights_len]
    have hfun : central_diff_weight l g x k = fun e =>
        ((∑ j in Finset.range l.output_size_, g.getD j 0 *
          l.activation_fn_.apply (l.affine x j +
            e * (if j = k / l.input_size_ then x.getD (k % l.input_size_) 0 else 0))) -
        (∑ j in Finset.range l.output_size_, g.getD j 0 *
          l.activation_fn_.apply (l.affine x j +
            -e * (if j = k / l.input_size_ then x.getD (k % l.input_size_) 0 else 0)))) /
          (2 * e) := by
      funext e
      rw [central_diff_weight, hloss, hloss]
    rw [hval, hfun]
    exact tendsto_central_diff _ _
      (hasDerivAt_weighted_sum l.activation_fn_.apply l.output_size_ (fun j => g.getD j 0)
        (fun j => l.affine x j)
        (fun j => if j = k / l.input_size_ then x.getD (k % l.input_size_) 0 else 0)
        (fun j => l.activation_fn_.derivative (l.affine x j)) hd)

/-- Away from `0`, `RelU::derivative` is the derivative of `RelU`. -/
theorem RelU_hasDerivAt (p : ℝ) (hp : p ≠ 0) :
    HasDerivAt (RelU : ActivationFn ℝ).apply ((RelU : ActivationFn ℝ).derivative p) p := by
  rcases lt_or_gt_of_ne hp with hneg | hpos
  · have hd : (RelU : ActivationFn ℝ).derivative p = 0 := by
      show (if p ≥ 0 then (1 : ℝ) else 0) = 0
      rw [if_neg (not_le.mpr hneg)]
    rw [hd]
    refine (hasDerivAt_const p (0 : ℝ)).congr_of_eventuallyEq ?_
    filter_upwards [gt_mem_nhds hneg] with y hy
    show (if (0 : ℝ) < y then y else 0) = 0
    rw [if_neg (not_lt.mpr hy.le)]
  · have hd : (RelU : ActivationFn ℝ).derivative p = 1 := by
      show (if p ≥ 0 then (1 : ℝ) else 0) = 1
      rw [if_pos hpos.le]
    rw [hd]
    refine (hasDerivAt_id p).congr_of_eventuallyEq ?_
    filter_upwards [lt_mem_nhds hpos] with y hy
    show (if (0 : ℝ) < y then y else 0) = y
    rw [if_pos hy]

/-- Away from `0`, `UnitStep::derivative` is the derivative of `UnitStep`. -/
theorem UnitStep_hasDerivAt (p : ℝ) (hp : p ≠ 0) :
    HasDerivAt (UnitStep : ActivationFn ℝ).apply ((UnitStep : ActivationFn ℝ).derivative p)
      p := by
  show HasDerivAt (UnitStep : ActivationFn ℝ).apply 0 p
  rcases lt_or_gt_of_ne hp with hneg | hpos
  · refine (hasDerivAt_const p (0 : ℝ)).congr_of_eventuallyEq ?_
    filter_upwards [gt_mem_nhds hneg] with y hy
    show (if y ≥ 0 then (1 : ℝ) else 0) = 0
    rw [if_neg (not_le.mpr hy)]
  · refine (hasDerivAt_const p (1 : ℝ)).congr_of_eventuallyEq ?_
    filter_upwards [lt_mem_nhds hpos] with y hy
    show (if y ≥ 0 then (1 : ℝ) else 0) = 1
    rw [if_pos hy.le]

/-- With `lambda = 1`, `LogisticSigmoid::derivative` is the derivative of
`LogisticSigmoid`. -/
theorem LogisticSigmoid_one_hasDerivAt (p : ℝ) :
    HasDerivAt (LogisticSigmoid Real.exp 1).apply
      ((LogisticSigmoid Real.exp 1).derivative p) p := by
  have hin : HasDerivAt (fun y : ℝ => 1 * -y) (1 * -1) p := (hasDerivAt_neg' p).const_mul 1
  have hden : HasDerivAt (fun y : ℝ => 1 + Real.exp (1 * -y))
      (Real.exp (1 * -p) * (1 * -1)) p := hin.exp.const_add 1
  have hne : (1 : ℝ) + Real.exp (1 * -p) ≠ 0 := by positivity
  have h := (hasDerivAt_const p (1 : ℝ)).div hden hne
  have e : (0 * (1 + Real.exp (1 * -p)) - 1 * (Real.exp (1 * -p) * (1 * -1))) /
      (1 + Real.exp (1 * -p)) ^ 2 = (LogisticSigmoid Real.exp 1).derivative p := by
    show _ = 1 / (1 + Real.exp (1 * -p)) * (1 - 1 / (1 + Real.exp (1 * -p)))
    field_simp
    ring
  rw [e] at h
  exact h

/-- C8, amended. Gradient check where the activation is differentiable: for a
`RelU` or `UnitStep` layer at an input where no pre-activation `potential_[j]`
is `0`, and for a `LogisticSigmoid` layer with `lambda = 1`, after `zero_grad`,
`forward(x)`, `backward(g)` every `input_grad_[i]` and every `weight_grad_[k]`
is the limit, as `e` tends to `0`, of the central difference of
`L = Σ_j g[j] * output()[j]` in `x[i]`, respectively in `weights_[k]`. -/
theorem gradient_check_differentiable (l : FullyConnected ℝ) (x g : List ℝ) (hl : l.WF)
    (hx : x.length = l.input_size_)
    (hact : (l.activation_fn_ = RelU ∧
        ∀ j, j < l.output_size_ → (l.forward x).potential_.getD j 0 ≠ 0) ∨
      (l.activation_fn_ = UnitStep ∧
        ∀ j, j < l.output_size_ → (l.forward x).potential_.getD j 0 ≠ 0) ∨
      l.activation_fn_ = LogisticSigmoid Real.exp 1) :
    (∀ i, i < l.input_size_ →
      Tendsto (central_diff_input l g x i) (𝓝[≠] 0)
        (𝓝 (((l.zero_grad.forward x).backward g).input_grad.getD i 0))) ∧
    (∀ k, k < l.input_size_ * l.output_size_ →
      Tendsto (central_diff_weight l g x k) (𝓝[≠] 0)
        (𝓝 (((l.zero_grad.forward x).backward g).weight_grad_.getD k 0))) := by
  have hpot : ∀ j, j < l.output_size_ → (l.forward x).potential_.getD j 0 = l.affine x j :=
    fun j hj => FullyConnected.forward_potential_getD l x hl j hj
  apply gradient_check_of_hasDerivAt l x g hl hx
  intro j hj
  rcases hact with ⟨ha, hne⟩ | ⟨ha, hne⟩ | ha
  · rw [ha]
    exact RelU_hasDerivAt _ (by rw [← hpot j hj]; exact hne j hj)
  · rw [ha]
    exact UnitStep_hasDerivAt _ (by rw [← hpot j hj]; exact hne j hj)
  · rw [ha]
    exact LogisticSigmoid_one_hasDerivAt _

/-- Witness of the amended C8 on the sample `RelU` layer at the input
`(1, 1)`, where the pre-activations are `4` and `-93`. -/
theorem gradient_check_differentiable_witness :
    (sample_layer ℝ).WF ∧ ([1, 1] : List ℝ).length = (sample_layer ℝ).input_size_ ∧
    (∀ j, j < (sample_layer ℝ).output_size_ →
      ((sample_layer ℝ).forward [1, 1]).potential_.getD j 0 ≠ 0) ∧
    (∀ i, i < (sample_layer ℝ).input_size_ →
      Tendsto (central_diff_input (sample_layer ℝ) [1, 1] [1, 1] i) (𝓝[≠] 0)
        (𝓝 ((((sample_layer ℝ).zero_grad.forward [1, 1]).backward [1, 1]).input_grad.getD
          i 0))) := by
  have hne : ∀ j, j < (sample_layer ℝ).output_size_ →
      ((sample_layer ℝ).forward [1, 1]).potential_.getD j 0 ≠ 0 := by
    intro j hj
    rw [FullyConnected.forward_potential_getD _ _ (FullyConnected.sample_layer_WF ℝ) j hj]
    have hj2 : j < 2 := hj
    interval_cases j
    · simp [FullyConnected.affine, sample_layer, FullyConnected.init, Finset.sum_range_succ]
      norm_num
    · simp [FullyConnected.affine, sample_layer, FullyConnected.init, Finset.sum_range_succ]
      norm_num
  exact ⟨FullyConnected.sample_layer_WF ℝ, rfl, hne,
    (gradient_check_differentiable (sample_layer ℝ) [1, 1] [1, 1]
      (FullyConnected.sample_layer_WF ℝ) rfl (Or.inl ⟨rfl, hne⟩)).1⟩

/-- On the 1x1 layer with weight `1` and bias `0` the central difference of
the loss at input `0` is the central difference of the activation at `0`. -/
theorem central_diff_kink (act : ActivationFn ℝ) (e : ℝ) :
    central_diff_input (kink_layer ℝ act) [1] [0] 0 e =
      (act.apply e - act.apply (-e)) / (2 * e) := by
  rw [central_diff_input, loss_eq _ _ _ (FullyConnected.kink_layer_WF ℝ act),
    loss_eq _ _ _ (FullyConnected.kink_layer_WF ℝ act)]
  simp [FullyConnected.affine, kink_layer, FullyConnected.init, perturb]

/-- On the 1x1 layer with weight `1` and bias `0`, at input `0` with output
gradient `1`, `backward` leaves `derivative(0)` in `input_grad_[0]`. -/
theorem input_grad_kink (act : ActivationFn ℝ) :
    (((kink_layer ℝ act).zero_grad.forward [0]).backward [1]).input_grad.getD 0 0 =
      act.derivative 0 := by
  rw [FullyConnected.pass_eq _ _ _
    (FullyConnected.zero_grad_WF _ (FullyConnected.kink_layer_WF ℝ act))]
  simp [FullyConnected.affine, kink_layer, FullyConnected.init, FullyConnected.zero_grad,
    FullyConnected.input_grad]

/-- C8 fails as stated. On the 1x1 layer with weight `1` and bias `0`, at the
input `0` (pre-activation `0`) with output gradient `1`: for `RelU` the central
differences of the loss are all `1/2` while `input_grad_[0]` is `1`; for
`UnitStep` they are `1 / (2 |e|)`, which has no limit, while `input_grad_[0]`
is `0`.  In both cases `input_grad_[0]` is not the limit of the central
differences. -/
theorem gradient_check_fails_at_zero_potential :
    ¬ Tendsto (central_diff_input (kink_layer ℝ RelU) [1] [0] 0) (𝓝[≠] 0)
      (𝓝 ((((kink_layer ℝ RelU).zero_grad.forward [0]).backward [1]).input_grad.getD 0 0)) ∧
    ¬ Tendsto (central_diff_input (kink_layer ℝ UnitStep) [1] [0] 0) (𝓝[≠] 0)
      (𝓝 ((((kink_layer ℝ UnitStep).zero_grad.forward [0]).backward [1]).input_grad.getD
        0 0)) := by
  constructor
  · intro h
    rw [input_grad_kink] at h
    have hd : (RelU : ActivationFn ℝ).derivative 0 = 1 := by
      show (if (0 : ℝ) ≥ 0 then (1 : ℝ) else 0) = 1
      rw [if_pos (le_refl _)]
    rw [hd] at h
    have h2 : Tendsto (central_diff_input (kink_layer ℝ RelU) [1] [0] 0) (𝓝[≠] 0)
        (𝓝 (1 / 2)) := by
      refine tendsto_const_nhds.congr' ?_
      filter_upwards [self_mem_nhdsWithin] with e he
      have he' : e ≠ 0 := he
      rw [central_diff_kink]
      show (1 : ℝ) / 2 =
        ((if (0 : ℝ) < e then e else 0) - (if (0 : ℝ) < -e then -e else 0)) / (2 * e)
      rcases lt_or_gt_of_ne he' with hneg | hpos
      · rw [if_neg (not_lt.mpr hneg.le), if_pos (by linarith)]
        field_simp
      · rw [if_pos hpos, if_neg (by linarith)]
        field_simp
    have := tendsto_nhds_unique h h2
    norm_num at this
  · intro h
    rw [input_grad_kink] at h
    have hd : (UnitStep : ActivationFn ℝ).derivative 0 = 0 := rfl
    rw [hd] at h
    have h1 : ∀ᶠ e in 𝓝[≠] (0 : ℝ),
        central_diff_input (kink_layer ℝ UnitStep) [1] [0] 0 e < 1 :=
      h.eventually (gt_mem_nhds one_pos)
    have h2 : ∀ᶠ e in 𝓝[≠] (0 : ℝ), |e| < 1 / 2 := by
      have hc : Tendsto (fun e : ℝ => |e|) (𝓝 0) (𝓝 |0|) := continuous_abs.tendsto 0
      rw [abs_zero] at hc
      have : ∀ᶠ e in 𝓝 (0 : ℝ), |e| < 1 / 2 := hc.eventually (gt_mem_nhds (by norm_num))
      exact this.filter_mono nhdsWithin_le_nhds
    have h3 : ∀ᶠ e in 𝓝[≠] (0 : ℝ), e ≠ 0 := self_mem_nhdsWithin
    obtain ⟨e, he1, he2, he3⟩ := (h1.and (h2.and h3)).exists
    rw [central_diff_kink] at he1
    have he1' : ((if e ≥ 0 then (1 : ℝ) else 0) - (if -e ≥ 0 then (1 : ℝ) else 0)) /
        (2 * e) < 1 := he1
    rcases lt_or_gt_of_ne he3 with hneg | hpos
    · rw [if_neg (by linarith), if_pos (by linarith)] at he1'
      rw [abs_of_neg hneg] at he2
      have hpos2 : (0 : ℝ) < -(2 * e) := by linarith
      have h4 : ((0 : ℝ) - 1) / (2 * e) = 1 / (-(2 * e)) := by field_simp
      rw [h4, div_lt_one hpos2] at he1'
      linarith
    · rw [if_pos (by linarith), if_neg (by linarith)] at he1'
      rw [abs_of_pos hpos] at he2
      have hpos2 : (0 : ℝ) < 2 * e := by linarith
      rw [sub_zero, div_lt_one hpos2] at he1'
      linarith

end GradientCheckReal

/-! ## Frame conditions -/

section Frames

variable [LinearOrderedField α]

/-- C11. `zero_grad` resets only the accumulators: afterwards every entry of
`weight_grad_` and `bias_grad_` is `0` (they are `input_size_ * output_size_`,
respectively `output_size_`, zeros), while `weights_`, `bias_`, both RMSProp
histories, `output()` and `input_grad()` are what they were. -/
theorem zero_grad_spec (l : FullyConnected α) :
    l.zero_grad.weight_grad_ = List.replicate (l.input_size_ * l.output_size_) 0 ∧
    l.zero_grad.bias_grad_ = List.replicate l.output_size_ 0 ∧
    (∀ a, a ∈ l.zero_grad.weight_grad_ → a = 0) ∧
    (∀ a, a ∈ l.zero_grad.bias_grad_ → a = 0) ∧
    (∀ k, l.zero_grad.weight_grad_.getD k 0 = 0) ∧
    (∀ j, l.zero_grad.bias_grad_.getD j 0 = 0) ∧
    l.zero_grad.weights = l.weights ∧
    l.zero_grad.bias = l.bias ∧
    l.zero_grad.weight_grad_history_ = l.weight_grad_history_ ∧
    l.zero_grad.bias_grad_history_ = l.bias_grad_history_ ∧
    l.zero_grad.output = l.output ∧
    l.zero_grad.input_grad = l.input_grad := by
  refine ⟨rfl, rfl, fun a ha => ?_, fun a ha => ?_, fun k => ?_, fun j => ?_,
    rfl, rfl, rfl, rfl, rfl, rfl⟩
  · exact List.eq_of_mem_replicate ha
  · exact List.eq_of_mem_replicate ha
  · exact getD_replicate_zero _ _
  · exact getD_replicate_zero _ _

/-- C20. Only the step functions change parameters: `forward` leaves
`weights_`, `bias_`, both gradient accumulators, both RMSProp histories and
`input_grad_` as they were; `backward` leaves `weights_`, `bias_`, both RMSProp
histories, `potential_` and `output()` as they were; and a second `forward(x)`
right after the first changes nothing, in particular not `output()`. -/
theorem forward_backward_frame (l : FullyConnected α) (x g : List α) (hl : l.WF) :
    ((l.forward x).weights = l.weights ∧ (l.forward x).bias = l.bias ∧
      (l.forward x).weight_grad_ = l.weight_grad_ ∧
      (l.forward x).bias_grad_ = l.bias_grad_ ∧
      (l.forward x).weight_grad_history_ = l.weight_grad_history_ ∧
      (l.forward x).bias_grad_history_ = l.bias_grad_history_ ∧
      (l.forward x).input_grad = l.input_grad) ∧
    ((l.backward g).weights = l.weights ∧ (l.backward g).bias = l.bias ∧
      (l.backward g).weight_grad_history_ = l.weight_grad_history_ ∧
      (l.backward g).bias_grad_history_ = l.bias_grad_history_ ∧
      (l.backward g).potential_ = l.potential_ ∧
      (l.backward g).output = l.output) ∧
    ((l.forward x).forward x).output = (l.forward x).output ∧
    (l.forward x).forward x = l.forward x := by
  have hf := FullyConnected.forward_WF l x hl
  have e2 := FullyConnected.forward_eq (l.forward x) x hf.potential_len hf.output_len
  have e1 := FullyConnected.forward_eq l x hl.potential_len hl.output_len
  have eb := FullyConnected.backward_eq l g hl.output_derivative_len hl.bias_grad_len
    hl.weight_grad_len hl.input_grad_len
  have htwice : (l.forward x).forward x = l.forward x := by
    rw [e2, e1]
  refine ⟨?_, ?_, ?_, htwice⟩
  · rw [e1]
    exact ⟨rfl, rfl, rfl, rfl, rfl, rfl, rfl⟩
  · rw [eb]
    exact ⟨rfl, rfl, rfl, rfl, rfl, rfl⟩
  · rw [htwice]

/-- Witness of C20 on the sample layer. -/
theorem forward_backward_frame_witness :
    (sample_layer ℚ).WF ∧
    (((sample_layer ℚ).forward [1, 1]).forward [1, 1]).output =
      ((sample_layer ℚ).forward [1, 1]).output :=
  ⟨FullyConnected.sample_layer_WF ℚ,
    (forward_backward_frame (sample_layer ℚ) [1, 1] [1, 1]
      (FullyConnected.sample_layer_WF ℚ)).2.2.1⟩

end Frames

/-! ## Invariants along call sequences -/

section Calls

variable [LinearOrderedField α]

/-- Every call keeps the buffer sizes, the two size members and the
activation function. -/
theorem call_WF (sqrt : α → α) (l : FullyConnected α) (c : Call α) (hl : l.WF) :
    (l.call sqrt c).WF ∧ (l.call sqrt c).input_size_ = l.input_size_ ∧
      (l.call sqrt c).output_size_ = l.output_size_ ∧
      (l.call sqrt c).activation_fn_ = l.activation_fn_ := by
  cases c with
  | forward x =>
    refine ⟨FullyConnected.forward_WF l x hl, ?_⟩
    show (l.forward x).input_size_ = _ ∧ (l.forward x).output_size_ = _ ∧
      (l.forward x).activation_fn_ = _
    rw [FullyConnected.forward_eq l x hl.potential_len hl.output_len]
    exact ⟨rfl, rfl, rfl⟩
  | backward g =>
    refine ⟨FullyConnected.backward_WF l g hl, ?_⟩
    show (l.backward g).input_size_ = _ ∧ (l.backward g).output_size_ = _ ∧
      (l.backward g).activation_fn_ = _
    rw [FullyConnected.backward_eq l g hl.output_derivative_len hl.bias_grad_len
      hl.weight_grad_len hl.input_grad_len]
    exact ⟨rfl, rfl, rfl⟩
  | zero_grad => exact ⟨FullyConnected.zero_grad_WF l hl, rfl, rfl, rfl⟩
  | step_grad lr =>
    refine ⟨FullyConnected.step_grad_WF l lr hl, ?_⟩
    show (l.step_grad lr).input_size_ = _ ∧ (l.step_grad lr).output_size_ = _ ∧
      (l.step_grad lr).activation_fn_ = _
    rw [FullyConnected.step_grad_eq l lr hl.bias_len hl.weights_len]
    exact ⟨rfl, rfl, rfl⟩
  | step_grad_rms_prop lr β eps =>
    refine ⟨FullyConnected.step_grad_rms_prop_WF sqrt l lr β eps hl, ?_⟩
    show (l.step_grad_rms_prop sqrt lr β eps).input_size_ = _ ∧
      (l.step_grad_rms_prop sqrt lr β eps).output_size_ = _ ∧
      (l.step_grad_rms_prop sqrt lr β eps).activation_fn_ = _
    rw [FullyConnected.step_grad_rms_prop_eq sqrt l lr β eps hl.bias_len hl.weights_len
      hl.bias_grad_history_len hl.weight_grad_history_len]
    exact ⟨rfl, rfl, rfl⟩

/-- Every finite sequence of calls keeps the buffer sizes, the two size
members and the activation function. -/
theorem run_WF (sqrt : α → α) (l : FullyConnected α) (calls : List (Call α)) (hl : l.WF) :
    (l.run sqrt calls).WF ∧ (l.run sqrt calls).input_size_ = l.input_size_ ∧
      (l.run sqrt calls).output_size_ = l.output_size_ ∧
      (l.run sqrt calls).activation_fn_ = l.activation_fn_ :=
  foldl_inv (fun s : FullyConnected α => s.WF ∧ s.input_size_ = l.input_size_ ∧
      s.output_size_ = l.output_size_ ∧ s.activation_fn_ = l.activation_fn_)
    (FullyConnected.call sqrt)
    (fun s c h => by
      obtain ⟨h1, h2, h3, h4⟩ := call_WF sqrt s c h.1
      exact ⟨h1, h2.trans h.2.1, h3.trans h.2.2.1, h4.trans h.2.2.2⟩)
    calls l ⟨hl, rfl, rfl, rfl⟩

/-- A call keeps every RMSProp history entry `>= 0`, provided that, when it
is an RMSProp step, its history influence lies in `[0, 1)`. -/
theorem call_history_nonneg (sqrt : α → α) (l : FullyConnected α) (c : Call α) (hl : l.WF)
    (hw : ∀ k, 0 ≤ l.weight_grad_history_.getD k 0)
    (hb : ∀ j, 0 ≤ l.bias_grad_history_.getD j 0)
    (hc : ∀ lr β eps, c = Call.step_grad_rms_prop lr β eps → 0 ≤ β ∧ β < 1) :
    (∀ k, 0 ≤ (l.call sqrt c).weight_grad_history_.getD k 0) ∧
    (∀ j, 0 ≤ (l.call sqrt c).bias_grad_history_.getD j 0) := by
  cases c with
  | forward x =>
    show (∀ k, 0 ≤ (l.forward x).weight_grad_history_.getD k 0) ∧
      (∀ j, 0 ≤ (l.forward x).bias_grad_history_.getD j 0)
    rw [FullyConnected.forward_eq l x hl.potential_len hl.output_len]
    exact ⟨hw, hb⟩
  | backward g =>
    show (∀ k, 0 ≤ (l.backward g).weight_grad_history_.getD k 0) ∧
      (∀ j, 0 ≤ (l.backward g).bias_grad_history_.getD j 0)
    rw [FullyConnected.backward_eq l g hl.output_derivative_len hl.bias_grad_len
      hl.weight_grad_len hl.input_grad_len]
    exact ⟨hw, hb⟩
  | zero_grad => exact ⟨hw, hb⟩
  | step_grad lr =>
    show (∀ k, 0 ≤ (l.step_grad lr).weight_grad_history_.getD k 0) ∧
      (∀ j, 0 ≤ (l.step_grad lr).bias_grad_history_.getD j 0)
    rw [FullyConnected.step_grad_eq l lr hl.bias_len hl.weights_len]
    exact ⟨hw, hb⟩
  | step_grad_rms_prop lr β eps =>
    obtain ⟨hβ0, hβ1⟩ := hc lr β eps rfl
    have he := FullyConnected.rms_prop_entries sqrt l lr β eps hl
    have hl2 := FullyConnected.step_grad_rms_prop_WF sqrt l lr β eps hl
    have hlw : (l.step_grad_rms_prop sqrt lr β eps).weight_grad_history_.length =
        l.input_size_ * l.output_size_ := by
      rw [hl2.weight_grad_history_len, he.2.2.2.2.1, he.2.2.2.2.2]
    have hlb : (l.step_grad_rms_prop sqrt lr β eps).bias_grad_history_.length =
        l.output_size_ := by
      rw [hl2.bias_grad_history_len, he.2.2.2.2.2]
    have h1β : 0 ≤ 1 - β := by linarith
    constructor
    · intro k
      show 0 ≤ (l.step_grad_rms_prop sqrt lr β eps).weight_grad_history_.getD k 0
      by_cases hk : k < l.input_size_ * l.output_size_
      · rw [(he.1 k hk).1, mul_assoc]
        exact add_nonneg (mul_nonneg hβ0 (hw k))
          (mul_nonneg h1β (mul_self_nonneg _))
      · rw [getD_of_length_le _ _ _
          (by rw [hlw]; exact Nat.le_of_not_lt hk)]
    · intro j
      show 0 ≤ (l.step_grad_rms_prop sqrt lr β eps).bias_grad_history_.getD j 0
      by_cases hj : j < l.output_size_
      · rw [(he.2.1 j hj).1, mul_assoc]
        exact add_nonneg (mul_nonneg hβ0 (hb j))
          (mul_nonneg h1β (mul_self_nonneg _))
      · rw [getD_of_length_le _ _ _
          (by rw [hlb]; exact Nat.le_of_not_lt hj)]

/-- A finite sequence of calls in which every RMSProp step has its history
influence in `[0, 1)` keeps every RMSProp history entry `>= 0`. -/
theorem run_history_nonneg (sqrt : α → α) (calls : List (Call α)) :
    ∀ (l : FullyConnected α), l.WF →
      (∀ k, 0 ≤ l.weight_grad_history_.getD k 0) →
      (∀ j, 0 ≤ l.bias_grad_history_.getD j 0) →
      (∀ lr β eps, Call.step_grad_rms_prop lr β eps ∈ calls → 0 ≤ β ∧ β < 1) →
      (∀ k, 0 ≤ (l.run sqrt calls).weight_grad_history_.getD k 0) ∧
      (∀ j, 0 ≤ (l.run sqrt calls).bias_grad_history_.getD j 0) := by
  induction calls with
  | nil => intro l _ hw hb _; exact ⟨hw, hb⟩
  | cons c rest ih =>
    intro l hl hw hb hc
    have h1 := call_history_nonneg sqrt l c hl hw hb
      (fun lr β eps e => hc lr β eps (by rw [e]; exact List.mem_cons_self _ _))
    exact ih (l.call sqrt c) (call_WF sqrt l c hl).1 h1.1 h1.2
      (fun lr β eps hmem => hc lr β eps (List.mem_cons_of_mem _ hmem))

end Calls

section CallsReal

/-- C17. The RMSProp denominator stays positive: starting from a freshly
constructed layer, after any finite sequence of `forward`, `backward`,
`zero_grad`, `step_grad` and `step_grad_rms_prop` calls in which every RMSProp
call has `history_influence` in `[0, 1)`, every entry of `weight_grad_history_`
and `bias_grad_history_` is `>= 0`; hence a further RMSProp call with
`history_influence` in `[0, 1)` and `smoothing_term > 0` takes the square root
of a strictly positive `history + smoothing_term` at every entry, and the
square root it divides by is not `0`. -/
theorem rms_prop_denominator_positive (n m : Nat) (act : ActivationFn ℝ)
    (calls : List (Call ℝ))
    (hcalls : ∀ lr β eps, Call.step_grad_rms_prop lr β eps ∈ calls → 0 ≤ β ∧ β < 1) :
    (∀ k, 0 ≤ ((FullyConnected.init n m act).run Real.sqrt calls).weight_grad_history_.getD
      k 0) ∧
    (∀ j, 0 ≤ ((FullyConnected.init n m act).run Real.sqrt calls).bias_grad_history_.getD
      j 0) ∧
    (∀ lr β eps : ℝ, 0 ≤ β → β < 1 → 0 < eps →
      (∀ k, 0 < (((FullyConnected.init n m act).run Real.sqrt calls).step_grad_rms_prop
          Real.sqrt lr β eps).weight_grad_history_.getD k 0 + eps ∧
        Real.sqrt ((((FullyConnected.init n m act).run Real.sqrt calls).step_grad_rms_prop
          Real.sqrt lr β eps).weight_grad_history_.getD k 0 + eps) ≠ 0) ∧
      (∀ j, 0 < (((FullyConnected.init n m act).run Real.sqrt calls).step_grad_rms_prop
          Real.sqrt lr β eps).bias_grad_history_.getD j 0 + eps ∧
        Real.sqrt ((((FullyConnected.init n m act).run Real.sqrt calls).step_grad_rms_prop
          Real.sqrt lr β eps).bias_grad_history_.getD j 0 + eps) ≠ 0)) := by
  have hinit_w : ∀ k, 0 ≤ (FullyConnected.init n m act).weight_grad_history_.getD k 0 :=
    fun k => le_of_eq (getD_replicate_zero _ _).symm
  have hinit_b : ∀ j, 0 ≤ (FullyConnected.init n m act).bias_grad_history_.getD j 0 :=
    fun j => le_of_eq (getD_replicate_zero _ _).symm
  have h := run_history_nonneg Real.sqrt calls (FullyConnected.init n m act)
    (FullyConnected.init_WF n m act) hinit_w hinit_b hcalls
  have hwf := (run_WF Real.sqrt (FullyConnected.init n m act) calls
    (FullyConnected.init_WF n m act)).1
  refine ⟨h.1, h.2, fun lr β eps hβ0 hβ1 heps => ?_⟩
  have h2 := call_history_nonneg Real.sqrt _ (Call.step_grad_rms_prop lr β eps) hwf h.1 h.2
    (fun lr' β' eps' e => by
      injection e with e1 e2 e3
      rw [← e2]
      exact ⟨hβ0, hβ1⟩)
  constructor
  · intro k
    have hpos : 0 < (((FullyConnected.init n m act).run Real.sqrt calls).step_grad_rms_prop
        Real.sqrt lr β eps).weight_grad_history_.getD k 0 + eps :=
      add_pos_of_nonneg_of_pos (h2.1 k) heps
    exact ⟨hpos, (Real.sqrt_pos.mpr hpos).ne'⟩
  · intro j
    have hpos : 0 < (((FullyConnected.init n m act).run Real.sqrt calls).step_grad_rms_prop
        Real.sqrt lr β eps).bias_grad_history_.getD j 0 + eps :=
      add_pos_of_nonneg_of_pos (h2.2 j) heps
    exact ⟨hpos, (Real.sqrt_pos.mpr hpos).ne'⟩

/-- Witness of C17: a fresh 2x2 `RelU` layer after `forward`, `backward`, an
RMSProp step with influence `0.9`, `zero_grad` and a plain step. -/
theorem rms_prop_denominator_positive_witness :
    (∀ lr β eps : ℝ, Call.step_grad_rms_prop lr β eps ∈
        [Call.forward [1, 1], Call.backward [1, -1], Call.step_grad_rms_prop 1 0.9 1e-8,
          Call.zero_grad, Call.step_grad 1] → 0 ≤ β ∧ β < 1) ∧
    (∀ k, 0 ≤ ((FullyConnected.init 2 2 RelU).run Real.sqrt
        [Call.forward [1, 1], Call.backward [1, -1], Call.step_grad_rms_prop 1 0.9 1e-8,
          Call.zero_grad, Call.step_grad 1]).weight_grad_history_.getD k 0) := by
  have hcalls : ∀ lr β eps : ℝ, Call.step_grad_rms_prop lr β eps ∈
      [Call.forward [1, 1], Call.backward [1, -1], Call.step_grad_rms_prop 1 0.9 1e-8,
        Call.zero_grad, Call.step_grad 1] → 0 ≤ β ∧ β < 1 := by
    intro lr β eps hmem
    simp only [List.mem_cons, List.mem_singleton, List.not_mem_nil, reduceCtorEq, false_or,
      or_false, Call.step_grad_rms_prop.injEq] at hmem
    rw [hmem.2.1]
    norm_num
  exact ⟨hcalls, (rms_prop_denominator_positive 2 2 RelU _ hcalls).1⟩

end CallsReal

/-! ## A `UnitStep` layer -/

section UnitStepLayer

variable [LinearOrderedField α]

/-- On a `UnitStep` layer `backward` adds nothing to the accumulators and
leaves zeros in `input_grad_`. -/
theorem backward_unit_step (l : FullyConnected α) (g : List α) (hl : l.WF)
    (ha : l.activation_fn_ = UnitStep) :
    (l.backward g).weight_grad_ = l.weight_grad_ ∧
    (l.backward g).bias_grad_ = l.bias_grad_ ∧
    (l.backward g).input_grad_ = List.replicate l.input_size_ 0 := by
  rw [FullyConnected.backward_eq l g hl.output_derivative_len hl.bias_grad_len
    hl.weight_grad_len hl.input_grad_len, ha]
  have hd : ∀ y : α, (UnitStep : ActivationFn α).derivative y = 0 := fun _ => rfl
  refine ⟨?_, ?_, ?_⟩
  · show (List.range (l.input_size_ * l.output_size_)).map _ = l.weight_grad_
    refine (eq_map_range_of_getD l.weight_grad_ _ _ 0 hl.weight_grad_len (fun k _ => ?_)).symm
    rw [hd, mul_zero, zero_mul, add_zero]
  · show (List.range l.output_size_).map _ = l.bias_grad_
    refine (eq_map_range_of_getD l.bias_grad_ _ _ 0 hl.bias_grad_len (fun k _ => ?_)).symm
    rw [hd, mul_zero, add_zero]
  · show (List.range l.input_size_).map _ = List.replicate l.input_size_ (0 : α)
    refine (eq_map_range_of_getD (List.replicate l.input_size_ (0 : α)) _ _ 0
      (List.length_replicate _ _) (fun k _ => ?_)).symm
    rw [getD_replicate_zero]
    symm
    apply Finset.sum_eq_zero
    intro r _
    rw [hd, mul_zero, zero_mul]

/-- A layer whose accumulators are all zeros is its own `zero_grad`. -/
theorem zero_grad_of_zero (l : FullyConnected α)
    (hw : l.weight_grad_ = List.replicate (l.input_size_ * l.output_size_) 0)
    (hb : l.bias_grad_ = List.replicate l.output_size_ 0) : l.zero_grad = l := by
  unfold FullyConnected.zero_grad
  rw [← hw, ← hb]

/-- Calls of `forward` and `backward` on a `UnitStep` layer with zeroed
accumulators keep the accumulators zero and the parameters as they are. -/
theorem run_unit_step (sqrt : α → α) (calls : List (Call α)) :
    ∀ (l : FullyConnected α), l.WF → l.activation_fn_ = UnitStep →
      l.weight_grad_ = List.replicate (l.input_size_ * l.output_size_) 0 →
      l.bias_grad_ = List.replicate l.output_size_ 0 →
      (∀ c, c ∈ calls → (∃ x, c = Call.forward x) ∨ (∃ g, c = Call.backward g)) →
      (l.run sqrt calls).weight_grad_ =
        List.replicate ((l.run sqrt calls).input_size_ * (l.run sqrt calls).output_size_) 0 ∧
      (l.run sqrt calls).bias_grad_ = List.replicate (l.run sqrt calls).output_size_ 0 ∧
      (l.run sqrt calls).weights_ = l.weights_ ∧ (l.run sqrt calls).bias_ = l.bias_ := by
  induction calls with
  | nil => intro l _ _ hw hb _; exact ⟨hw, hb, rfl, rfl⟩
  | cons c rest ih =>
    intro l hl ha hw hb hc
    obtain ⟨hl1, hn1, hm1, ha1⟩ := call_WF sqrt l c hl
    have hstep : (l.call sqrt c).weight_grad_ = l.weight_grad_ ∧
        (l.call sqrt c).bias_grad_ = l.bias_grad_ ∧
        (l.call sqrt c).weights_ = l.weights_ ∧ (l.call sqrt c).bias_ = l.bias_ := by
      rcases hc c (List.mem_cons_self _ _) with ⟨x, rfl⟩ | ⟨g, rfl⟩
      · show (l.forward x).weight_grad_ = _ ∧ (l.forward x).bias_grad_ = _ ∧
          (l.forward x).weights_ = _ ∧ (l.forward x).bias_ = _
        rw [FullyConnected.forward_eq l x hl.potential_len hl.output_len]
        exact ⟨rfl, rfl, rfl, rfl⟩
      · have hbk := backward_unit_step l g hl ha
        refine ⟨hbk.1, hbk.2.1, ?_⟩
        show (l.backward g).weights_ = _ ∧ (l.backward g).bias_ = _
        rw [FullyConnected.backward_eq l g hl.output_derivative_len hl.bias_grad_len
          hl.weight_grad_len hl.input_grad_len]
        exact ⟨rfl, rfl⟩
    have h := ih (l.call sqrt c) hl1 (ha1.trans ha)
      (by rw [hstep.1, hn1, hm1]; exact hw) (by rw [hstep.2.1, hm1]; exact hb)
      (fun c' hc' => hc c' (List.mem_cons_of_mem _ hc'))
    exact ⟨h.1, h.2.1, h.2.2.1.trans hstep.2.2.1, h.2.2.2.trans hstep.2.2.2⟩

/-- C18. A `UnitStep` layer carries no gradient: `forward(x)` then
`backward(g)` leaves `weight_grad_` and `bias_grad_` as they were and sets
every entry of `input_grad()` to `0`; consequently, after `zero_grad`, any
finite sequence of `forward` and `backward` calls followed by `step_grad`
leaves every weight and every bias entry as it was. -/
theorem unit_step_no_gradient (sqrt : α → α) (l : FullyConnected α) (hl : l.WF)
    (ha : l.activation_fn_ = UnitStep) :
    (∀ x g : List α,
      ((l.forward x).backward g).weight_grad_ = l.weight_grad_ ∧
      ((l.forward x).backward g).bias_grad_ = l.bias_grad_ ∧
      ((l.forward x).backward g).input_grad = List.replicate l.input_size_ 0 ∧
      (∀ i, ((l.forward x).backward g).input_grad.getD i 0 = 0)) ∧
    (∀ (calls : List (Call α)) (lr : α),
      (∀ c, c ∈ calls → (∃ x, c = Call.forward x) ∨ (∃ g, c = Call.backward g)) →
      ((l.zero_grad.run sqrt calls).step_grad lr).weights = l.weights ∧
      ((l.zero_grad.run sqrt calls).step_grad lr).bias = l.bias) := by
  constructor
  · intro x g
    have hf := FullyConnected.forward_WF l x hl
    have e := FullyConnected.forward_eq l x hl.potential_len hl.output_len
    have haf : (l.forward x).activation_fn_ = UnitStep := by rw [e]; exact ha
    have hbk := backward_unit_step (l.forward x) g hf haf
    have hwg : (l.forward x).weight_grad_ = l.weight_grad_ := by rw [e]
    have hbg : (l.forward x).bias_grad_ = l.bias_grad_ := by rw [e]
    have hn : (l.forward x).input_size_ = l.input_size_ := by rw [e]
    have hig : ((l.forward x).backward g).input_grad = List.replicate l.input_size_ 0 := by
      rw [← hn]; exact hbk.2.2
    refine ⟨hbk.1.trans hwg, hbk.2.1.trans hbg, hig, fun i => ?_⟩
    rw [hig]
    exact getD_replicate_zero _ _
  · intro calls lr hc
    have h := run_unit_step sqrt calls l.zero_grad (FullyConnected.zero_grad_WF l hl) ha
      rfl rfl hc
    have hz := zero_grad_of_zero _ h.1 h.2.1
    have hs : (l.zero_grad.run sqrt calls).step_grad lr = l.zero_grad.run sqrt calls := by
      rw [← hz, step_grad_zero_grad]
    rw [hs]
    exact ⟨h.2.2.1, h.2.2.2⟩

/-- Witness of C18 on a fresh 2x2 `UnitStep` layer. -/
theorem unit_step_no_gradient_witness :
    (FullyConnected.init 2 2 UnitStep : FullyConnected ℚ).WF ∧
    (FullyConnected.init 2 2 UnitStep : FullyConnected ℚ).activation_fn_ = UnitStep ∧
    (∀ x g : List ℚ,
      (((FullyConnected.init 2 2 UnitStep).forward x).backward g).weight_grad_ =
        (FullyConnected.init 2 2 UnitStep : FullyConnected ℚ).weight_grad_ ∧
      (((FullyConnected.init 2 2 UnitStep).forward x).backward g).bias_grad_ =
        (FullyConnected.init 2 2 UnitStep : FullyConnected ℚ).bias_grad_ ∧
      (((FullyConnected.init 2 2 UnitStep).forward x).backward g).input_grad =
        List.replicate (FullyConnected.init 2 2 UnitStep : FullyConnected ℚ).input_size_ 0 ∧
      (∀ i, (((FullyConnected.init 2 2 UnitStep).forward x).backward g).input_grad.getD
        i 0 = 0)) :=
  ⟨FullyConnected.init_WF 2 2 UnitStep, rfl,
    (unit_step_no_gradient id (FullyConnected.init 2 2 UnitStep)
      (FullyConnected.init_WF 2 2 UnitStep) rfl).1⟩

end UnitStepLayer

/-! ## The scale of `LogisticSigmoid` -/

section Sigmoid

/-- The derivative of `LogisticSigmoid` with scale `lambda` at `p` is
`lambda * f p * (1 - f p)`. -/
theorem LogisticSigmoid_hasDerivAt (lam p : ℝ) :
    HasDerivAt (LogisticSigmoid Real.exp lam).apply
      (lam * (LogisticSigmoid Real.exp lam).apply p *
        (1 - (LogisticSigmoid Real.exp lam).apply p)) p := by
  have hin : HasDerivAt (fun y : ℝ => lam * -y) (lam * -1) p :=
    (hasDerivAt_neg' p).const_mul lam
  have hden : HasDerivAt (fun y : ℝ => 1 + Real.exp (lam * -y))
      (Real.exp (lam * -p) * (lam * -1)) p := hin.exp.const_add 1
  have hne : (1 : ℝ) + Real.exp (lam * -p) ≠ 0 := by positivity
  have h := (hasDerivAt_const p (1 : ℝ)).div hden hne
  have e : (0 * (1 + Real.exp (lam * -p)) - 1 * (Real.exp (lam * -p) * (lam * -1))) /
      (1 + Real.exp (lam * -p)) ^ 2 =
      lam * (LogisticSigmoid Real.exp lam).apply p *
        (1 - (LogisticSigmoid Real.exp lam).apply p) := by
    show _ = lam * (1 / (1 + Real.exp (lam * -p))) * (1 - 1 / (1 + Real.exp (lam * -p)))
    field_simp
    ring
  rw [e] at h
  exact h

/-- C12 fails on the code. With `lambda = 2` at `x = 0`, where `f(0) = 1/2`:
`derivative(0)` returns `f(0) * (1 - f(0)) = 1/4`, while
`lambda * f(0) * (1 - f(0)) = 1/2`, which is the derivative of `operator()` at
`0`. -/
theorem logistic_sigmoid_derivative_omits_lambda :
    (LogisticSigmoid Real.exp 2).apply 0 = 1 / 2 ∧
    (LogisticSigmoid Real.exp 2).derivative 0 = 1 / 4 ∧
    2 * (LogisticSigmoid Real.exp 2).apply 0 * (1 - (LogisticSigmoid Real.exp 2).apply 0) =
      1 / 2 ∧
    HasDerivAt (LogisticSigmoid Real.exp 2).apply (1 / 2) 0 ∧
    ¬ HasDerivAt (LogisticSigmoid Real.exp 2).apply
      ((LogisticSigmoid Real.exp 2).derivative 0) 0 := by
  have hf : (LogisticSigmoid Real.exp 2).apply 0 = 1 / 2 := by
    show 1 / (1 + Real.exp (2 * -0)) = (1 : ℝ) / 2
    rw [neg_zero, mul_zero, Real.exp_zero]
    norm_num
  have hd : (LogisticSigmoid Real.exp 2).derivative 0 = 1 / 4 := by
    show (LogisticSigmoid Real.exp 2).apply 0 * (1 - (LogisticSigmoid Real.exp 2).apply 0) =
      1 / 4
    rw [hf]
    norm_num
  have hv : 2 * (LogisticSigmoid Real.exp 2).apply 0 *
      (1 - (LogisticSigmoid Real.exp 2).apply 0) = 1 / 2 := by
    rw [hf]
    norm_num
  have hder : HasDerivAt (LogisticSigmoid Real.exp 2).apply (1 / 2) 0 := by
    have h := LogisticSigmoid_hasDerivAt 2 0
    rw [hv] at h
    exact h
  refine ⟨hf, hd, hv, hder, fun h => ?_⟩
  rw [hd] at h
  have := h.unique hder
  norm_num at this

end Sigmoid

/-! ## Fan-out over the members of a `Sequence` -/

section Visit

/-- Visiting distinct indices one at a time applies `op` to exactly the
members visited. -/
theorem visit_getElem? (op : FullyConnected α → FullyConnected α) (order : List Nat) :
    ∀ (ms : List (FullyConnected α)), order.Nodup → ∀ i,
      (visit op order ms)[i]? = if i ∈ order then ms[i]?.map op else ms[i]? := by
  induction order with
  | nil => intro ms _ i; simp [visit]
  | cons a rest ih =>
    intro ms hnd i
    have hnd' := List.nodup_cons.mp hnd
    have hstep : ∀ k, (match ms[a]? with
        | some module => ms.set a (op module)
        | none => ms)[k]? = if k = a then ms[a]?.map op else ms[k]? := by
      intro k
      cases hma : ms[a]? with
      | none =>
        by_cases hk : k = a
        · rw [if_pos hk, hk, hma]; rfl
        · rw [if_neg hk]
      | some module =>
        by_cases hk : k = a
        · have hlt : a < ms.length := by
            rcases Nat.lt_or_ge a ms.length with h | h
            · exact h
            · rw [List.getElem?_eq_none h] at hma; cases hma
          rw [if_pos hk, hk]
          show (ms.set a (op module))[a]? = _
          rw [List.getElem?_set_self hlt]
          rfl
        · rw [if_neg hk]
          show (ms.set a (op module))[k]? = _
          rw [List.getElem?_set_ne (Ne.symm hk)]
    show (visit op rest (match ms[a]? with
        | some module => ms.set a (op module)
        | none => ms))[i]? = _
    rw [ih _ hnd'.2 i, hstep i]
    by_cases hia : i = a
    · have hnot : i ∉ rest := by rw [hia]; exact hnd'.1
      rw [if_neg hnot, if_pos hia, if_pos (by rw [hia]; exact List.mem_cons_self _ _), hia]
    · by_cases hir : i ∈ rest
      · rw [if_pos hir, if_neg hia, if_pos (List.mem_cons_of_mem _ hir)]
      · have hnot : i ∉ a :: rest := by
          intro h
          rcases List.mem_cons.mp h with h | h
          · exact hia h
          · exact hir h
        rw [if_neg hir, if_neg hia, if_neg hnot]

/-- Visiting every member once, in any order, is applying `op` to every
member. -/
theorem visit_perm (op : FullyConnected α → FullyConnected α) (order : List Nat)
    (ms : List (FullyConnected α)) (h : order.Perm (List.range ms.length)) :
    visit op order ms = ms.map op := by
  have hnd : order.Nodup := h.nodup_iff.mpr (List.nodup_range _)
  apply List.ext_getElem?
  intro i
  rw [visit_getElem? op order ms hnd i, List.getElem?_map]
  by_cases hi : i < ms.length
  · rw [if_pos (h.mem_iff.mpr (List.mem_range.mpr hi))]
  · have hnot : i ∉ order := fun hm => hi (List.mem_range.mp (h.mem_iff.mp hm))
    rw [if_neg hnot, List.getElem?_eq_none (Nat.le_of_not_lt hi)]
    rfl

end Visit

section FanOut

variable [LinearOrderedField α]

/-- C13 fails as stated. A `Sequence` whose two positions hold the same layer
object (`modules_ = {p, p}` for one shared pointer `p`) calls `step_grad` on
that object twice: with learning rate `1` the sample layer, of weights and
accumulated gradients `[1, 2, 3, 4]`, ends with weights `[-1, -2, -3, -4]`,
while `step_grad(1)` on that member alone leaves `[0, 0, 0, 0]`. -/
theorem sequence_shared_member_stepped_twice :
    visit (fun module => module.step_grad 1) [0, 0] [sample_layer ℚ] =
      [((sample_layer ℚ).step_grad 1).step_grad 1] ∧
    (((sample_layer ℚ).step_grad 1).step_grad 1).weights = [-1, -2, -3, -4] ∧
    ((sample_layer ℚ).step_grad 1).weights = [0, 0, 0, 0] ∧
    visit (fun module => module.step_grad 1) [0, 0] [sample_layer ℚ] ≠
      [(sample_layer ℚ).step_grad 1] := by
  have h1 : ((sample_layer ℚ).step_grad 1).weights = [0, 0, 0, 0] := by
    show ((sample_layer ℚ).step_grad 1).weights_ = _
    rw [FullyConnected.step_grad_eq _ _ (FullyConnected.sample_layer_WF ℚ).bias_len
      (FullyConnected.sample_layer_WF ℚ).weights_len]
    simp [sample_layer, FullyConnected.init, List.range_succ]
  have h2 : (((sample_layer ℚ).step_grad 1).step_grad 1).weights = [-1, -2, -3, -4] := by
    have hw := FullyConnected.step_grad_WF (sample_layer ℚ) 1 (FullyConnected.sample_layer_WF ℚ)
    show (((sample_layer ℚ).step_grad 1).step_grad 1).weights_ = _
    rw [FullyConnected.step_grad_eq _ _ hw.bias_len hw.weights_len]
    rw [FullyConnected.step_grad_eq _ _ (FullyConnected.sample_layer_WF ℚ).bias_len
      (FullyConnected.sample_layer_WF ℚ).weights_len]
    simp [sample_layer, FullyConnected.init, List.range_succ]
  have h0 : visit (fun module => module.step_grad 1) [0, 0] [sample_layer ℚ] =
      [((sample_layer ℚ).step_grad 1).step_grad 1] := rfl
  refine ⟨h0, h2, h1, fun h => ?_⟩
  rw [h0] at h
  have h3 := congrArg FullyConnected.weights (List.cons.inj h).1
  rw [h1, h2] at h3
  have h4 := (List.cons.inj h3).1
  norm_num at h4

/-- C13, amended. `Sequence` fan-out over distinct members.  When the positions
of `modules_` refer to pairwise distinct layer objects, a fan-out call leaves
every object a position refers to in the state `op` alone leaves it in, leaves
every other object alone, and visiting the positions in any other order
leaves the same objects; this holds for every `op`, in particular for
`zero_grad`, `step_grad(lr)` and `step_grad_rms_prop(lr, beta, eps)`, and
`Sequence::zero_grad`, `Sequence::step_grad`, `Sequence::step_grad_rms_prop` are
these fan-outs with position `i` referring to object `i`, so that every member
ends in the state the call leaves on it alone. -/
theorem sequence_fan_out (sqrt : α → α) (lr β eps : α) (objects : List (FullyConnected α))
    (pointers order : List Nat) (hnd : pointers.Nodup) (horder : order.Perm pointers) :
    (∀ op : FullyConnected α → FullyConnected α,
      (∀ i : Nat, (visit op pointers objects)[i]? =
        if i ∈ pointers then objects[i]?.map op else objects[i]?) ∧
      visit op order objects = visit op pointers objects) ∧
    ((Sequence.mk objects).zero_grad.modules_ =
        visit FullyConnected.zero_grad (List.range objects.length) objects ∧
      ((Sequence.mk objects).step_grad lr).modules_ =
        visit (fun module => module.step_grad lr) (List.range objects.length) objects ∧
      ((Sequence.mk objects).step_grad_rms_prop sqrt lr β eps).modules_ =
        visit (fun module => module.step_grad_rms_prop sqrt lr β eps)
          (List.range objects.length) objects) ∧
    ((∀ i : Nat, (Sequence.mk objects).zero_grad.modules_[i]? =
        objects[i]?.map FullyConnected.zero_grad) ∧
      (∀ i : Nat, ((Sequence.mk objects).step_grad lr).modules_[i]? =
        objects[i]?.map (fun module => module.step_grad lr)) ∧
      (∀ i : Nat, ((Sequence.mk objects).step_grad_rms_prop sqrt lr β eps).modules_[i]? =
        objects[i]?.map (fun module => module.step_grad_rms_prop sqrt lr β eps))) := by
  refine ⟨fun op => ⟨fun i => visit_getElem? op pointers objects hnd i, ?_⟩,
    ⟨?_, ?_, ?_⟩, ⟨fun i => ?_, fun i => ?_, fun i => ?_⟩⟩
  · apply List.ext_getElem?
    intro i
    rw [visit_getElem? op pointers objects hnd i,
      visit_getElem? op order objects (horder.nodup_iff.mpr hnd) i]
    by_cases hi : i ∈ pointers
    · rw [if_pos hi, if_pos (horder.mem_iff.mpr hi)]
    · rw [if_neg hi, if_neg (fun h => hi (horder.mem_iff.mp h))]
  · exact (visit_perm _ _ _ (List.Perm.refl _)).symm
  · exact (visit_perm _ _ _ (List.Perm.refl _)).symm
  · exact (visit_perm _ _ _ (List.Perm.refl _)).symm
  · show (objects.map _)[i]? = _
    rw [List.getElem?_map]
  · show (objects.map _)[i]? = _
    rw [List.getElem?_map]
  · show (objects.map _)[i]? = _
    rw [List.getElem?_map]

/-- Witness of the amended C13: two distinct layer objects, visited last
position first. -/
theorem sequence_fan_out_witness :
    ([0, 1] : List Nat).Nodup ∧ ([1, 0] : List Nat).Perm [0, 1] ∧
    visit (fun module => module.step_grad (1 / 2)) [1, 0]
        [sample_layer ℚ, kink_layer ℚ RelU] =
      visit (fun module => module.step_grad (1 / 2)) [0, 1]
        [sample_layer ℚ, kink_layer ℚ RelU] :=
  ⟨by decide, List.Perm.swap 0 1 [],
    ((sequence_fan_out id (1 / 2) 0 0 [sample_layer ℚ, kink_layer ℚ RelU] [0, 1] [1, 0]
      (by decide) (List.Perm.swap 0 1 [])).1 (fun module => module.step_grad (1 / 2))).2⟩

end FanOut

/-! ## dataset.hpp: num_categories -/

section NumCategories

/-- The loop of `num_categories` started at `a0` ends at a value that is at
least `a0`, at least every label, and either `a0` or one of the labels. -/
theorem foldl_max_label {β : Type} (ds : Dataset β) :
    ∀ a0 : Int,
      a0 ≤ ds.foldl (fun max_cat p => if max_cat < p.2 then p.2 else max_cat) a0 ∧
      (∀ p, p ∈ ds →
        p.2 ≤ ds.foldl (fun max_cat p => if max_cat < p.2 then p.2 else max_cat) a0) ∧
      (ds.foldl (fun max_cat p => if max_cat < p.2 then p.2 else max_cat) a0 = a0 ∨
        ∃ p, p ∈ ds ∧
          p.2 = ds.foldl (fun max_cat p => if max_cat < p.2 then p.2 else max_cat) a0) := by
  induction ds with
  | nil => intro a0; exact ⟨le_refl _, fun p hp => absurd hp (List.not_mem_nil p), Or.inl rfl⟩
  | cons q rest ih =>
    intro a0
    rw [List.foldl_cons]
    obtain ⟨h1, h2, h3⟩ := ih (if a0 < q.2 then q.2 else a0)
    have hq : a0 ≤ (if a0 < q.2 then q.2 else a0) ∧ q.2 ≤ (if a0 < q.2 then q.2 else a0) := by
      split_ifs with h
      · exact ⟨le_of_lt h, le_refl _⟩
      · exact ⟨le_refl _, not_lt.mp h⟩
    refine ⟨le_trans hq.1 h1, fun p hp => ?_, ?_⟩
    · rcases List.mem_cons.mp hp with hpq | hpr
      · rw [hpq]; exact le_trans hq.2 h1
      · exact h2 p hpr
    · rcases h3 with h3 | ⟨p, hp, hpe⟩
      · by_cases h : a0 < q.2
        · rw [if_pos h] at h3
          exact Or.inr ⟨q, List.mem_cons_self _ _, by rw [if_pos h]; exact h3.symm⟩
        · rw [if_neg h] at h3
          exact Or.inl (by rw [if_neg h]; exact h3)
      · exact Or.inr ⟨p, List.mem_cons_of_mem _ hp, hpe⟩

/-- C14 fails as stated. On the dataset with the single label `-3` the
maximum label is `-3`, and `num_categories` returns `1`, not `-3 + 1`. -/
theorem num_categories_negative_label :
    (∃ p, p ∈ ([([], -3)] : Dataset ℚ) ∧ p.2 = -3) ∧
    (∀ p, p ∈ ([([], -3)] : Dataset ℚ) → p.2 ≤ -3) ∧
    num_categories ([([], -3)] : Dataset ℚ) = 1 ∧
    num_categories ([([], -3)] : Dataset ℚ) ≠ -3 + 1 := by
  refine ⟨⟨([], -3), List.mem_singleton.mpr rfl, rfl⟩, fun p hp => ?_, by decide, by decide⟩
  rw [List.mem_singleton.mp hp]

/-- C14, amended. For every dataset whose maximum label `M` is `>= 0` and below
the largest `int`, `num_categories` returns `M + 1`. -/
theorem num_categories_spec {β : Type} (ds : Dataset β) (M : Int)
    (hocc : ∃ p, p ∈ ds ∧ p.2 = M) (hmax : ∀ p, p ∈ ds → p.2 ≤ M)
    (h0 : 0 ≤ M) (hM : M < 2147483647) :
    num_categories ds = M + 1 := by
  obtain ⟨h1, h2, h3⟩ := foldl_max_label ds 0
  have hr : ds.foldl (fun max_cat p => if max_cat < p.2 then p.2 else max_cat) 0 = M := by
    obtain ⟨p, hp, hpM⟩ := hocc
    apply le_antisymm
    · rcases h3 with h3 | ⟨q, hq, hqe⟩
      · rw [h3]; exact h0
      · rw [← hqe]; exact hmax q hq
    · rw [← hpM]; exact h2 p hp
  show wrap_int (ds.foldl (fun max_cat p => if max_cat < p.2 then p.2 else max_cat) 0 + 1) = _
  rw [hr]
  unfold wrap_int
  omega

/-- Witness of the amended C14: labels `3, 9, 2` give `10`. -/
theorem num_categories_spec_witness :
    (∃ p, p ∈ ([([], 3), ([], 9), ([], 2)] : Dataset ℚ) ∧ p.2 = 9) ∧
    (∀ p, p ∈ ([([], 3), ([], 9), ([], 2)] : Dataset ℚ) → p.2 ≤ 9) ∧
    (0 : Int) ≤ 9 ∧ (9 : Int) < 2147483647 ∧
    num_categories ([([], 3), ([], 9), ([], 2)] : Dataset ℚ) = 9 + 1 := by
  have hocc : ∃ p, p ∈ ([([], 3), ([], 9), ([], 2)] : Dataset ℚ) ∧ p.2 = 9 :=
    ⟨([], 9), by simp, rfl⟩
  have hmax : ∀ p, p ∈ ([([], 3), ([], 9), ([], 2)] : Dataset ℚ) → p.2 ≤ 9 := by
    intro p hp
    simp only [List.mem_cons, List.mem_singleton, List.not_mem_nil, or_false] at hp
    rcases hp with h | h | h <;> rw [h] <;> decide
  exact ⟨hocc, hmax, by decide, by decide,
    num_categories_spec _ 9 hocc hmax (by decide) (by decide)⟩

end NumCategories

/-! ## dataset.hpp: parse_input_vector on comma-joined decimal numbers -/

section Decimal

theorem digitChar_lt_ten :
    ∀ k, k < 10 → (Nat.digitChar k).isDigit = true ∧ (Nat.digitChar k).toNat - 48 = k := by
  decide

/-- A decimal digit is none of `','`, `'-'`, `'+'` and is not white space. -/
theorem isDigit_ne (c : Char) (h : c.isDigit = true) :
    c ≠ ',' ∧ c ≠ '-' ∧ c ≠ '+' ∧ is_space c = false := by
  have hsp : ∀ d : Char, is_space d = true →
      ((((d = ' ' ∨ d = '\t') ∨ d = '\n') ∨ d = '\x0b') ∨ d = '\x0c') ∨ d = '\r' := by
    intro d hd
    simpa [is_space] using hd
  refine ⟨?_, ?_, ?_, ?_⟩
  · intro hc; rw [hc] at h; exact absurd h (by decide)
  · intro hc; rw [hc] at h; exact absurd h (by decide)
  · intro hc; rw [hc] at h; exact absurd h (by decide)
  · cases hs : is_space c with
    | false => rfl
    | true =>
      rcases hsp c hs with ((((hc | hc) | hc) | hc) | hc) | hc <;>
        (rw [hc] at h; exact absurd h (by decide))

/-- The digit loop of `atoi` reads back the number `toDigitsCore` wrote. -/
theorem atoi_digits_toDigitsCore (fuel : Nat) :
    ∀ (n : Nat) (ds : List Char), n < fuel →
      atoi_digits (Nat.toDigitsCore 10 fuel n ds) 0 = atoi_digits ds (n : Int) := by
  induction fuel with
  | zero => intro n ds h; omega
  | succ fuel ih =>
    intro n ds hn
    have hd := digitChar_lt_ten (n % 10) (Nat.mod_lt _ (by decide))
    have hstep : ∀ v : Int, atoi_digits (Nat.digitChar (n % 10) :: ds) v =
        atoi_digits ds (v * 10 + ((n % 10 : Nat) : Int)) := by
      intro v
      rw [atoi_digits, if_pos hd.1, hd.2]
    unfold Nat.toDigitsCore
    by_cases h0 : n / 10 = 0
    · simp only [h0, if_true]
      rw [hstep]
      congr 1
      have : n % 10 = n := Nat.mod_eq_of_lt (by omega)
      rw [this]
      omega
    · simp only [h0, if_false]
      rw [ih (n / 10) _ (by omega), hstep]
      congr 1
      omega

/-- Every character `toDigitsCore` writes is a decimal digit. -/
theorem toDigitsCore_isDigit (fuel : Nat) :
    ∀ (n : Nat) (ds : List Char), (∀ c, c ∈ ds → c.isDigit = true) →
      ∀ c, c ∈ Nat.toDigitsCore 10 fuel n ds → c.isDigit = true := by
  induction fuel with
  | zero => intro n ds hds c hc; exact hds c hc
  | succ fuel ih =>
    intro n ds hds c hc
    have hd := digitChar_lt_ten (n % 10) (Nat.mod_lt _ (by decide))
    have hds' : ∀ c, c ∈ Nat.digitChar (n % 10) :: ds → c.isDigit = true := by
      intro c hc
      rcases List.mem_cons.mp hc with h | h
      · rw [h]; exact hd.1
      · exact hds c h
    unfold Nat.toDigitsCore at hc
    by_cases h0 : n / 10 = 0
    · simp only [h0, if_true] at hc
      exact hds' c hc
    · simp only [h0, if_false] at hc
      exact ih _ _ hds' c hc

/-- The function `toDigitsCore` only ever extends its accumulator. -/
theorem toDigitsCore_ne_nil (fuel : Nat) :
    ∀ (n : Nat) (ds : List Char), ds ≠ [] → Nat.toDigitsCore 10 fuel n ds ≠ [] := by
  induction fuel with
  | zero => intro n ds hds; exact hds
  | succ fuel ih =>
    intro n ds _
    unfold Nat.toDigitsCore
    by_cases h0 : n / 10 = 0
    · simp only [h0, if_true]
      exact List.cons_ne_nil _ _
    · simp only [h0, if_false]
      exact ih _ _ (List.cons_ne_nil _ _)

/-- The decimal rendering of a number is not empty, is made of digits, and
`atoi` reads it back when the number fits in an `int`. -/
theorem toDigits_facts (n : Nat) :
    Nat.toDigits 10 n ≠ [] ∧ (∀ c, c ∈ Nat.toDigits 10 n → c.isDigit = true) ∧
    (n < 2147483648 → atoi (Nat.toDigits 10 n) = (n : Int)) := by
  have hne : Nat.toDigits 10 n ≠ [] := by
    unfold Nat.toDigits Nat.toDigitsCore
    by_cases h0 : n / 10 = 0
    · simp only [h0, if_true]
      exact List.cons_ne_nil _ _
    · simp only [h0, if_false]
      exact toDigitsCore_ne_nil _ _ _ (List.cons_ne_nil _ _)
  have hdig : ∀ c, c ∈ Nat.toDigits 10 n → c.isDigit = true :=
    toDigitsCore_isDigit (n + 1) n [] (fun c hc => absurd hc (List.not_mem_nil c))
  refine ⟨hne, hdig, fun hn => ?_⟩
  have hval : atoi_digits (Nat.toDigits 10 n) 0 = (n : Int) := by
    have h := atoi_digits_toDigitsCore (n + 1) n [] (Nat.lt_succ_self n)
    rw [atoi_digits] at h
    exact h
  obtain ⟨c, cs, hcs⟩ := List.exists_cons_of_ne_nil hne
  have hc := isDigit_ne c (hdig c (by rw [hcs]; exact List.mem_cons_self _ _))
  have hdrop : (Nat.toDigits 10 n).dropWhile is_space = c :: cs := by
    rw [hcs, List.dropWhile_cons, hc.2.2.2]
    rfl
  have hw : wrap_int (n : Int) = (n : Int) := by
    unfold wrap_int
    omega
  unfold atoi
  rw [hdrop]
  split
  · rename_i rest heq
    exact absurd (List.cons.inj heq).1 hc.2.1
  · rename_i rest heq
    exact absurd (List.cons.inj heq).1 hc.2.2.1
  · rw [← hcs, hval, hw]

end Decimal

section Parse

variable [LinearOrderedField α]

/-- Scanning a comma-free field stops at the comma that follows it. -/
theorem takeWhile_field (field rest : List Char) (h : ∀ c, c ∈ field → c ≠ ',') :
    (field ++ ',' :: rest).takeWhile (fun d => d != ',') = field := by
  induction field with
  | nil => simp
  | cons c cs ih =>
    have hc : (c != ',') = true := by simpa using h c (List.mem_cons_self _ _)
    rw [List.cons_append, List.takeWhile_cons, hc]
    simp only [if_true]
    rw [ih (fun d hd => h d (List.mem_cons_of_mem _ hd))]

/-- Scanning a comma-free field that ends the string reaches the end. -/
theorem takeWhile_last_field (field : List Char) (h : ∀ c, c ∈ field → c ≠ ',') :
    field.takeWhile (fun d => d != ',') = field := by
  induction field with
  | nil => rfl
  | cons c cs ih =>
    have hc : (c != ',') = true := by simpa using h c (List.mem_cons_self _ _)
    rw [List.takeWhile_cons, hc]
    simp only [if_true]
    rw [ih (fun d hd => h d (List.mem_cons_of_mem _ hd))]

/-- From the start of a comma-free field followed by a comma,
`find_first_of` returns the position of that comma and `substr` the field. -/
theorem find_field (pre field rest : List Char) (h : ∀ c, c ∈ field → c ≠ ',') :
    find_first_of (pre ++ (field ++ ',' :: rest)) ',' pre.length =
      some (pre.length + field.length) ∧
    substr (pre ++ (field ++ ',' :: rest)) pre.length
      (some (pre.length + field.length - pre.length)) = field := by
  constructor
  · unfold find_first_of
    simp only [List.drop_left]
    rw [takeWhile_field field rest h]
    rw [if_pos (by simp)]
  · unfold substr
    simp only [List.drop_left, Nat.add_sub_cancel_left]
    exact List.take_left _ _

/-- From the start of a comma-free field that ends the string,
`find_first_of` returns `npos` and `substr` the field. -/
theorem find_last_field (pre field : List Char) (h : ∀ c, c ∈ field → c ≠ ',') :
    find_first_of (pre ++ field) ',' pre.length = none ∧
    substr (pre ++ field) pre.length none = field := by
  constructor
  · unfold find_first_of
    simp only [List.drop_left]
    rw [takeWhile_last_field field h]
    rw [if_neg (lt_irrefl _)]
  · unfold substr
    simp only [List.drop_left]

/-- The loop of `parse_input_vector`, started at the beginning of the
comma-joined decimal renderings of `ns`, appends `ns` to the result. -/
theorem parse_loop_join (ns : List Nat) :
    ∀ (pre : List Char) (acc : List α) (fuel : Nat),
      (∀ n, n ∈ ns → n < 2147483648) → ns.length < fuel →
      parse_loop fuel (pre ++ join_comma (ns.map (Nat.toDigits 10))) pre.length acc =
        some (acc ++ ns.map (fun n => (((n : Nat) : Int) : α))) := by
  induction ns with
  | nil =>
    intro pre acc fuel _ hfuel
    obtain ⟨f, rfl⟩ : ∃ f, fuel = f + 1 := ⟨fuel - 1, by omega⟩
    have hf := find_last_field pre [] (fun c hc => absurd hc (List.not_mem_nil c))
    rw [List.append_nil] at hf
    show parse_loop (f + 1) (pre ++ []) pre.length acc = _
    rw [List.append_nil]
    unfold parse_loop
    simp only [hf.1, hf.2, Option.map_none', List.isEmpty_nil, if_true, List.map_nil,
      List.append_nil]
  | cons n rest ih =>
    intro pre acc fuel hns hfuel
    obtain ⟨f, rfl⟩ : ∃ f, fuel = f + 1 := ⟨fuel - 1, by omega⟩
    obtain ⟨hne, hdig, hatoi⟩ := toDigits_facts n
    have hnc : ∀ c, c ∈ Nat.toDigits 10 n → c ≠ ',' := fun c hc => (isDigit_ne c (hdig c hc)).1
    have hval := hatoi (hns n (List.mem_cons_self _ _))
    have hemp : (Nat.toDigits 10 n).isEmpty = false := by
      cases hd : Nat.toDigits 10 n with
      | nil => exact absurd hd hne
      | cons c cs => rfl
    cases rest with
    | nil =>
      have hf := find_last_field pre (Nat.toDigits 10 n) hnc
      show parse_loop (f + 1) (pre ++ Nat.toDigits 10 n) pre.length acc = _
      unfold parse_loop
      simp only [hf.1, hf.2, Option.map_none', hemp, hval, List.map_cons, List.map_nil]
      rfl
    | cons n2 rest2 =>
      have hf := find_field pre (Nat.toDigits 10 n)
        (join_comma ((n2 :: rest2).map (Nat.toDigits 10))) hnc
      have hrec := ih (pre ++ (Nat.toDigits 10 n ++ [','])) (acc ++ [(((n : Nat) : Int) : α)]) f
        (fun k hk => hns k (List.mem_cons_of_mem _ hk))
        (by simp only [List.length_cons] at hfuel ⊢; omega)
      have hlen : (pre ++ (Nat.toDigits 10 n ++ [','])).length =
          pre.length + (Nat.toDigits 10 n).length + 1 := by
        simp only [List.length_append, List.length_cons, List.length_nil]
        omega
      have hin : pre ++ (Nat.toDigits 10 n ++ [',']) ++
          join_comma ((n2 :: rest2).map (Nat.toDigits 10)) =
          pre ++ (Nat.toDigits 10 n ++ ',' :: join_comma ((n2 :: rest2).map (Nat.toDigits 10))) := by
        simp only [List.append_assoc, List.singleton_append]
      rw [hlen, hin] at hrec
      show parse_loop (f + 1)
        (pre ++ (Nat.toDigits 10 n ++ ',' :: join_comma ((n2 :: rest2).map (Nat.toDigits 10))))
        pre.length acc = _
      unfold parse_loop
      simp only [hf.1, hf.2, Option.map_some', hemp, hval]
      rw [hrec]
      simp only [List.map_cons, List.append_assoc, List.singleton_append]
      rfl

/-- The comma-joined renderings are at least as long as the list. -/
theorem length_le_join (ns : List Nat) :
    ns.length ≤ (join_comma (ns.map (Nat.toDigits 10))).length := by
  induction ns with
  | nil => exact Nat.le_refl _
  | cons n rest ih =>
    have hpos : 0 < (Nat.toDigits 10 n).length :=
      List.length_pos.mpr (toDigits_facts n).1
    cases rest with
    | nil =>
      show 1 ≤ (Nat.toDigits 10 n).length
      exact hpos
    | cons n2 rest2 =>
      show (n2 :: rest2).length + 1 ≤
        (Nat.toDigits 10 n ++ ',' :: join_comma ((n2 :: rest2).map (Nat.toDigits 10))).length
      rw [List.length_append, List.length_cons (a := ',')]
      omega

/-- C15. `parse_input_vector` inverts comma-joining: for every list of natural
numbers that fit in an `int`, parsing their decimal renderings joined by `','`
ends and returns that list, in order, converted to `float`; the decimal
rendering is the one `toString` gives. -/
theorem parse_input_vector_join (ns : List Nat) (hns : ∀ n, n ∈ ns → n < 2147483648) :
    (parse_input_vector (join_comma (ns.map (fun n => (toString n).toList))) :
        Option (List α)) =
      some (ns.map (fun n => (((n : Nat) : Int) : α))) := by
  have h := parse_loop_join (α := α) ns [] []
    ((join_comma (ns.map (Nat.toDigits 10))).length + 1) hns
    (Nat.lt_succ_of_le (length_le_join ns))
  rw [List.nil_append, List.nil_append] at h
  exact h

/-- Witness of C15, the documented example: `"0,1,0,2"` parses to
`{0, 1, 0, 2}`. -/
theorem parse_input_vector_join_witness :
    (∀ n, n ∈ [0, 1, 0, 2] → n < 2147483648) ∧
    join_comma ([0, 1, 0, 2].map (fun n => (toString n).toList)) = "0,1,0,2".toList ∧
    (parse_input_vector "0,1,0,2".toList : Option (List ℚ)) = some [0, 1, 0, 2] := by
  have hns : ∀ n, n ∈ [0, 1, 0, 2] → n < 2147483648 := by decide
  have hj : join_comma ([0, 1, 0, 2].map (fun n => (toString n).toList)) =
      "0,1,0,2".toList := by decide
  have h := parse_input_vector_join (α := ℚ) [0, 1, 0, 2] hns
  rw [hj] at h
  refine ⟨hns, hj, ?_⟩
  rw [h]
  norm_num

end Parse

/-! ## Backpropagation computes the gradient -/

section Gradient

/-- Reading the list of a finite vector. -/
theorem getD_ofFn {N : Nat} (v : Fin N → ℝ) (i : Nat) :
    (List.ofFn v).getD i 0 = if h : i < N then v ⟨i, h⟩ else 0 := by
  rw [List.getD_eq_getElem?_getD]
  by_cases h : i < N
  · rw [dif_pos h, List.getElem?_eq_getElem (by simpa using h), List.getElem_ofFn]
    rfl
  · rw [dif_neg h, List.getElem?_eq_none (by simpa using h)]
    rfl

/-- A list of length `N` is the list of its reads. -/
theorem ofFn_getD (x : List ℝ) (N : Nat) (hx : x.length = N) :
    List.ofFn (fun i : Fin N => x.getD i.val 0) = x := by
  apply ext_getD _ _ 0 (by rw [List.length_ofFn, hx])
  intro k hk
  rw [List.length_ofFn] at hk
  rw [getD_ofFn, dif_pos hk]

/-- Reading one position of the list of a finite vector is a continuous
linear functional of the vector. -/
theorem exists_read (N i : Nat) :
    ∃ P : (Fin N → ℝ) →L[ℝ] ℝ, ∀ v, P v = (List.ofFn v).getD i 0 := by
  by_cases h : i < N
  · refine ⟨ContinuousLinearMap.proj ⟨i, h⟩, fun v => ?_⟩
    rw [getD_ofFn, dif_pos h]
    rfl
  · refine ⟨0, fun v => ?_⟩
    rw [getD_ofFn, dif_neg h]
    rfl

/-- The chain rule for a weighted sum of activations of affine functions of a
finite vector: the function is differentiable and its derivative in the
direction `h` is given by the same sums with `h` in place of the vector. -/
theorem hasFDerivAt_loss_form (act : ℝ → ℝ) (N m K : Nat) (g c d : Nat → ℝ)
    (coef : Nat → Nat → ℝ) (idx : Nat → Nat → Nat) (v0 : Fin N → ℝ)
    (hd : ∀ j, j < m → HasDerivAt act (d j)
      (c j + ∑ i in Finset.range K, coef j i * (List.ofFn v0).getD (idx j i) 0)) :
    ∃ Φ : (Fin N → ℝ) →L[ℝ] ℝ,
      HasFDerivAt (fun v : Fin N → ℝ => ∑ j in Finset.range m,
        g j * act (c j + ∑ i in Finset.range K, coef j i * (List.ofFn v).getD (idx j i) 0))
        Φ v0 ∧
      ∀ h, Φ h = ∑ j in Finset.range m,
        g j * d j * ∑ i in Finset.range K, coef j i * (List.ofFn h).getD (idx j i) 0 := by
  choose P hP using exists_read N
  refine ⟨∑ j in Finset.range m, (g j * d j) • ∑ i in Finset.range K, coef j i • P (idx j i),
    ?_, fun h => ?_⟩
  · apply HasFDerivAt.sum
    intro j hj
    have hA : HasFDerivAt (fun v : Fin N → ℝ =>
        c j + ∑ i in Finset.range K, coef j i * (List.ofFn v).getD (idx j i) 0)
        (∑ i in Finset.range K, coef j i • P (idx j i)) v0 := by
      apply HasFDerivAt.const_add
      apply HasFDerivAt.sum
      intro i _
      have hread : HasFDerivAt (fun v : Fin N → ℝ => (List.ofFn v).getD (idx j i) 0)
          (P (idx j i)) v0 := by
        have hlin := (P (idx j i)).hasFDerivAt (x := v0)
        refine hlin.congr_of_eventuallyEq (Filter.Eventually.of_forall (fun v => ?_))
        exact (hP (idx j i) v).symm
      exact hread.const_mul (coef j i)
    have hc := (hd j (Finset.mem_range.mp hj)).comp_hasFDerivAt v0 hA
    have hm := hc.const_mul (g j)
    have e : g j • d j • ∑ i in Finset.range K, coef j i • P (idx j i) =
        (g j * d j) • ∑ i in Finset.range K, coef j i • P (idx j i) := by
      rw [smul_smul]
    rw [e] at hm
    exact hm
  · simp only [ContinuousLinearMap.sum_apply, ContinuousLinearMap.smul_apply, smul_eq_mul, hP]

/-- A functional given by its values on the coordinates: the sum over the
coordinates is the sum over the positions of the list. -/
theorem sum_smul_proj_apply (N : Nat) (G : Nat → ℝ) (h : Fin N → ℝ) :
    (∑ k : Fin N, G k.val • (ContinuousLinearMap.proj k : (Fin N → ℝ) →L[ℝ] ℝ)) h =
      ∑ k in Finset.range N, G k * (List.ofFn h).getD k 0 := by
  rw [Finset.sum_range]
  simp only [ContinuousLinearMap.sum_apply, ContinuousLinearMap.smul_apply, smul_eq_mul,
    ContinuousLinearMap.proj_apply]
  apply Finset.sum_congr rfl
  intro k _
  rw [getD_ofFn, dif_pos k.isLt]

/-- A sum over the flat indices of a row-major matrix is the sum over its rows
of the sums over each row. -/
theorem sum_range_rows (n m : Nat) (F : Nat → ℝ) :
    ∑ k in Finset.range (n * m), F k =
      ∑ j in Finset.range m, ∑ i in Finset.range n, F (j * n + i) := by
  induction m with
  | zero => simp
  | succ m ih =>
    rw [Nat.mul_succ, Finset.sum_range_add, ih, Finset.sum_range_succ, Nat.mul_comm n m]

/-- The loss is differentiable in the input, with `input_grad_` as gradient. -/
theorem hasFDerivAt_loss_input (l : FullyConnected ℝ) (x g : List ℝ) (hl : l.WF)
    (hx : x.length = l.input_size_)
    (hd : ∀ j, j < l.output_size_ →
      HasDerivAt l.activation_fn_.apply (l.activation_fn_.derivative (l.affine x j))
        (l.affine x j)) :
    HasFDerivAt (fun v : Fin l.input_size_ → ℝ => loss l g (List.ofFn v))
      (∑ i : Fin l.input_size_, ((l.zero_grad.forward x).backward g).input_grad.getD i.val 0 •
        (ContinuousLinearMap.proj i : (Fin l.input_size_ → ℝ) →L[ℝ] ℝ))
      (fun i => x.getD i.val 0) := by
  have hv0 := ofFn_getD x l.input_size_ hx
  obtain ⟨Φ, hΦ, hΦh⟩ := hasFDerivAt_loss_form l.activation_fn_.apply l.input_size_
    l.output_size_ l.input_size_ (fun j => g.getD j 0) (fun j => l.bias_.getD j 0)
    (fun j => l.activation_fn_.derivative (l.affine x j))
    (fun j i => l.weights_.getD (j * l.input_size_ + i) 0) (fun _ i => i)
    (fun i => x.getD i.val 0)
    (by
      intro j hj
      rw [hv0]
      exact hd j hj)
  have hfun : (fun v : Fin l.input_size_ → ℝ => loss l g (List.ofFn v)) =
      fun v => ∑ j in Finset.range l.output_size_, g.getD j 0 *
        l.activation_fn_.apply (l.bias_.getD j 0 + ∑ i in Finset.range l.input_size_,
          l.weights_.getD (j * l.input_size_ + i) 0 * (List.ofFn v).getD i 0) :=
    funext (fun v => loss_eq l g _ hl)
  have hp := FullyConnected.pass_eq l.zero_grad x g (FullyConnected.zero_grad_WF l hl)
  have hval : ∀ i, i ∈ Finset.range l.input_size_ →
      ((l.zero_grad.forward x).backward g).input_grad.getD i 0 =
        ∑ j in Finset.range l.output_size_,
          g.getD j 0 * l.activation_fn_.derivative (l.affine x j) *
            l.weights_.getD (j * l.input_size_ + i) 0 := by
    intro i hi
    rw [hp]
    show ((List.range l.input_size_).map _).getD i 0 = _
    rw [getD_map_range, if_pos (Finset.mem_range.mp hi)]
    rfl
  have hΦeq : Φ = ∑ i : Fin l.input_size_,
      ((l.zero_grad.forward x).backward g).input_grad.getD i.val 0 •
        (ContinuousLinearMap.proj i : (Fin l.input_size_ → ℝ) →L[ℝ] ℝ) := by
    apply ContinuousLinearMap.ext
    intro h
    rw [hΦh, sum_smul_proj_apply l.input_size_
      (fun k => ((l.zero_grad.forward x).backward g).input_grad.getD k 0) h]
    have hR : ∑ k in Finset.range l.input_size_,
        ((l.zero_grad.forward x).backward g).input_grad.getD k 0 * (List.ofFn h).getD k 0 =
        ∑ k in Finset.range l.input_size_, ∑ j in Finset.range l.output_size_,
          g.getD j 0 * l.activation_fn_.derivative (l.affine x j) *
            l.weights_.getD (j * l.input_size_ + k) 0 * (List.ofFn h).getD k 0 :=
      Finset.sum_congr rfl (fun i hi => by rw [hval i hi, Finset.sum_mul])
    refine Eq.trans ?_ hR.symm
    rw [Finset.sum_comm]
    apply Finset.sum_congr rfl
    intro j _
    rw [Finset.mul_sum]
    apply Finset.sum_congr rfl
    intro i _
    ring
  rw [hfun, ← hΦeq]
  exact hΦ

/-- The loss is differentiable in the weights, with `weight_grad_` as
gradient. -/
theorem hasFDerivAt_loss_weights (l : FullyConnected ℝ) (x g : List ℝ) (hl : l.WF)
    (hd : ∀ j, j < l.output_size_ →
      HasDerivAt l.activation_fn_.apply (l.activation_fn_.derivative (l.affine x j))
        (l.affine x j)) :
    HasFDerivAt (fun W : Fin (l.input_size_ * l.output_size_) → ℝ =>
        loss { l with weights_ := List.ofFn W } g x)
      (∑ k : Fin (l.input_size_ * l.output_size_),
        ((l.zero_grad.forward x).backward g).weight_grad_.getD k.val 0 •
          (ContinuousLinearMap.proj k :
            (Fin (l.input_size_ * l.output_size_) → ℝ) →L[ℝ] ℝ))
      (fun k => l.weights_.getD k.val 0) := by
  have hv0 := ofFn_getD l.weights_ (l.input_size_ * l.output_size_) hl.weights_len
  obtain ⟨Φ, hΦ, hΦh⟩ := hasFDerivAt_loss_form l.activation_fn_.apply
    (l.input_size_ * l.output_size_) l.output_size_ l.input_size_ (fun j => g.getD j 0)
    (fun j => l.bias_.getD j 0) (fun j => l.activation_fn_.derivative (l.affine x j))
    (fun _ i => x.getD i 0) (fun j i => j * l.input_size_ + i)
    (fun k => l.weights_.getD k.val 0)
    (by
      intro j hj
      rw [hv0]
      have e : l.bias_.getD j 0 + ∑ i in Finset.range l.input_size_,
          x.getD i 0 * l.weights_.getD (j * l.input_size_ + i) 0 = l.affine x j := by
        unfold FullyConnected.affine
        congr 1
        apply Finset.sum_congr rfl
        intro i _
        ring
      rw [e]
      exact hd j hj)
  have hfun : (fun W : Fin (l.input_size_ * l.output_size_) → ℝ =>
        loss { l with weights_ := List.ofFn W } g x) =
      fun W => ∑ j in Finset.range l.output_size_, g.getD j 0 *
        l.activation_fn_.apply (l.bias_.getD j 0 + ∑ i in Finset.range l.input_size_,
          x.getD i 0 * (List.ofFn W).getD (j * l.input_size_ + i) 0) := by
    funext W
    have hl2 : FullyConnected.WF { l with weights_ := List.ofFn W } :=
      ⟨hl.bias_len, List.length_ofFn W, hl.potential_len, hl.output_len,
        hl.output_derivative_len, hl.input_grad_len, hl.bias_grad_len,
        hl.bias_grad_history_len, hl.weight_grad_len, hl.weight_grad_history_len⟩
    rw [loss_eq _ g x hl2]
    apply Finset.sum_congr rfl
    intro j _
    show _ * l.activation_fn_.apply (l.bias_.getD j 0 + ∑ i in Finset.range l.input_size_,
      (List.ofFn W).getD (j * l.input_size_ + i) 0 * x.getD i 0) = _
    congr 3
    apply Finset.sum_congr rfl
    intro i _
    ring
  have hp := FullyConnected.pass_eq l.zero_grad x g (FullyConnected.zero_grad_WF l hl)
  have hval : ∀ k, k ∈ Finset.range (l.input_size_ * l.output_size_) →
      ((l.zero_grad.forward x).backward g).weight_grad_.getD k 0 =
        g.getD (k / l.input_size_) 0 *
          l.activation_fn_.derivative (l.affine x (k / l.input_size_)) *
            x.getD (k % l.input_size_) 0 := by
    intro k hk
    rw [hp]
    show ((List.range (l.input_size_ * l.output_size_)).map _).getD k 0 = _
    rw [getD_map_range, if_pos (Finset.mem_range.mp hk)]
    show (List.replicate _ (0 : ℝ)).getD k 0 + _ = _
    rw [getD_replicate_zero, zero_add]
    rfl
  have hΦeq : Φ = ∑ k : Fin (l.input_size_ * l.output_size_),
      ((l.zero_grad.forward x).backward g).weight_grad_.getD k.val 0 •
        (ContinuousLinearMap.proj k :
          (Fin (l.input_size_ * l.output_size_) → ℝ) →L[ℝ] ℝ) := by
    apply ContinuousLinearMap.ext
    intro h
    rw [hΦh, sum_smul_proj_apply (l.input_size_ * l.output_size_)
      (fun k => ((l.zero_grad.forward x).backward g).weight_grad_.getD k 0) h]
    have hR : ∑ k in Finset.range (l.input_size_ * l.output_size_),
        ((l.zero_grad.forward x).backward g).weight_grad_.getD k 0 * (List.ofFn h).getD k 0 =
        ∑ k in Finset.range (l.input_size_ * l.output_size_),
          g.getD (k / l.input_size_) 0 *
            l.activation_fn_.derivative (l.affine x (k / l.input_size_)) *
            x.getD (k % l.input_size_) 0 * (List.ofFn h).getD k 0 :=
      Finset.sum_congr rfl (fun k hk => by rw [hval k hk])
    refine Eq.trans ?_ hR.symm
    rw [sum_range_rows]
    apply Finset.sum_congr rfl
    intro j _
    rw [Finset.mul_sum]
    apply Finset.sum_congr rfl
    intro i hi
    rw [idx_div (Finset.mem_range.mp hi), idx_mod (Finset.mem_range.mp hi)]
    ring
  rw [hfun, ← hΦeq]
  exact hΦ

/-- The loss is differentiable in the bias, with `bias_grad_` as gradient. -/
theorem hasFDerivAt_loss_bias (l : FullyConnected ℝ) (x g : List ℝ) (hl : l.WF)
    (hd : ∀ j, j < l.output_size_ →
      HasDerivAt l.activation_fn_.apply (l.activation_fn_.derivative (l.affine x j))
        (l.affine x j)) :
    HasFDerivAt (fun B : Fin l.output_size_ → ℝ => loss { l with bias_ := List.ofFn B } g x)
      (∑ j : Fin l.output_size_,
        ((l.zero_grad.forward x).backward g).bias_grad_.getD j.val 0 •
          (ContinuousLinearMap.proj j : (Fin l.output_size_ → ℝ) →L[ℝ] ℝ))
      (fun j => l.bias_.getD j.val 0) := by
  have hv0 := ofFn_getD l.bias_ l.output_size_ hl.bias_len
  obtain ⟨Φ, hΦ, hΦh⟩ := hasFDerivAt_loss_form l.activation_fn_.apply
    l.output_size_ l.output_size_ 1 (fun j => g.getD j 0)
    (fun j => ∑ i in Finset.range l.input_size_,
      l.weights_.getD (j * l.input_size_ + i) 0 * x.getD i 0)
    (fun j => l.activation_fn_.derivative (l.affine x j))
    (fun _ _ => 1) (fun j _ => j)
    (fun j => l.bias_.getD j.val 0)
    (by
      intro j hj
      rw [hv0, Finset.sum_range_one, one_mul, add_comm]
      exact hd j hj)
  have hfun : (fun B : Fin l.output_size_ → ℝ => loss { l with bias_ := List.ofFn B } g x) =
      fun B => ∑ j in Finset.range l.output_size_, g.getD j 0 *
        l.activation_fn_.apply ((∑ i in Finset.range l.input_size_,
          l.weights_.getD (j * l.input_size_ + i) 0 * x.getD i 0) +
          ∑ _i in Finset.range 1, 1 * (List.ofFn B).getD j 0) := by
    funext B
    have hl2 : FullyConnected.WF { l with bias_ := List.ofFn B } :=
      ⟨List.length_ofFn B, hl.weights_len, hl.potential_len, hl.output_len,
        hl.output_derivative_len, hl.input_grad_len, hl.bias_grad_len,
        hl.bias_grad_history_len, hl.weight_grad_len, hl.weight_grad_history_len⟩
    rw [loss_eq _ g x hl2]
    apply Finset.sum_congr rfl
    intro j _
    rw [Finset.sum_range_one, one_mul, add_comm]
    rfl
  have hp := FullyConnected.pass_eq l.zero_grad x g (FullyConnected.zero_grad_WF l hl)
  have hval : ∀ j, j ∈ Finset.range l.output_size_ →
      ((l.zero_grad.forward x).backward g).bias_grad_.getD j 0 =
        g.getD j 0 * l.activation_fn_.derivative (l.affine x j) := by
    intro j hj
    rw [hp]
    show ((List.range l.output_size_).map _).getD j 0 = _
    rw [getD_map_range, if_pos (Finset.mem_range.mp hj)]
    show (List.replicate _ (0 : ℝ)).getD j 0 + _ = _
    rw [getD_replicate_zero, zero_add]
    rfl
  have hΦeq : Φ = ∑ j : Fin l.output_size_,
      ((l.zero_grad.forward x).backward g).bias_grad_.getD j.val 0 •
        (ContinuousLinearMap.proj j : (Fin l.output_size_ → ℝ) →L[ℝ] ℝ) := by
    apply ContinuousLinearMap.ext
    intro h
    rw [hΦh, sum_smul_proj_apply l.output_size_
      (fun k => ((l.zero_grad.forward x).backward g).bias_grad_.getD k 0) h]
    apply Finset.sum_congr rfl
    intro j hj
    show _ = ((l.zero_grad.forward x).backward g).bias_grad_.getD j 0 * _
    rw [hval j hj, Finset.sum_range_one, one_mul]
  rw [hfun, ← hΦeq]
  exact hΦ

/-- C16. Backpropagation is the true gradient when the activation derivative
is right.  If at every pre-activation `potential_[j]` of `forward(x)` the
activation is differentiable with derivative `derivative(potential_[j])`, then
the loss `L = Σ_j g[j] * output()[j]` is differentiable as a function of the
input, of the weights and of the bias, at `x`, `weights_`, `bias_`, and its
derivative in a direction `h` is `Σ_i input_grad_[i] * h[i]`,
`Σ_k weight_grad_[k] * h[k]`, `Σ_j bias_grad_[j] * h[j]`, with the vectors
`zero_grad; forward(x); backward(g)` leaves: they are the three gradients. -/
theorem backprop_is_gradient (l : FullyConnected ℝ) (x g : List ℝ) (hl : l.WF)
    (hx : x.length = l.input_size_)
    (hd : ∀ j, j < l.output_size_ →
      HasDerivAt l.activation_fn_.apply
        (l.activation_fn_.derivative ((l.forward x).potential_.getD j 0))
        ((l.forward x).potential_.getD j 0)) :
    (List.ofFn (fun i : Fin l.input_size_ => x.getD i.val 0) = x ∧
      HasFDerivAt (fun v : Fin l.input_size_ → ℝ => loss l g (List.ofFn v))
        (∑ i : Fin l.input_size_,
          ((l.zero_grad.forward x).backward g).input_grad.getD i.val 0 •
            (ContinuousLinearMap.proj i : (Fin l.input_size_ → ℝ) →L[ℝ] ℝ))
        (fun i => x.getD i.val 0)) ∧
    (List.ofFn (fun k : Fin (l.input_size_ * l.output_size_) => l.weights_.getD k.val 0) =
        l.weights_ ∧
      HasFDerivAt (fun W : Fin (l.input_size_ * l.output_size_) → ℝ =>
          loss { l with weights_ := List.ofFn W } g x)
        (∑ k : Fin (l.input_size_ * l.output_size_),
          ((l.zero_grad.forward x).backward g).weight_grad_.getD k.val 0 •
            (ContinuousLinearMap.proj k :
              (Fin (l.input_size_ * l.output_size_) → ℝ) →L[ℝ] ℝ))
        (fun k => l.weights_.getD k.val 0)) ∧
    (List.ofFn (fun j : Fin l.output_size_ => l.bias_.getD j.val 0) = l.bias_ ∧
      HasFDerivAt (fun B : Fin l.output_size_ → ℝ =>
          loss { l with bias_ := List.ofFn B } g x)
        (∑ j : Fin l.output_size_,
          ((l.zero_grad.forward x).backward g).bias_grad_.getD j.val 0 •
            (ContinuousLinearMap.proj j : (Fin l.output_size_ → ℝ) →L[ℝ] ℝ))
        (fun j => l.bias_.getD j.val 0)) := by
  have hd' : ∀ j, j < l.output_size_ →
      HasDerivAt l.activation_fn_.apply (l.activation_fn_.derivative (l.affine x j))
        (l.affine x j) := by
    intro j hj
    have h := hd j hj
    rw [FullyConnected.forward_potential_getD l x hl j hj] at h
    exact h
  exact ⟨⟨ofFn_getD x _ hx, hasFDerivAt_loss_input l x g hl hx hd'⟩,
    ⟨ofFn_getD _ _ hl.weights_len, hasFDerivAt_loss_weights l x g hl hd'⟩,
    ⟨ofFn_getD _ _ hl.bias_len, hasFDerivAt_loss_bias l x g hl hd'⟩⟩

/-- The pre-activations of the sample layer at the input `(1, 1)` are `4` and
`-93`. -/
theorem sample_layer_potential_ne (j : Nat) (hj : j < (sample_layer ℝ).output_size_) :
    ((sample_layer ℝ).forward [1, 1]).potential_.getD j 0 ≠ 0 := by
  rw [FullyConnected.forward_potential_getD _ _ (FullyConnected.sample_layer_WF ℝ) j hj]
  have hj2 : j < 2 := hj
  interval_cases j
  · simp [FullyConnected.affine, sample_layer, FullyConnected.init, Finset.sum_range_succ]
    norm_num
  · simp [FullyConnected.affine, sample_layer, FullyConnected.init, Finset.sum_range_succ]
    norm_num

/-- Witness of C16 on the sample `RelU` layer at the input `(1, 1)`, where no
pre-activation is `0`. -/
theorem backprop_is_gradient_witness :
    (sample_layer ℝ).WF ∧ ([1, 1] : List ℝ).length = (sample_layer ℝ).input_size_ ∧
    (∀ j, j < (sample_layer ℝ).output_size_ →
      HasDerivAt (sample_layer ℝ).activation_fn_.apply
        ((sample_layer ℝ).activation_fn_.derivative
          (((sample_layer ℝ).forward [1, 1]).potential_.getD j 0))
        (((sample_layer ℝ).forward [1, 1]).potential_.getD j 0)) ∧
    HasFDerivAt (fun v : Fin (sample_layer ℝ).input_size_ → ℝ =>
        loss (sample_layer ℝ) [1, 1] (List.ofFn v))
      (∑ i : Fin (sample_layer ℝ).input_size_,
        (((sample_layer ℝ).zero_grad.forward [1, 1]).backward [1, 1]).input_grad.getD i.val 0 •
          (ContinuousLinearMap.proj i : (Fin (sample_layer ℝ).input_size_ → ℝ) →L[ℝ] ℝ))
      (fun i => ([1, 1] : List ℝ).getD i.val 0) := by
  have hd : ∀ j, j < (sample_layer ℝ).output_size_ →
      HasDerivAt (sample_layer ℝ).activation_fn_.apply
        ((sample_layer ℝ).activation_fn_.derivative
          (((sample_layer ℝ).forward [1, 1]).potential_.getD j 0))
        (((sample_layer ℝ).forward [1, 1]).potential_.getD j 0) :=
    fun j hj => RelU_hasDerivAt _ (sample_layer_potential_ne j hj)
  exact ⟨FullyConnected.sample_layer_WF ℝ, rfl, hd,
    (backprop_is_gradient (sample_layer ℝ) [1, 1] [1, 1] (FullyConnected.sample_layer_WF ℝ)
      rfl hd).1.2⟩

end Gradient

/-! ## When the second RMSProp step is the shorter one -/

section RmsShrink

/-- Of two RMSProp moves with one gradient `g ≠ 0`, the second is strictly
shorter exactly when the quantity under its square root is the larger one. -/
theorem abs_rms_move_lt_iff {a b lr g : ℝ} (ha : 0 < a) (hb : 0 < b) (hlr : 0 < lr)
    (hg : g ≠ 0) (p q : ℝ) :
    |(q - lr / Real.sqrt b * g) - q| < |(p - lr / Real.sqrt a * g) - p| ↔ a < b := by
  have hsa : 0 < Real.sqrt a := Real.sqrt_pos.mpr ha
  have hsb : 0 < Real.sqrt b := Real.sqrt_pos.mpr hb
  rw [sub_sub_cancel_left, sub_sub_cancel_left, abs_neg, abs_neg, abs_mul, abs_mul,
    abs_of_pos (div_pos hlr hsb), abs_of_pos (div_pos hlr hsa),
    mul_lt_mul_right (abs_pos.mpr hg), div_lt_div_iff_of_pos_left hlr hsb hsa,
    Real.sqrt_lt_sqrt_iff ha.le]

/-- The quantities under the square root at two consecutive steps with one
gradient `g ≠ 0` and prior history `h0 ≥ 0`: both are positive, and the second
is above the first exactly when `h0 < g^2`, below it exactly when `g^2 < h0`. -/
theorem rms_history_order {β eps g h0 : ℝ} (hβ0 : 0 < β) (hβ1 : β < 1) (heps : 0 < eps)
    (hg : g ≠ 0) (hh : 0 ≤ h0) :
    0 < β * h0 + (1 - β) * g * g + eps ∧
    0 < β * (β * h0 + (1 - β) * g * g) + (1 - β) * g * g + eps ∧
    (β * h0 + (1 - β) * g * g + eps <
        β * (β * h0 + (1 - β) * g * g) + (1 - β) * g * g + eps ↔ h0 < g ^ 2) ∧
    (β * (β * h0 + (1 - β) * g * g) + (1 - β) * g * g + eps <
        β * h0 + (1 - β) * g * g + eps ↔ g ^ 2 < h0) := by
  have hgg : 0 < g * g := mul_self_pos.mpr hg
  have h1β : 0 < 1 - β := sub_pos.mpr hβ1
  have hc : 0 < β * (1 - β) := mul_pos hβ0 h1β
  have hq : 0 < (1 - β) * g * g := by rw [mul_assoc]; exact mul_pos h1β hgg
  have hp1 : 0 ≤ β * h0 := mul_nonneg hβ0.le hh
  have hp2 : 0 ≤ β * (β * h0 + (1 - β) * g * g) :=
    mul_nonneg hβ0.le (add_nonneg hp1 hq.le)
  have hdiff : β * (β * h0 + (1 - β) * g * g) + (1 - β) * g * g + eps -
      (β * h0 + (1 - β) * g * g + eps) = β * (1 - β) * (g ^ 2 - h0) := by ring
  refine ⟨by linarith, by linarith, ?_, ?_⟩
  · rw [← sub_pos, hdiff, mul_pos_iff_of_pos_left hc, sub_pos]
  · rw [← sub_neg, hdiff]
    constructor
    · intro h
      by_contra hn
      have h2 := mul_nonneg hc.le (sub_nonneg.mpr (not_lt.mp hn))
      linarith
    · intro h
      exact mul_neg_of_pos_of_neg hc (sub_neg.mpr h)

/-- C21, amended. The exact condition for RMSProp steps to shrink, over exact
real arithmetic: with `learning_rate > 0`, `0 < history_influence < 1` and
`smoothing_term > 0`, two consecutive calls of `step_grad_rms_prop` see the
same gradient accumulators, and for every bias and weight entry with
accumulated gradient `g ≠ 0` and prior history `h0 ≥ 0` the second call moves
the entry strictly less than the first if and only if `h0 < g^2`; when
`g^2 < h0` the second call moves it strictly more. -/
theorem rms_prop_shrinks_iff (l : FullyConnected ℝ) (lr β eps : ℝ) (hlr : 0 < lr)
    (hβ0 : 0 < β) (hβ1 : β < 1) (heps : 0 < eps) (hl : l.WF) :
    (l.step_grad_rms_prop Real.sqrt lr β eps).bias_grad_ = l.bias_grad_ ∧
    (l.step_grad_rms_prop Real.sqrt lr β eps).weight_grad_ = l.weight_grad_ ∧
    (∀ j, j < l.output_size_ → l.bias_grad_.getD j 0 ≠ 0 →
      0 ≤ l.bias_grad_history_.getD j 0 →
      (|((l.step_grad_rms_prop Real.sqrt lr β eps).step_grad_rms_prop
              Real.sqrt lr β eps).bias.getD j 0 -
            (l.step_grad_rms_prop Real.sqrt lr β eps).bias.getD j 0| <
          |(l.step_grad_rms_prop Real.sqrt lr β eps).bias.getD j 0 - l.bias.getD j 0| ↔
        l.bias_grad_history_.getD j 0 < l.bias_grad_.getD j 0 ^ 2) ∧
      (l.bias_grad_.getD j 0 ^ 2 < l.bias_grad_history_.getD j 0 →
        |(l.step_grad_rms_prop Real.sqrt lr β eps).bias.getD j 0 - l.bias.getD j 0| <
          |((l.step_grad_rms_prop Real.sqrt lr β eps).step_grad_rms_prop
              Real.sqrt lr β eps).bias.getD j 0 -
            (l.step_grad_rms_prop Real.sqrt lr β eps).bias.getD j 0|)) ∧
    (∀ k, k < l.input_size_ * l.output_size_ → l.weight_grad_.getD k 0 ≠ 0 →
      0 ≤ l.weight_grad_history_.getD k 0 →
      (|((l.step_grad_rms_prop Real.sqrt lr β eps).step_grad_rms_prop
              Real.sqrt lr β eps).weights.getD k 0 -
            (l.step_grad_rms_prop Real.sqrt lr β eps).weights.getD k 0| <
          |(l.step_grad_rms_prop Real.sqrt lr β eps).weights.getD k 0 -
            l.weights.getD k 0| ↔
        l.weight_grad_history_.getD k 0 < l.weight_grad_.getD k 0 ^ 2) ∧
      (l.weight_grad_.getD k 0 ^ 2 < l.weight_grad_history_.getD k 0 →
        |(l.step_grad_rms_prop Real.sqrt lr β eps).weights.getD k 0 - l.weights.getD k 0| <
          |((l.step_grad_rms_prop Real.sqrt lr β eps).step_grad_rms_prop
              Real.sqrt lr β eps).weights.getD k 0 -
            (l.step_grad_rms_prop Real.sqrt lr β eps).weights.getD k 0|)) := by
  have h1 := FullyConnected.rms_prop_entries Real.sqrt l lr β eps hl
  have hl1 := FullyConnected.step_grad_rms_prop_WF Real.sqrt l lr β eps hl
  have h2 := FullyConnected.rms_prop_entries Real.sqrt _ lr β eps hl1
  rw [h1.2.2.2.2.1, h1.2.2.2.2.2, h1.2.2.1, h1.2.2.2.1] at h2
  refine ⟨h1.2.2.2.1, h1.2.2.1, fun j hj hg hh => ?_, fun k hk hg hh => ?_⟩
  · obtain ⟨a1, a2⟩ := h1.2.1 j hj
    obtain ⟨b1, b2⟩ := h2.2.1 j hj
    obtain ⟨o1, o2, o3, o4⟩ := rms_history_order hβ0 hβ1 heps hg hh
    show (|(FullyConnected.step_grad_rms_prop Real.sqrt _ lr β eps).bias_.getD j 0 -
          (l.step_grad_rms_prop Real.sqrt lr β eps).bias_.getD j 0| <
        |(l.step_grad_rms_prop Real.sqrt lr β eps).bias_.getD j 0 - l.bias_.getD j 0| ↔ _) ∧
      (_ → |(l.step_grad_rms_prop Real.sqrt lr β eps).bias_.getD j 0 - l.bias_.getD j 0| <
        |(FullyConnected.step_grad_rms_prop Real.sqrt _ lr β eps).bias_.getD j 0 -
          (l.step_grad_rms_prop Real.sqrt lr β eps).bias_.getD j 0|)
    rw [b2, a1, a2]
    exact ⟨(abs_rms_move_lt_iff o1 o2 hlr hg _ _).trans o3,
      fun h => (abs_rms_move_lt_iff o2 o1 hlr hg _ _).mpr (o4.mpr h)⟩
  · obtain ⟨a1, a2⟩ := h1.1 k hk
    obtain ⟨b1, b2⟩ := h2.1 k hk
    obtain ⟨o1, o2, o3, o4⟩ := rms_history_order hβ0 hβ1 heps hg hh
    show (|(FullyConnected.step_grad_rms_prop Real.sqrt _ lr β eps).weights_.getD k 0 -
          (l.step_grad_rms_prop Real.sqrt lr β eps).weights_.getD k 0| <
        |(l.step_grad_rms_prop Real.sqrt lr β eps).weights_.getD k 0 -
          l.weights_.getD k 0| ↔ _) ∧
      (_ → |(l.step_grad_rms_prop Real.sqrt lr β eps).weights_.getD k 0 -
          l.weights_.getD k 0| <
        |(FullyConnected.step_grad_rms_prop Real.sqrt _ lr β eps).weights_.getD k 0 -
          (l.step_grad_rms_prop Real.sqrt lr β eps).weights_.getD k 0|)
    rw [b2, a1, a2]
    exact ⟨(abs_rms_move_lt_iff o1 o2 hlr hg _ _).trans o3,
      fun h => (abs_rms_move_lt_iff o2 o1 hlr hg _ _).mpr (o4.mpr h)⟩

/-- The hypotheses of C21 hold on the layer `history_layer`: it has the
constructor's buffer sizes, both bias gradients are not zero, and the two bias
histories are `100 > 5^2` and `0 < 6^2`. -/
theorem history_layer_facts :
    (history_layer ℝ).WF ∧
    (history_layer ℝ).bias_grad_.getD 0 0 = 5 ∧ (history_layer ℝ).bias_grad_.getD 1 0 = 6 ∧
    (history_layer ℝ).bias_grad_history_.getD 0 0 = 100 ∧
    (history_layer ℝ).bias_grad_history_.getD 1 0 = 0 ∧
    (history_layer ℝ).output_size_ = 2 :=
  ⟨⟨rfl, rfl, rfl, rfl, rfl, rfl, rfl, rfl, rfl, rfl⟩, rfl, rfl, rfl, rfl, rfl⟩

/-- Witness of C21 on `history_layer` with learning rate `1`, influence `1/2`
and smoothing `1`: bias `0`, whose history `100` is above `5^2`, moves more in
the second call; bias `1`, whose history `0` is below `6^2`, moves less. -/
theorem rms_prop_shrinks_iff_witness :
    (0 : ℝ) < 1 ∧ (0 : ℝ) < 1 / 2 ∧ (1 / 2 : ℝ) < 1 ∧ (history_layer ℝ).WF ∧
    |((history_layer ℝ).step_grad_rms_prop Real.sqrt 1 (1 / 2) 1).bias.getD 0 0 -
        (history_layer ℝ).bias.getD 0 0| <
      |(((history_layer ℝ).step_grad_rms_prop Real.sqrt 1 (1 / 2) 1).step_grad_rms_prop
          Real.sqrt 1 (1 / 2) 1).bias.getD 0 0 -
        ((history_layer ℝ).step_grad_rms_prop Real.sqrt 1 (1 / 2) 1).bias.getD 0 0| ∧
    |(((history_layer ℝ).step_grad_rms_prop Real.sqrt 1 (1 / 2) 1).step_grad_rms_prop
          Real.sqrt 1 (1 / 2) 1).bias.getD 1 0 -
        ((history_layer ℝ).step_grad_rms_prop Real.sqrt 1 (1 / 2) 1).bias.getD 1 0| <
      |((history_layer ℝ).step_grad_rms_prop Real.sqrt 1 (1 / 2) 1).bias.getD 1 0 -
        (history_layer ℝ).bias.getD 1 0| := by
  obtain ⟨hwf, g0, g1, h0, h1, hm⟩ := history_layer_facts
  have hpos : (0 : ℝ) < 1 := one_pos
  have hβ0 : (0 : ℝ) < 1 / 2 := by norm_num
  have hβ1 : (1 / 2 : ℝ) < 1 := by norm_num
  have h := (rms_prop_shrinks_iff (history_layer ℝ) 1 (1 / 2) 1 hpos hβ0 hβ1 hpos hwf).2.2.1
  refine ⟨hpos, hβ0, hβ1, hwf, ?_, ?_⟩
  · refine (h 0 (by rw [hm]; decide) (by rw [g0]; norm_num) (by rw [h0]; norm_num)).2 ?_
    rw [g0, h0]
    norm_num
  · refine (h 1 (by rw [hm]; decide) (by rw [g1]; norm_num) (by rw [h1])).1.mpr ?_
    rw [g1, h1]
    norm_num

end RmsShrink

/-! ## dataset.hpp: parse_input_vector on every string -/

section Fields

/-- A comma-free string is its own single field. -/
theorem comma_fields_last (field : List Char) (h : ∀ c, c ∈ field → c ≠ ',') :
    comma_fields field = [field] := by
  unfold comma_fields List.splitOn
  induction field with
  | nil => rfl
  | cons c cs ih =>
    have hc : (c == ',') = false := by simpa using h c (List.mem_cons_self _ _)
    rw [List.splitOnP_cons, hc, ih (fun d hd => h d (List.mem_cons_of_mem _ hd))]
    rfl

/-- A comma-free prefix followed by a comma is the first field, and the fields
of what follows the comma come after it. -/
theorem comma_fields_field (field rest : List Char) (h : ∀ c, c ∈ field → c ≠ ',') :
    comma_fields (field ++ ',' :: rest) = field :: comma_fields rest := by
  unfold comma_fields List.splitOn
  induction field with
  | nil =>
    rw [List.nil_append, List.splitOnP_cons]
    rfl
  | cons c cs ih =>
    have hc : (c == ',') = false := by simpa using h c (List.mem_cons_self _ _)
    rw [List.cons_append, List.splitOnP_cons, hc,
      ih (fun d hd => h d (List.mem_cons_of_mem _ hd))]
    rfl

/-- Every string is comma-free or starts with a comma-free field followed by a
comma. -/
theorem field_split (s : List Char) :
    (∀ c, c ∈ s → c ≠ ',') ∨
    ∃ field rest, s = field ++ ',' :: rest ∧ ∀ c, c ∈ field → c ≠ ',' := by
  induction s with
  | nil => exact Or.inl (fun c hc => absurd hc (List.not_mem_nil c))
  | cons c cs ih =>
    by_cases hc : c = ','
    · exact Or.inr ⟨[], cs, by rw [hc, List.nil_append],
        fun d hd => absurd hd (List.not_mem_nil d)⟩
    · rcases ih with h | ⟨field, rest, hs, h⟩
      · refine Or.inl (fun d hd => ?_)
        rcases List.mem_cons.mp hd with hd | hd
        · rw [hd]; exact hc
        · exact h d hd
      · refine Or.inr ⟨c :: field, rest, by rw [hs, List.cons_append], fun d hd => ?_⟩
        rcases List.mem_cons.mp hd with hd | hd
        · rw [hd]; exact hc
        · exact h d hd

/-- The fields of a string are never an empty list. -/
theorem comma_fields_ne_nil (s : List Char) : comma_fields s ≠ [] :=
  List.splitOnP_ne_nil _ s

/-- Joining the fields of a string by `','` gives the string back. -/
theorem join_comma_comma_fields (n : Nat) :
    ∀ s : List Char, s.length < n → join_comma (comma_fields s) = s := by
  induction n with
  | zero => intro s h; omega
  | succ n ih =>
    intro s hs
    rcases field_split s with h | ⟨field, rest, rfl, h⟩
    · rw [comma_fields_last s h]
      rfl
    · rw [comma_fields_field field rest h]
      have hrest : rest.length < n := by
        rw [List.length_append, List.length_cons] at hs
        omega
      obtain ⟨f, fs, hf⟩ := List.exists_cons_of_ne_nil (comma_fields_ne_nil rest)
      have hj := ih rest hrest
      rw [hf] at hj ⊢
      show field ++ ',' :: join_comma (f :: fs) = _
      rw [hj]

/-- The values kept when the first field is empty, when the string is one
non-empty field, and when a non-empty first field is followed by a comma. -/
theorem values_cases :
    (∀ rest, values_before_first_empty_field (',' :: rest) = []) ∧
    values_before_first_empty_field [] = [] ∧
    (∀ field, field ≠ [] → (∀ c, c ∈ field → c ≠ ',') →
      values_before_first_empty_field field = [atoi field]) ∧
    (∀ field rest, field ≠ [] → (∀ c, c ∈ field → c ≠ ',') →
      values_before_first_empty_field (field ++ ',' :: rest) =
        atoi field :: values_before_first_empty_field rest) := by
  refine ⟨fun rest => ?_, rfl, fun field hne h => ?_, fun field rest hne h => ?_⟩
  · unfold values_before_first_empty_field
    rw [← List.nil_append (',' :: rest),
      comma_fields_field [] rest (fun c hc => absurd hc (List.not_mem_nil c))]
    rfl
  · obtain ⟨c, cs, rfl⟩ := List.exists_cons_of_ne_nil hne
    unfold values_before_first_empty_field
    rw [comma_fields_last _ h]
    rfl
  · obtain ⟨c, cs, rfl⟩ := List.exists_cons_of_ne_nil hne
    unfold values_before_first_empty_field
    rw [comma_fields_field _ rest h]
    rfl

end Fields

section Truncation

variable [LinearOrderedField α]

/-- The loop of `parse_input_vector`, started at the beginning of a suffix `s`
of the input with more fuel than `s` has characters, ends and appends to the
result the values of the fields of `s` that precede its first empty field. -/
theorem parse_loop_fields (fuel : Nat) :
    ∀ (pre s : List Char) (acc : List α), s.length < fuel →
      parse_loop fuel (pre ++ s) pre.length acc =
        some (acc ++ (values_before_first_empty_field s).map (fun v => ((v : Int) : α))) := by
  induction fuel with
  | zero => intro pre s acc h; omega
  | succ f ih =>
    intro pre s acc hs
    rcases field_split s with h | ⟨field, rest, rfl, h⟩
    · have hf := find_last_field pre s h
      cases s with
      | nil =>
        unfold parse_loop
        simp only [hf.1, hf.2, Option.map_none', List.isEmpty_nil, if_true]
        rw [values_cases.2.1, List.map_nil, List.append_nil]
      | cons c cs =>
        unfold parse_loop
        simp only [hf.1, hf.2, Option.map_none', List.isEmpty_cons, Bool.false_eq_true,
          if_false]
        rw [values_cases.2.2.1 (c :: cs) (List.cons_ne_nil _ _) h, List.map_cons, List.map_nil]
    · have hf := find_field pre field rest h
      cases field with
      | nil =>
        unfold parse_loop
        simp only [hf.1, hf.2, Option.map_some', List.isEmpty_nil, if_true]
        rw [List.nil_append, values_cases.1 rest, List.map_nil, List.append_nil]
      | cons c cs =>
        have hrec := ih (pre ++ ((c :: cs) ++ [','])) rest (acc ++ [((atoi (c :: cs) : Int) : α)])
          (by rw [List.length_append, List.length_cons (a := ',')] at hs; omega)
        have hlen : (pre ++ ((c :: cs) ++ [','])).length =
            pre.length + (c :: cs).length + 1 := by
          simp only [List.length_append, List.length_cons, List.length_nil]
          omega
        have hin : pre ++ ((c :: cs) ++ [',']) ++ rest = pre ++ ((c :: cs) ++ ',' :: rest) := by
          simp only [List.append_assoc, List.singleton_append]
        rw [hlen, hin] at hrec
        unfold parse_loop
        simp only [hf.1, hf.2, Option.map_some', List.isEmpty_cons, Bool.false_eq_true,
          if_false]
        rw [hrec, values_cases.2.2.2 (c :: cs) rest (List.cons_ne_nil _ _) h, List.map_cons,
          List.append_assoc, List.singleton_append]

/-- The function `parse_input_vector` returns on every string, and returns the
values of the fields that precede the first empty field. -/
theorem parse_input_vector_eq (input : List Char) :
    (parse_input_vector input : Option (List α)) =
      some ((values_before_first_empty_field input).map (fun v => ((v : Int) : α))) := by
  have h := parse_loop_fields (α := α) (input.length + 1) [] input [] (Nat.lt_succ_self _)
  rw [List.nil_append, List.nil_append] at h
  exact h

/-- Whatever follows an empty field does not change the kept values. -/
theorem values_append_empty_field (n : Nat) :
    ∀ input rest : List Char, input.length < n →
      values_before_first_empty_field (input ++ ',' :: ',' :: rest) =
        values_before_first_empty_field input := by
  induction n with
  | zero => intro input rest h; omega
  | succ n ih =>
    intro input rest hlen
    rcases field_split input with h | ⟨field, tail, rfl, h⟩
    · cases input with
      | nil => rw [List.nil_append, values_cases.1, values_cases.2.1]
      | cons c cs =>
        rw [values_cases.2.2.2 (c :: cs) _ (List.cons_ne_nil _ _) h, values_cases.1,
          values_cases.2.2.1 (c :: cs) (List.cons_ne_nil _ _) h]
    · cases field with
      | nil => rw [List.nil_append, List.cons_append, values_cases.1, values_cases.1]
      | cons c cs =>
        have htail : tail.length < n := by
          rw [List.length_append, List.length_cons (a := ',')] at hlen
          omega
        have e : (c :: cs ++ ',' :: tail) ++ ',' :: ',' :: rest =
            (c :: cs) ++ ',' :: (tail ++ ',' :: ',' :: rest) := by
          rw [List.append_assoc, List.cons_append (a := ',')]
        rw [e, values_cases.2.2.2 (c :: cs) _ (List.cons_ne_nil _ _) h,
          values_cases.2.2.2 (c :: cs) _ (List.cons_ne_nil _ _) h, ih tail rest htail]

/-- C22. `parse_input_vector` truncates at the first empty field: on every
string it returns, and its result is the list of the `atoi` values, converted
to `float`, of the comma-separated fields that precede the first empty field,
where the fields are the pieces that give the string back when joined by
`','`; what follows an empty field does not change the result.  The empty
string and every string starting with `','` give the empty vector, `"1,,2"`
gives `{1}` and `"1,2,"` gives `{1, 2}`. -/
theorem parse_input_vector_truncates :
    (∀ input : List Char,
      join_comma (comma_fields input) = input ∧
      (parse_input_vector input : Option (List α)) =
        some ((((comma_fields input).takeWhile (fun field => !field.isEmpty)).map atoi).map
          (fun v => ((v : Int) : α)))) ∧
    (∀ input rest : List Char,
      (parse_input_vector (input ++ ',' :: ',' :: rest) : Option (List α)) =
        parse_input_vector input) ∧
    (parse_input_vector [] : Option (List α)) = some [] ∧
    (∀ rest : List Char, (parse_input_vector (',' :: rest) : Option (List α)) = some []) ∧
    (parse_input_vector "1,,2".toList : Option (List α)) = some [1] ∧
    (parse_input_vector "1,2,".toList : Option (List α)) = some [1, 2] := by
  refine ⟨fun input => ⟨join_comma_comma_fields (input.length + 1) input (Nat.lt_succ_self _),
    parse_input_vector_eq input⟩, fun input rest => ?_, ?_, fun rest => ?_, ?_, ?_⟩
  · rw [parse_input_vector_eq, parse_input_vector_eq,
      values_append_empty_field (input.length + 1) input rest (Nat.lt_succ_self _)]
  · rw [parse_input_vector_eq, values_cases.2.1, List.map_nil]
  · rw [parse_input_vector_eq, values_cases.1 rest, List.map_nil]
  · have hv : values_before_first_empty_field "1,,2".toList = [1] := by decide
    rw [parse_input_vector_eq, hv, List.map_cons, List.map_nil, Int.cast_one]
  · have hv : values_before_first_empty_field "1,2,".toList = [1, 2] := by decide
    rw [parse_input_vector_eq, hv, List.map_cons, List.map_cons, List.map_nil, Int.cast_one,
      Int.cast_ofNat]

end Truncation

/-! ## RMSProp in binary32 -/

section Rounded

/-- The number `0` has no binary digit. -/
theorem bit_length_fuel_zero (fuel : Nat) : bit_length_fuel fuel 0 = 0 := by
  cases fuel with
  | zero => rfl
  | succ f => simp [bit_length_fuel]

/-- With fuel at least `n`, the count `L` of binary digits of `n` satisfies
`n < 2^L`, and `2^(L-1) <= n` when `n` is positive. -/
theorem bit_length_fuel_spec (fuel : Nat) :
    ∀ n, n ≤ fuel → n < 2 ^ bit_length_fuel fuel n ∧
      (0 < n → 2 ^ (bit_length_fuel fuel n - 1) ≤ n) := by
  induction fuel with
  | zero =>
    intro n hn
    have h0 : n = 0 := by omega
    subst h0
    exact ⟨by simp [bit_length_fuel], fun h => absurd h (lt_irrefl _)⟩
  | succ f ih =>
    intro n hn
    by_cases h0 : n = 0
    · subst h0
      exact ⟨by simp [bit_length_fuel], fun h => absurd h (lt_irrefl _)⟩
    · have hstep : bit_length_fuel (f + 1) n = bit_length_fuel f (n / 2) + 1 := by
        rw [bit_length_fuel, if_neg h0]
      obtain ⟨h1, h2⟩ := ih (n / 2) (by omega)
      rw [hstep, Nat.add_sub_cancel]
      refine ⟨?_, fun _ => ?_⟩
      · rw [pow_succ]
        omega
      · by_cases hh : n / 2 = 0
        · rw [hh, bit_length_fuel_zero, pow_zero]
          omega
        · have h3 := h2 (Nat.pos_of_ne_zero hh)
          have hb : bit_length_fuel f (n / 2) ≠ 0 := by
            intro hb
            rw [hb, pow_zero] at h1
            omega
          obtain ⟨b, hb2⟩ : ∃ b, bit_length_fuel f (n / 2) = b + 1 :=
            ⟨bit_length_fuel f (n / 2) - 1, by omega⟩
          rw [hb2, Nat.add_sub_cancel] at h3
          rw [hb2, pow_succ]
          omega

/-- The count `L` of binary digits of `n` satisfies `n < 2^L`, and
`2^(L-1) <= n` when `n` is positive. -/
theorem bit_length_spec (n : Nat) :
    n < 2 ^ bit_length n ∧ (0 < n → 2 ^ (bit_length n - 1) ≤ n) :=
  bit_length_fuel_spec n n (Nat.le_refl n)

/-- The loop of `isqrt` keeps the root between `r` and `r + 2^b`. -/
theorem isqrt_bits_spec (N : Nat) (b : Nat) :
    ∀ r, r ^ 2 ≤ N → N < (r + 2 ^ b) ^ 2 →
      isqrt_bits N b r ^ 2 ≤ N ∧ N < (isqrt_bits N b r + 1) ^ 2 := by
  induction b with
  | zero =>
    intro r h1 h2
    rw [pow_zero] at h2
    exact ⟨h1, h2⟩
  | succ b ih =>
    intro r h1 h2
    rw [isqrt_bits]
    by_cases h : (r + 2 ^ b) ^ 2 ≤ N
    · rw [if_pos h]
      refine ih _ h ?_
      rw [pow_succ] at h2
      rw [add_assoc]
      rw [← mul_two]
      exact h2
    · rw [if_neg h]
      exact ih _ h1 (not_le.mp h)

/-- The function `isqrt` is the integer square root. -/
theorem isqrt_eq_sqrt (N : Nat) : isqrt N = Nat.sqrt N := by
  have hb := (bit_length_spec N).1
  have h2 : N < (0 + 2 ^ (bit_length N / 2 + 1)) ^ 2 := by
    rw [zero_add, ← pow_mul]
    refine lt_of_lt_of_le hb (Nat.pow_le_pow_right (by decide) ?_)
    omega
  obtain ⟨h3, h4⟩ := isqrt_bits_spec N (bit_length N / 2 + 1) 0 (Nat.zero_le _) h2
  refine Nat.eq_sqrt.mpr ⟨?_, ?_⟩
  · rw [← pow_two]; exact h3
  · rw [← pow_two]; exact h4

/-- What `round_nearest_even` returns is a binary32 number, a significand `n` of
at most 24 bits times the spacing `2^q`, and lies within half a spacing of
`num / den`. -/
theorem round_nearest_even_spec (num den r : Nat) (hden : 0 < den)
    (h : round_nearest_even num den = some r) :
    ∃ q n, q = bit_length (num / den) - 24 ∧ r = n * 2 ^ q ∧ n ≤ 2 ^ 24 ∧
      2 * (r * den) ≤ 2 * num + den * 2 ^ q ∧ 2 * num ≤ 2 * (r * den) + den * 2 ^ q := by
  unfold round_nearest_even at h
  simp only at h
  generalize hq : bit_length (num / den) - 24 = q at h
  have hd : 0 < den * 2 ^ q := Nat.mul_pos hden (pow_pos (by decide) q)
  have hdm := Nat.div_add_mod num (den * 2 ^ q)
  have hr := Nat.mod_lt num hd
  have hn : num / (den * 2 ^ q) < 2 ^ 24 := by
    rw [← Nat.div_div_eq_div_mul]
    have hb := (bit_length_spec (num / den)).1
    rw [Nat.div_lt_iff_lt_mul (pow_pos (by decide) q), ← pow_add]
    refine lt_of_lt_of_le hb (Nat.pow_le_pow_right (by decide) ?_)
    omega
  split_ifs at h with h1 h2 h3
  · have hr2 := Option.some.inj h
    subst hr2
    refine ⟨q, _, rfl, rfl, hn, ?_, ?_⟩
    · have e : (num / (den * 2 ^ q) + 1) * 2 ^ q * den =
          den * 2 ^ q * (num / (den * 2 ^ q)) + den * 2 ^ q := by ring
      rw [e]
      rcases h1 with h1 | h1 <;> omega
    · have e : (num / (den * 2 ^ q) + 1) * 2 ^ q * den =
          den * 2 ^ q * (num / (den * 2 ^ q)) + den * 2 ^ q := by ring
      rw [e]
      omega
  · have hr2 := Option.some.inj h
    subst hr2
    refine ⟨q, _, rfl, rfl, hn.le, ?_, ?_⟩
    · have e : num / (den * 2 ^ q) * 2 ^ q * den =
          den * 2 ^ q * (num / (den * 2 ^ q)) := by ring
      rw [e]
      omega
    · have e : num / (den * 2 ^ q) * 2 ^ q * den =
          den * 2 ^ q * (num / (den * 2 ^ q)) := by ring
      rw [e]
      have h1' : ¬ den * 2 ^ q < 2 * (num % (den * 2 ^ q)) := fun hc => h1 (Or.inl hc)
      omega

/-- What `round_sqrt` returns is a binary32 number, a significand `n` of at most
24 bits times the spacing `2^q`, and lies within half a spacing of the square
root of `N`. -/
theorem round_sqrt_spec (N : Nat) :
    ∃ q n, q = bit_length (isqrt N) - 24 ∧ round_sqrt N = n * 2 ^ q ∧ n ≤ 2 ^ 24 ∧
      (2 * n - 1) ^ 2 * 4 ^ q ≤ 4 * N ∧ 4 * N ≤ (2 * n + 1) ^ 2 * 4 ^ q := by
  unfold round_sqrt
  simp only
  generalize hq : bit_length (isqrt N) - 24 = q
  generalize hn0 : isqrt (N / 4 ^ q) = n0
  have h4 : 0 < 4 ^ q := pow_pos (by decide) q
  rw [isqrt_eq_sqrt] at hn0
  have hlo : n0 ^ 2 * 4 ^ q ≤ N := by
    have h := Nat.sqrt_le' (N / 4 ^ q)
    rw [hn0] at h
    exact (Nat.le_div_iff_mul_le h4).mp h
  have hhi : N < (n0 + 1) ^ 2 * 4 ^ q := by
    have h := Nat.lt_succ_sqrt' (N / 4 ^ q)
    rw [hn0] at h
    exact (Nat.div_lt_iff_lt_mul h4).mp h
  have hn : n0 < 2 ^ 24 := by
    have hb := (bit_length_spec (isqrt N)).1
    rw [isqrt_eq_sqrt] at hb hq
    have h1 : (n0 * 2 ^ q) ^ 2 ≤ N := by
      rw [mul_pow, ← pow_mul, mul_comm q 2, pow_mul]
      exact hlo
    have h2 : n0 * 2 ^ q ≤ Nat.sqrt N := Nat.le_sqrt'.mpr h1
    have h3 : n0 * 2 ^ q < 2 ^ 24 * 2 ^ q := by
      rw [← pow_add]
      refine lt_of_le_of_lt h2 (lt_of_lt_of_le hb (Nat.pow_le_pow_right (by decide) ?_))
      omega
    exact Nat.lt_of_mul_lt_mul_right h3
  have hm : (2 * n0 - 1) ^ 2 ≤ 4 * n0 ^ 2 := by
    have : (2 * n0 - 1) ^ 2 ≤ (2 * n0) ^ 2 := Nat.pow_le_pow_left (Nat.sub_le _ _) 2
    calc (2 * n0 - 1) ^ 2 ≤ (2 * n0) ^ 2 := this
      _ = 4 * n0 ^ 2 := by ring
  split_ifs with h1
  · refine ⟨q, n0 + 1, rfl, rfl, hn, ?_, ?_⟩
    · have e : 2 * (n0 + 1) - 1 = 2 * n0 + 1 := by omega
      rw [e]
      rcases h1 with h1 | h1
      · exact h1.le
      · exact h1.1.le
    · have e : (2 * (n0 + 1) + 1) ^ 2 * 4 ^ q =
          4 * ((n0 + 1) ^ 2 * 4 ^ q) + (4 * n0 + 5) * 4 ^ q := by ring
      rw [e]
      omega
  · refine ⟨q, n0, rfl, rfl, hn.le, ?_, ?_⟩
    · calc (2 * n0 - 1) ^ 2 * 4 ^ q ≤ 4 * n0 ^ 2 * 4 ^ q := Nat.mul_le_mul_right _ hm
        _ = 4 * (n0 ^ 2 * 4 ^ q) := by ring
        _ ≤ 4 * N := Nat.mul_le_mul_left _ hlo
    · exact not_lt.mp (fun hc => h1 (Or.inl hc))

set_option maxRecDepth 100000 in
/-- C21 fails as stated. In binary32, take the 1x1 layer as the constructor
leaves it, parameters and histories `0`, with both accumulated gradients
`g = 1e-8f`, and call `step_grad_rms_prop(1.0f, 0.9f, 1e-8f)` twice.  The
hypotheses of the claim hold, with `h0 = 0 < g * g`, and the accumulators are
the same at both calls.  The histories grow, to `12089260 * 2^(-80)` (about `1e-17`)
and then `11484797 * 2^(-79)` (about `1.9e-17`), but both are below half the spacing
of the binary32 numbers at `1e-8f`, so `history + smoothing_term` is `1e-8f`
at both calls: the bias and the weight go from `0` to `-13743895 * 2^(-37)`
(about `-9.9999997e-05`) and then to twice that, and the second move is as
long as the first, not strictly shorter. -/
theorem rms_prop_rounded_steps_equal :
    F32.lt 0 1 = true ∧ F32.lt 0 (F32.ofRat 9 10) = true ∧ F32.lt (F32.ofRat 9 10) 1 = true ∧
    F32.lt 0 (F32.ofRat 1 (10 ^ 8)) = true ∧
    F32.ofRat 9 10 = F32.fin (15099494 * 2 ^ 125) ∧
    F32.ofRat 1 (10 ^ 8) = F32.fin (11258999 * 2 ^ 99) ∧
    f32_layer.bias_grad_ = [F32.ofRat 1 (10 ^ 8)] ∧
    f32_layer.weight_grad_ = [F32.ofRat 1 (10 ^ 8)] ∧
    f32_layer.bias_grad_history_ = [F32.fin 0] ∧
    f32_layer.weight_grad_history_ = [F32.fin 0] ∧
    F32.lt (F32.fin 0) (F32.ofRat 1 (10 ^ 8) * F32.ofRat 1 (10 ^ 8)) = true ∧
    (f32_layer.step_grad_rms_prop_f32 1 (F32.ofRat 9 10) (F32.ofRat 1 (10 ^ 8))).bias_grad_ =
      f32_layer.bias_grad_ ∧
    (f32_layer.step_grad_rms_prop_f32 1 (F32.ofRat 9 10) (F32.ofRat 1 (10 ^ 8))).weight_grad_ =
      f32_layer.weight_grad_ ∧
    (f32_layer.step_grad_rms_prop_f32 1 (F32.ofRat 9 10)
      (F32.ofRat 1 (10 ^ 8))).bias_grad_history_ = [F32.fin (12089260 * 2 ^ 69)] ∧
    ((f32_layer.step_grad_rms_prop_f32 1 (F32.ofRat 9 10)
      (F32.ofRat 1 (10 ^ 8))).step_grad_rms_prop_f32 1 (F32.ofRat 9 10)
        (F32.ofRat 1 (10 ^ 8))).bias_grad_history_ = [F32.fin (11484797 * 2 ^ 70)] ∧
    f32_layer.bias_ = [F32.fin 0] ∧
    (f32_layer.step_grad_rms_prop_f32 1 (F32.ofRat 9 10) (F32.ofRat 1 (10 ^ 8))).bias_ =
      [F32.fin (-(13743895 * 2 ^ 112))] ∧
    ((f32_layer.step_grad_rms_prop_f32 1 (F32.ofRat 9 10)
      (F32.ofRat 1 (10 ^ 8))).step_grad_rms_prop_f32 1 (F32.ofRat 9 10)
        (F32.ofRat 1 (10 ^ 8))).bias_ = [F32.fin (-(13743895 * 2 ^ 113))] ∧
    ¬ (((((f32_layer.step_grad_rms_prop_f32 1 (F32.ofRat 9 10)
            (F32.ofRat 1 (10 ^ 8))).step_grad_rms_prop_f32 1 (F32.ofRat 9 10)
              (F32.ofRat 1 (10 ^ 8))).bias_.getD 0 0).units -
          ((f32_layer.step_grad_rms_prop_f32 1 (F32.ofRat 9 10)
            (F32.ofRat 1 (10 ^ 8))).bias_.getD 0 0).units).natAbs <
        (((f32_layer.step_grad_rms_prop_f32 1 (F32.ofRat 9 10)
            (F32.ofRat 1 (10 ^ 8))).bias_.getD 0 0).units -
          (f32_layer.bias_.getD 0 0).units).natAbs) ∧
    f32_layer.weights_ = [F32.fin 0] ∧
    (f32_layer.step_grad_rms_prop_f32 1 (F32.ofRat 9 10) (F32.ofRat 1 (10 ^ 8))).weights_ =
      [F32.fin (-(13743895 * 2 ^ 112))] ∧
    ((f32_layer.step_grad_rms_prop_f32 1 (F32.ofRat 9 10)
      (F32.ofRat 1 (10 ^ 8))).step_grad_rms_prop_f32 1 (F32.ofRat 9 10)
        (F32.ofRat 1 (10 ^ 8))).weights_ = [F32.fin (-(13743895 * 2 ^ 113))] ∧
    ¬ (((((f32_layer.step_grad_rms_prop_f32 1 (F32.ofRat 9 10)
            (F32.ofRat 1 (10 ^ 8))).step_grad_rms_prop_f32 1 (F32.ofRat 9 10)
              (F32.ofRat 1 (10 ^ 8))).weights_.getD 0 0).units -
          ((f32_layer.step_grad_rms_prop_f32 1 (F32.ofRat 9 10)
            (F32.ofRat 1 (10 ^ 8))).weights_.getD 0 0).units).natAbs <
        (((f32_layer.step_grad_rms_prop_f32 1 (F32.ofRat 9 10)
            (F32.ofRat 1 (10 ^ 8))).weights_.getD 0 0).units -
          (f32_layer.weights_.getD 0 0).units).natAbs) := by
  decide

end Rounded

end nnets
